import Mathlib

/-!
# The string library `my_string.h` and the binary search tree

A shallow embedding of the string container of `src/my_string.h` and of its operations, and
of the binary search tree of `src/Data Structure/Tree/BinarySearchTree.c`, followed by the
properties proved about them.

## Conventions of the embedding

* A C `int` is an `Int` and the arithmetic is exact. The doubling of the capacity in
  `str_append`, which `str_replace` calls, leaves the range of `int` for results of `2^30`
  bytes or more: `str_appendInt` and `str_replaceInt` are these two functions with the sums
  and the doubling reduced to 32 bits (`wrapInt`), and they coincide with the exact ones
  below that size.
* A `char` is the `Int` value the C expression reads from it. Where `char` is signed (the
  x86 and x86-64 ABIs) that value lies in `-128..127`, where it is unsigned in `0..255`;
  the byte stored is `byteVal c = c % 256` in both cases. No definition below depends on the
  range, theorems that need one say so.
* A block returned by `malloc` is a list of cells, `none` for a cell never written. Reading a
  `none` cell or any index outside the block is `Err.badAccess` (undefined behaviour in C).
* A function that may stop the program returns in `Exec`: `Err.outOfRange` and
  `Err.emptySeparator` are the two `exit(EXIT_FAILURE)` paths with those messages,
  `Err.allocFailed` the one of `_check_pointer`.
* A `for` loop with a fixed bound is `forRange`. A `while` loop is a recursive function with a
  count of iterations left, `Err.fuel` when the count runs out; callers pass a bound on the
  number of iterations and the theorems show the bound is never reached, or, for the loop
  of `str_replace` with an empty pattern, that every bound is.
* A function that writes through a `string *` returns the new value of that string.
* A constant of the platform that the source reads, `sizeof(int)` in `str_get`, is a parameter
  of the function.
-/

namespace MyString

/-! ## Memory and control -/

/-- Ways an execution stops without returning a value. -/
inductive Err where
  | outOfRange
  | emptySeparator
  | allocFailed
  | badAccess
  | fuel
  deriving DecidableEq

/-- Result of running a piece of the program. -/
abbrev Exec := Except Err

/-- An allocated block: one cell per element, `none` while the cell is uninitialised. -/
abbrev Buf (α : Type) := List (Option α)

/-- Allocation of `n` cells, as `malloc` followed by `_check_pointer`: a negative count, which
C converts to a huge `size_t`, is an allocation failure. -/
def malloc {α : Type} (n : Int) : Exec (Buf α) :=
  if n < 0 then .error .allocFailed else .ok (List.replicate n.toNat none)

/-- Read of `b[i]`. -/
def rd {α : Type} (b : Buf α) (i : Int) : Exec α :=
  if i < 0 then .error .badAccess
  else match b[i.toNat]? with
    | some (some v) => .ok v
    | _ => .error .badAccess

/-- Write `b[i] = v`. -/
def wr {α : Type} (b : Buf α) (i : Int) (v : α) : Exec (Buf α) :=
  if 0 ≤ i ∧ i.toNat < b.length then .ok (b.set i.toNat (some v)) else .error .badAccess

/-- A `const char *`: a block and an offset into it. -/
structure cptr where
  blk : Buf Int
  off : Int
  deriving DecidableEq

/-- Read of `p[i]`. -/
def cptr.at (p : cptr) (i : Int) : Exec Int := rd p.blk (p.off + i)

/-- The `string` structure (my_string.h, lines 53-63). -/
structure string where
  size : Int
  capacity : Int
  data : Buf Int
  deriving DecidableEq

/-- The enumeration `order` (my_string.h, lines 66-76). -/
inductive order where
  | LT
  | EQ
  | GT
  deriving DecidableEq

/-- Runs `body i` for `k` successive values of `i`. -/
def forLoop {σ : Type} (body : Int → σ → Exec σ) : Nat → Int → σ → Exec σ
  | 0, _, st => .ok st
  | k + 1, i, st => do
    let st' ← body i st
    forLoop body k (i + 1) st'

/-- The loop `for (int i = lo; i < hi; i++) body`, where `body` changes neither `i` nor `hi`. -/
def forRange {σ : Type} (lo hi : Int) (body : Int → σ → Exec σ) (st : σ) : Exec σ :=
  forLoop body (hi - lo).toNat lo st

/-- The macro `STR_NOT_FOUND` (line 50). -/
def STR_NOT_FOUND : Int := -1

/-! ## The functions of the library -/

/-- Helper `_check_bounds` (lines 583-590). -/
def _check_bounds (pos begin_ end_ : Int) : Exec Unit :=
  if pos < begin_ ∨ pos ≥ end_ then .error .outOfRange else .ok ()

/-- Back-off loop of `_find_pattern` (lines 620-623):
`while ((i >= 0) && (pattern[i + 1] != pattern[j])) i = match[i];`, returning the final `i`. -/
def backoff (pattern : cptr) (mtch : Buf Int) (j : Int) : Nat → Int → Exec Int
  | 0, _ => .error .fuel
  | fuel + 1, i =>
    if i ≥ 0 then do
      let a ← pattern.at (i + 1)
      let b ← pattern.at j
      if a ≠ b then do
        let i' ← rd mtch i
        backoff pattern mtch j fuel i'
      else pure i
    else pure i

/-- Body of the table loop of `_find_pattern` for one `j` (lines 619-631). -/
def tableStep (pattern : cptr) (j : Int) (mtch : Buf Int) : Exec (Buf Int) := do
  let i0 ← rd mtch (j - 1)
  let i ← backoff pattern mtch j (j.toNat + 1) i0
  let a ← pattern.at (i + 1)
  let b ← pattern.at j
  if a = b then wr mtch j (i + 1) else wr mtch j STR_NOT_FOUND

/-- Scan loop of `_find_pattern` (lines 636-651), returning the final `(s, p)`. -/
def scan (str pattern : cptr) (mtch : Buf Int) (n m : Int) : Nat → Int → Int → Exec (Int × Int)
  | 0, _, _ => .error .fuel
  | fuel + 1, s, p =>
    if s < n ∧ p < m then do
      let a ← str.at s
      let b ← pattern.at p
      if a = b then scan str pattern mtch n m fuel (s + 1) (p + 1)
      else if p > 0 then do
        let k ← rd mtch (p - 1)
        scan str pattern mtch n m fuel s (k + 1)
      else scan str pattern mtch n m fuel (s + 1) p
    else pure (s, p)

/-- Helper `_find_pattern` (lines 601-656). -/
def _find_pattern (str pattern : cptr) (n m : Int) : Exec Int :=
  if n < m then pure STR_NOT_FOUND
  else if m = 0 then pure 0
  else do
    let mtch ← malloc m
    let mtch ← wr mtch 0 STR_NOT_FOUND
    let mtch ← forRange 1 m (tableStep pattern) mtch
    let (s, p) ← scan str pattern mtch n m (2 * n.toNat + 1) 0 0
    pure (if p = m then s - m else STR_NOT_FOUND)

/-- Function `str_size` (lines 284-287). -/
def str_size (str : string) : Int := str.size

/-- Function `str_find` (lines 433-441). -/
def str_find (str pattern : string) : Exec Int :=
  _find_pattern ⟨str.data, 0⟩ ⟨pattern.data, 0⟩ (str_size str) (str_size pattern)

/-- Function `str_create` (lines 262-273). -/
def str_create : Exec string := do
  let data ← malloc 8
  let data ← wr data 0 0
  pure ⟨0, 8, data⟩

/-- Helper `_copy_range` (lines 669-685); the result is the new value of `dst`. -/
def _copy_range (dst src : string) (begin_ end_ : Int) : Exec string := do
  _check_bounds begin_ 0 src.size
  _check_bounds end_ 0 (src.size + 1)
  let dst := { dst with size := end_ - begin_ }
  let dst := { dst with capacity := dst.size + 1 }
  let data ← malloc dst.capacity
  let data ← forRange 0 dst.size (fun i d => do
    let c ← rd src.data (begin_ + i)
    wr d i c) data
  let data ← wr data dst.size 0
  pure { dst with data := data }

/-- Growth loop of `str_append` (lines 447-450):
`while (str->size + new_str->size >= str->capacity) str->capacity *= 2;`, where `need` is the
sum of the two sizes; returns the final capacity. The arithmetic is exact, a doubling never
leaves the integers; `growLoopInt` is the same loop on the type `int` and agrees with this one
while `need < 2^30`. -/
def growLoop (need : Int) : Nat → Int → Exec Int
  | 0, _ => .error .fuel
  | fuel + 1, capacity =>
    if need ≥ capacity then growLoop need fuel (capacity * 2) else pure capacity

/-- Function `str_append` (lines 443-467), in exact arithmetic; the result is the new value of
`str`. The function on the type `int` is `str_appendInt`. -/
def str_append (str new_str : string) : Exec string := do
  let str ←
    if str.size + new_str.size ≥ str.capacity then do
      let capacity ← growLoop (str.size + new_str.size)
        ((str.size + new_str.size).toNat + 2) str.capacity
      let tmp ← malloc capacity
      let tmp ← forRange 0 str.size (fun i t => do
        let c ← rd str.data i
        wr t i c) tmp
      pure { str with capacity := capacity, data := tmp }
    else pure str
  let data ← forRange 0 new_str.size (fun i d => do
    let c ← rd new_str.data i
    wr d (str.size + i) c) str.data
  let size := str.size + new_str.size
  let data ← wr data size 0
  pure { str with size := size, data := data }

/-- Function `str_erase` (lines 469-480); the result is the new value of `str`. -/
def str_erase (str : string) (begin_ end_ : Int) : Exec string := do
  let begin_ := if begin_ < 0 then 0 else begin_
  let end_ := if end_ > str.size then str.size else end_
  let data ← forRange end_ str.size (fun i d => do
    let c ← rd d i
    wr d (i - (end_ - begin_)) c) str.data
  let size := str.size - (end_ - begin_)
  let data ← wr data size 0
  pure { str with size := size, data := data }

/-- Loop of `str_replace` (lines 489-496), returning the final `buffer`, `tmp` and `offset`. -/
def replaceLoop (str old_str new_str : string) :
    Nat → string → string → Int → Exec (string × string × Int)
  | 0, _, _, _ => .error .fuel
  | fuel + 1, buffer, tmp, offset => do
    let index ← _find_pattern ⟨str.data, offset⟩ ⟨old_str.data, 0⟩
      (str.size - offset) old_str.size
    if index ≠ STR_NOT_FOUND then do
      let index := index + offset
      let tmp ← _copy_range tmp str offset index
      let buffer ← str_append buffer tmp
      let buffer ← str_append buffer new_str
      replaceLoop str old_str new_str fuel buffer tmp (index + old_str.size)
    else pure (buffer, tmp, offset)

/-- Function `str_replace` (lines 482-509), in exact arithmetic; the result is the new value of
`str`. The function on the type `int` is `str_replaceInt`. -/
def str_replace (str old_str new_str : string) : Exec string := do
  let buffer ← str_create
  let tmp ← str_create
  let (buffer, tmp, offset) ←
    replaceLoop str old_str new_str (str.size.toNat + 1) buffer tmp 0
  let buffer ←
    if offset ≠ str.size then do
      let tmp ← _copy_range tmp str offset str.size
      str_append buffer tmp
    else pure buffer
  pure { str with data := buffer.data, size := buffer.size, capacity := buffer.capacity }

/-- Loop of `str_split` (lines 525-531), returning the final `str_arr`, `count` and
`pos_begin`. A cell of `str_arr` holds `some tmp` for a pointer to the string `tmp`. -/
def splitLoop (str sep : string) :
    Nat → Buf (Option string) → Int → Int → Exec (Buf (Option string) × Int × Int)
  | 0, _, _, _ => .error .fuel
  | fuel + 1, str_arr, count, pos_begin => do
    let pos_sep ← _find_pattern ⟨str.data, pos_begin⟩ ⟨sep.data, 0⟩
      (str.size - pos_begin) sep.size
    if pos_sep ≠ STR_NOT_FOUND then do
      let tmp ← str_create
      let tmp ← _copy_range tmp str pos_begin (pos_begin + pos_sep)
      let str_arr ← wr str_arr count (some tmp)
      splitLoop str sep fuel str_arr (count + 1) (pos_begin + (pos_sep + sep.size))
    else pure (str_arr, count, pos_begin)

/-- Function `str_split` (lines 511-544). The array returned has one cell per pointer, `some
(some t)` for a pointer to the string `t` and `some none` for `NULL`; the final `realloc` keeps
its first `count + 1` cells. -/
def str_split (str sep : string) : Exec (Buf (Option string)) := do
  if sep.size = 0 then throw Err.emptySeparator
  let str_arr ← malloc (str.size + 1)
  let (str_arr, count, pos_begin) ← splitLoop str sep (str.size.toNat + 1) str_arr 0 0
  let (str_arr, count) ←
    if pos_begin ≠ str.size then do
      let tmp ← str_create
      let tmp ← _copy_range tmp str pos_begin str.size
      let str_arr ← wr str_arr count (some tmp)
      pure (str_arr, count + 1)
    else pure (str_arr, count)
  let str_arr ← wr str_arr count none
  pure (str_arr.take (count + 1).toNat)

/-- First loop of `str_strip` (lines 566-569):
`while (i < str->size && str->data[i] <= 0x20) ++i;`, returning the final `i`. -/
def skipLeading (str : string) : Nat → Int → Exec Int
  | 0, _ => .error .fuel
  | fuel + 1, i =>
    if i < str.size then do
      let c ← rd str.data i
      if c ≤ 0x20 then skipLeading str fuel (i + 1) else pure i
    else pure i

/-- Second loop of `str_strip` (lines 572-575):
`while (i >= 0 && str->data[i] <= 0x20) --i;`, returning the final `i`. -/
def skipTrailing (str : string) : Nat → Int → Exec Int
  | 0, _ => .error .fuel
  | fuel + 1, i =>
    if i ≥ 0 then do
      let c ← rd str.data i
      if c ≤ 0x20 then skipTrailing str fuel (i - 1) else pure i
    else pure i

/-- Function `str_strip` (lines 563-577); the result is the new value of `str`. -/
def str_strip (str : string) : Exec string := do
  let i ← skipLeading str (str.size.toNat + 1) 0
  let str ← str_erase str 0 i
  let i ← skipTrailing str (str.size.toNat + 1) (str.size - 1)
  str_erase str (i + 1) str.size

/-- Loop of `str_compare` (lines 403-406):
`for (int i = 0; i < str1->size && i < str2->size && diff == 0; i++) diff = ...;`, returning
the final `diff`. -/
def compareLoop (str1 str2 : string) : Nat → Int → Int → Exec Int
  | 0, _, _ => .error .fuel
  | fuel + 1, i, diff =>
    if i < str1.size ∧ i < str2.size ∧ diff = 0 then do
      let a ← rd str1.data i
      let b ← rd str2.data i
      compareLoop str1 str2 fuel (i + 1) (a - b)
    else pure diff

/-- Function `str_compare` (lines 400-431). -/
def str_compare (str1 str2 : string) : Exec order := do
  let diff ← compareLoop str1 str2 (str1.size.toNat + 1) 0 0
  if diff > 0 then pure order.GT
  else if diff < 0 then pure order.LT
  else if str1.size > str2.size then pure order.GT
  else if str1.size < str2.size then pure order.LT
  else pure order.EQ

/-- Loop of `_length` (lines 661-665): `while (*chars != 0) { chars++; len++; }`, returning
the final `len`. -/
def lengthLoop (chars : cptr) : Nat → Int → Exec Int
  | 0, _ => .error .fuel
  | fuel + 1, len => do
    let c ← chars.at len
    if c ≠ 0 then lengthLoop chars fuel (len + 1) else pure len

/-- Helper `_length` (lines 658-667). -/
def _length (chars : cptr) : Exec Int := lengthLoop chars (chars.blk.length + 1) 0

/-- Function `str_set` (lines 294-307); the result is the new value of `str`. -/
def str_set (str : string) (chars : cptr) : Exec string := do
  let size ← _length chars
  let str := { str with size := size }
  let str := { str with capacity := str.size + 1 }
  let data ← malloc str.capacity
  let data ← forRange 0 str.size (fun i d => do
    let c ← chars.at i
    wr d i c) data
  let data ← wr data str.size 0
  pure { str with data := data }

/-- Function `str_get` (lines 309-319), returning the block built; `sizeofInt` is the value
of `sizeof(str->size)`, the size of an `int` in bytes. -/
def str_get (sizeofInt : Int) (str : string) : Exec (Buf Int) := do
  let chars ← malloc (sizeofInt + 1)
  let chars ← forRange 0 str.size (fun i d => do
    let c ← rd str.data i
    wr d i c) chars
  wr chars str.size 0

/-- Loop of `str_equal` (lines 328-334), with its early `return false`; the result is the
value the function returns. -/
def equalLoop (str1 str2 : string) : Nat → Int → Exec Bool
  | 0, _ => .error .fuel
  | fuel + 1, i =>
    if i < str1.size then do
      let a ← rd str1.data i
      let b ← rd str2.data i
      if a ≠ b then pure false else equalLoop str1 str2 fuel (i + 1)
    else pure true

/-- Function `str_equal` (lines 321-337). -/
def str_equal (str1 str2 : string) : Exec Bool :=
  if str1.size ≠ str2.size then pure false
  else equalLoop str1 str2 (str1.size.toNat + 1) 0

/-- Function `str_at` (lines 339-344). -/
def str_at (str : string) (i : Int) : Exec Int := do
  _check_bounds i 0 str.size
  rd str.data i

/-- Loop of `str_reverse` (lines 348-353):
`for (int i = 0, j = str->size - 1; i < j; ++i, --j)` swapping `data[i]` and `data[j]`,
returning the final block. -/
def reverseLoop : Nat → Buf Int → Int → Int → Exec (Buf Int)
  | 0, _, _, _ => .error .fuel
  | fuel + 1, data, i, j =>
    if i < j then do
      let tmp ← rd data i
      let c ← rd data j
      let data ← wr data i c
      let data ← wr data j tmp
      reverseLoop fuel data (i + 1) (j - 1)
    else pure data

/-- Function `str_reverse` (lines 346-354); the result is the new value of `str`. -/
def str_reverse (str : string) : Exec string := do
  let data ← reverseLoop (str.size.toNat + 1) str.data 0 (str.size - 1)
  pure { str with data := data }

/-- Function `str_replace_char` (lines 356-365); the result is the new value of `str`. -/
def str_replace_char (str : string) (old_char new_char : Int) : Exec string := do
  let data ← forRange 0 str.size (fun i d => do
    let c ← rd d i
    if c = old_char then wr d i new_char else pure d) str.data
  pure { str with data := data }

/-- Function `str_lower` (lines 367-373), with `'A' = 65`, `'Z' = 90` and `'a' = 97`; the
result is the new value of `str`. -/
def str_lower (str : string) : Exec string := do
  let data ← forRange 0 str.size (fun i d => do
    let c ← rd d i
    wr d i (if c ≥ 65 ∧ c ≤ 90 then c + (97 - 65) else c)) str.data
  pure { str with data := data }

/-- Function `str_upper` (lines 375-381), with `'a' = 97`, `'z' = 122` and `'A' = 65`; the
result is the new value of `str`. -/
def str_upper (str : string) : Exec string := do
  let data ← forRange 0 str.size (fun i d => do
    let c ← rd d i
    wr d i (if c ≥ 97 ∧ c ≤ 122 then c - (97 - 65) else c)) str.data
  pure { str with data := data }

/-- Function `str_copy` (lines 383-398), returning the string `copy` points to. -/
def str_copy (str : string) : Exec string := do
  let size := str.size
  let capacity := str.capacity
  let data ← malloc capacity
  let data ← forRange 0 size (fun i d => do
    let c ← rd str.data i
    wr d i c) data
  let data ← wr data size 0
  pure ⟨size, capacity, data⟩

/-- Lines 471-478 of `str_erase`: the function up to and including `str->size -= (end - begin)`,
before the final store of the terminator. -/
def eraseShift (str : string) (begin_ end_ : Int) : Exec string := do
  let begin_ := if begin_ < 0 then 0 else begin_
  let end_ := if end_ > str.size then str.size else end_
  let data ← forRange end_ str.size (fun i d => do
    let c ← rd d i
    wr d (i - (end_ - begin_)) c) str.data
  pure { str with size := str.size - (end_ - begin_), data := data }

/-- Lines 613-632 of `_find_pattern`: the allocation of the table `match` and the loop that
fills it, returning the table. -/
def failureTable (pattern : cptr) (m : Int) : Exec (Buf Int) := do
  let mtch ← malloc m
  let mtch ← wr mtch 0 STR_NOT_FOUND
  forRange 1 m (tableStep pattern) mtch

/-! ## The growth of the capacity on the type `int` -/

/-- The value an `int` of 32 bits holds after an operation whose exact result is `x`: `x`
itself when it lies in `-2^31 .. 2^31 - 1`, and otherwise `x` reduced modulo `2^32` into that
range, the result on the usual targets (C leaves signed overflow undefined). -/
def wrapInt (x : Int) : Int := (x + 2147483648) % 4294967296 - 2147483648

/-- Growth loop of `str_append` (lines 447-450) with the capacity held in an `int`; `need` is
the sum of the two sizes, and the result is the final capacity. -/
def growLoopInt (need : Int) : Nat → Int → Exec Int
  | 0, _ => .error .fuel
  | fuel + 1, capacity =>
    if need ≥ capacity then growLoopInt need fuel (wrapInt (capacity * 2)) else pure capacity

/-- Function `str_append` (lines 443-467) with the sums of sizes and the capacity held in
`int`s; the result is the new value of `str`. For a capacity of at least 1 the growth loop
either ends within the count of iterations it is given or never does. -/
def str_appendInt (str new_str : string) : Exec string := do
  let str ←
    if wrapInt (str.size + new_str.size) ≥ str.capacity then do
      let capacity ← growLoopInt (wrapInt (str.size + new_str.size))
        ((wrapInt (str.size + new_str.size)).toNat + 2) str.capacity
      let tmp ← malloc capacity
      let tmp ← forRange 0 str.size (fun i t => do
        let c ← rd str.data i
        wr t i c) tmp
      pure { str with capacity := capacity, data := tmp }
    else pure str
  let data ← forRange 0 new_str.size (fun i d => do
    let c ← rd new_str.data i
    wr d (wrapInt (str.size + i)) c) str.data
  let size := wrapInt (str.size + new_str.size)
  let data ← wr data size 0
  pure { str with size := size, data := data }

/-- Loop of `str_replace` (lines 489-496) with the appends done by `str_appendInt`; the other
`int` expressions of the loop stay between 0 and the size of `str`. -/
def replaceLoopInt (str old_str new_str : string) :
    Nat → string → string → Int → Exec (string × string × Int)
  | 0, _, _, _ => .error .fuel
  | fuel + 1, buffer, tmp, offset => do
    let index ← _find_pattern ⟨str.data, offset⟩ ⟨old_str.data, 0⟩
      (str.size - offset) old_str.size
    if index ≠ STR_NOT_FOUND then do
      let index := index + offset
      let tmp ← _copy_range tmp str offset index
      let buffer ← str_appendInt buffer tmp
      let buffer ← str_appendInt buffer new_str
      replaceLoopInt str old_str new_str fuel buffer tmp (index + old_str.size)
    else pure (buffer, tmp, offset)

/-- Function `str_replace` (lines 482-509) with the appends done by `str_appendInt`; the result
is the new value of `str`. -/
def str_replaceInt (str old_str new_str : string) : Exec string := do
  let buffer ← str_create
  let tmp ← str_create
  let (buffer, tmp, offset) ←
    replaceLoopInt str old_str new_str (str.size.toNat + 1) buffer tmp 0
  let buffer ←
    if offset ≠ str.size then do
      let tmp ← _copy_range tmp str offset str.size
      str_appendInt buffer tmp
    else pure buffer
  pure { str with data := buffer.data, size := buffer.size, capacity := buffer.capacity }

/-! ## Vocabulary of the statements -/

/-- The string `s` satisfies the container invariant and holds exactly the chars `cs`:
`size` is their number, `capacity` is the allocated length of `data`, and `data` starts with
the chars followed by the terminator. -/
def Holds (s : string) (cs : List Int) : Prop :=
  s.size = cs.length ∧ s.capacity = s.data.length ∧
    s.data.take (cs.length + 1) = (cs ++ [0]).map some

instance (s : string) (cs : List Int) : Decidable (Holds s cs) := by
  unfold Holds; infer_instance

/-- The string with the chars `cs`, the terminator and no spare cell: what `_copy_range`
builds for a range that reads `cs`. -/
def strOf (cs : List Int) : string :=
  ⟨cs.length, cs.length + 1, cs.map some ++ [some 0]⟩

/-- The array cell that points to a freshly made string holding exactly `f`. -/
def cell (f : List Int) : Option (Option string) := some (some (strOf f))

/-- The list `ps` occurs in `cs` as a contiguous run starting at index `i`:
`0 ≤ i ≤ |cs| - |ps|` and `cs[i .. i+|ps|) = ps`. -/
def occursAt (cs ps : List Int) (i : Nat) : Prop :=
  i + ps.length ≤ cs.length ∧ (cs.drop i).take ps.length = ps

instance (cs ps : List Int) (i : Nat) : Decidable (occursAt cs ps i) := by
  unfold occursAt; infer_instance

/-- Search of the first index from `i` on, among `k` candidates, where `ps` occurs in `cs`. -/
def firstOccFrom (cs ps : List Int) : Nat → Nat → Option Nat
  | 0, _ => none
  | k + 1, i => if occursAt cs ps i then some i else firstOccFrom cs ps k (i + 1)

/-- Index of the first occurrence of `ps` in `cs`, if there is one. -/
def firstOcc (cs ps : List Int) : Option Nat := firstOccFrom cs ps (cs.length + 1) 0

/-- Result of a search as the library reports it: the index, or `STR_NOT_FOUND`. -/
def findSpec (cs ps : List Int) : Int :=
  match firstOcc cs ps with
  | some i => (i : Int)
  | none => STR_NOT_FOUND

/-- Replacement with a bound `k` on the number of occurrences replaced. -/
def replaceSpecAux (old new : List Int) : Nat → List Int → List Int
  | 0, t => t
  | k + 1, t =>
    match firstOcc t old with
    | some i => t.take i ++ new ++ replaceSpecAux old new k (t.drop (i + old.length))
    | none => t

/-- Left-to-right, non-overlapping replacement of `old` by `new` in `t`: when `old` first
occurs in `t` at index `i` the result is `t[0..i) ++ new ++` the replacement of the rest
after that occurrence, and it is `t` itself when `old` does not occur. -/
def replaceSpec (old new t : List Int) : List Int := replaceSpecAux old new t.length t

/-- Fragments with a bound `k` on the number of separators consumed. -/
def splitSpecAux (sep : List Int) : Nat → List Int → List (List Int)
  | 0, t => if t = [] then [] else [t]
  | k + 1, t =>
    match firstOcc t sep with
    | some i => t.take i :: splitSpecAux sep k (t.drop (i + sep.length))
    | none => if t = [] then [] else [t]

/-- Fragments of `t` between successive occurrences of `sep`: when `sep` first occurs in `t`
at index `i` they are `t[0..i)` followed by the fragments of the rest after that occurrence;
otherwise there is no fragment for an empty `t` and the single fragment `t` for any other. -/
def splitSpec (sep t : List Int) : List (List Int) := splitSpecAux sep t.length t

/-- Unsigned value (`0..255`) of the byte stored in a `char` whose value is `c`. -/
def byteVal (c : Int) : Int := c % 256

/-- The byte of `c` is at most `0x20`. -/
def isBlankByte (c : Int) : Bool := decide (byteVal c ≤ 0x20)

/-- The test `c <= 0x20` as `str_strip` performs it, on the value of the `char`. -/
def leBlank (c : Int) : Bool := decide (c ≤ 0x20)

/-- The list without its longest leading run and its longest trailing run of elements
satisfying `p`. -/
def stripSpec (p : Int → Bool) (cs : List Int) : List Int :=
  ((cs.dropWhile p).reverse.dropWhile p).reverse

/-- Lexicographic three-way comparison of two sequences of integers: decided by the first
index where they differ; when one is a proper prefix of the other the shorter is `LT`. -/
def lexCompare : List Int → List Int → order
  | [], [] => order.EQ
  | [], _ :: _ => order.LT
  | _ :: _, [] => order.GT
  | x :: xs, y :: ys =>
    if x < y then order.LT else if x > y then order.GT else lexCompare xs ys

/-- What `str_compare` returns once its loop has left `diff`. -/
def verdict (diff n1 n2 : Int) : order :=
  if diff > 0 then order.GT
  else if diff < 0 then order.LT
  else if n1 > n2 then order.GT
  else if n1 < n2 then order.LT
  else order.EQ

/-! ## Vocabulary of the proofs about `_find_pattern` -/

/-- `L` is the length of a proper prefix of `P[0..j]` (indices `0` to `j`) that is also a
suffix of it. -/
def isBorder (P : Nat → Int) (j L : Nat) : Prop :=
  L ≤ j ∧ ∀ t, t < L → P t = P (j + 1 - L + t)

instance (P : Nat → Int) (j L : Nat) : Decidable (isBorder P j L) := by
  unfold isBorder; infer_instance

/-- Length of the longest proper prefix of `P[0..j]` that is also a suffix of it. -/
def maxBorder (P : Nat → Int) (j : Nat) : Nat := Nat.findGreatest (isBorder P j) j

/-- Reading `p[k]` gives `P k` for every `k < m`. -/
def Reads (p : cptr) (P : Nat → Int) (m : Nat) : Prop :=
  ∀ k : Nat, k < m → p.at (k : Int) = .ok (P k)

/-- The table `mtch` has `m` cells and its first `j` hold the failure values of `P`. -/
def TableUpTo (P : Nat → Int) (mtch : Buf Int) (m j : Nat) : Prop :=
  mtch.length = m ∧ ∀ k, k < j → mtch[k]? = some (some ((maxBorder P k : Int) - 1))

/-- The pattern `P` (length `m`) occurs in the subject `S` (length `n`) at index `q`. -/
def occF (S P : Nat → Int) (n m q : Nat) : Prop :=
  q + m ≤ n ∧ ∀ t, t < m → S (q + t) = P t

/-- The value `c` lies in the range of the `char` type: that of a signed `char` (`-128..127`)
when `signed`, that of an unsigned one (`0..255`) otherwise. -/
def CharRange (signed : Bool) (c : Int) : Prop :=
  if signed then -128 ≤ c ∧ c ≤ 127 else 0 ≤ c ∧ c ≤ 255

instance (signed : Bool) (c : Int) : Decidable (CharRange signed c) := by
  unfold CharRange; infer_instance

/-- The container invariant as the specification states it, `0 ≤ size < capacity` and
`data[size] = 0`, `capacity` being the number of cells allocated for `data`. -/
def Invariant (s : string) : Prop :=
  0 ≤ s.size ∧ s.size < s.capacity ∧ s.capacity = s.data.length ∧
    s.data[s.size.toNat]? = some (some 0)

instance (s : string) : Decidable (Invariant s) := by
  unfold Invariant; infer_instance

/-- The block of `chars` holds the null-terminated byte string `cs`: the chars of `cs`, none
of them 0, followed by a 0. -/
def CStr (chars : cptr) (cs : List Int) : Prop :=
  (∀ k : Nat, k < cs.length → chars.at (k : Int) = .ok (cs.getD k 0) ∧ cs.getD k 0 ≠ 0) ∧
    chars.at (cs.length : Int) = .ok 0

/-- Lower-case letter of `c` when `c` is one of `'A'..'Z'`, and `c` otherwise. -/
def lowerChar (c : Int) : Int := if c ≥ 65 ∧ c ≤ 90 then c + (97 - 65) else c

/-- Upper-case letter of `c` when `c` is one of `'a'..'z'`, and `c` otherwise. -/
def upperChar (c : Int) : Int := if c ≥ 97 ∧ c ≤ 122 then c - (97 - 65) else c

/-- The block `d` is the block `d0` with its first `n` cells in reverse order. -/
def ReversedBlock (n : Nat) (d0 d : Buf Int) : Prop :=
  d.length = d0.length ∧ (∀ k, k < n → d[k]? = d0[n - 1 - k]?) ∧ (∀ k, n ≤ k → d[k]? = d0[k]?)


/-- The block `d` is the block `d0` with `f` applied to the char in each of its first `n`
cells. -/
def MappedBlock (f : Int → Int) (n : Nat) (d0 d : Buf Int) : Prop :=
  d.length = d0.length ∧ (∀ k, k < n → d[k]? = (d0[k]?).map (Option.map f)) ∧
    (∀ k, n ≤ k → d[k]? = d0[k]?)

/-- The prefix of length `L` of `w` is proper and is also a suffix of `w`. -/
def properBorder (w : List Int) (L : Nat) : Prop := L < w.length ∧ w.take L <:+ w

instance (w : List Int) (L : Nat) : Decidable (properBorder w L) := by
  unfold properBorder; infer_instance

/-- The length `L` is that of the longest proper prefix of `w` that is also a suffix of `w`. -/
def longestBorder (w : List Int) (L : Nat) : Prop :=
  properBorder w L ∧ ∀ L', properBorder w L' → L' ≤ L

end MyString

/-! # The binary search tree of `Data Structure/Tree/BinarySearchTree.c`

The header `BinarySearchTree.h` declares the type `tree_data_t` of the keys and the node
`struct node` with its fields `data`, `left` and `right`. The type of the keys is a parameter
here; the code compares keys with `<` and `>` and prints them with `%d`, so it is a linearly
ordered type. A pointer to a node is the subtree below it, `NULL` the empty one: the nodes
reachable from a root form a finite tree, each node allocated by `InsertNode` and owned by one
parent. A function that updates a node in place and returns it returns the new subtree;
allocation succeeds, and the message `DeleteNode` prints for a missing key is not modelled. -/

namespace BinarySearchTree

/-- The value of a `tree_node_t *`: `NULL`, or a node with its `data`, `left` and `right`. -/
inductive tree_node (tree_data_t : Type) where
  | NULL : tree_node tree_data_t
  | node (data : tree_data_t) (left right : tree_node tree_data_t) : tree_node tree_data_t

/-- The test `node == NULL`. -/
def tree_node.isNULL {tree_data_t : Type} : tree_node tree_data_t → Bool
  | .NULL => true
  | .node _ _ _ => false

/-- The `struct tree` of the file (lines 4-7). -/
structure tree (tree_data_t : Type) where
  root : tree_node tree_data_t

/-- Helper `InsertNode` (lines 89-116). -/
def InsertNode {tree_data_t : Type} [LinearOrder tree_data_t] :
    tree_node tree_data_t → tree_data_t → tree_node tree_data_t
  | .NULL, data => .node data .NULL .NULL
  | .node d l r, data =>
    if data < d then .node d (InsertNode l data) r
    else if data > d then .node d l (InsertNode r data)
    else .node d l r

/-- Helper `FindMinNode` (lines 118-131): the node reached by following `left` from `node`
while there is one, `NULL` for `NULL`. -/
def FindMinNode {tree_data_t : Type} : tree_node tree_data_t → tree_node tree_data_t
  | .NULL => .NULL
  | .node d l r => if l.isNULL then .node d l r else FindMinNode l

/-- Helper `DeleteNode` (lines 133-177). The result is `none` when the code reads `tmp->data`
through a null `tmp`. -/
def DeleteNode {tree_data_t : Type} [LinearOrder tree_data_t] :
    tree_node tree_data_t → tree_data_t → Option (tree_node tree_data_t)
  | .NULL, _ => some .NULL
  | .node d l r, data =>
    if data < d then
      (DeleteNode l data).map (fun l' => .node d l' r)
    else if data > d then
      (DeleteNode r data).map (fun r' => .node d l r')
    else if !l.isNULL && !r.isNULL then
      match FindMinNode r with
      | .NULL => none
      | .node m _ _ => (DeleteNode r m).map (fun r' => .node m l r')
    else if l.isNULL then some r
    else some l

/-- Function `Tree_Create` (lines 182-194). -/
def Tree_Create {tree_data_t : Type} : tree tree_data_t := ⟨.NULL⟩

/-- Function `Tree_Insert` (lines 261-264); the result is the new value of `*tree`. -/
def Tree_Insert {tree_data_t : Type} [LinearOrder tree_data_t] (t : tree tree_data_t)
    (data : tree_data_t) : tree tree_data_t :=
  { t with root := InsertNode t.root data }

/-- Function `Tree_Delete` (lines 266-269); the result is the new value of `*tree`. -/
def Tree_Delete {tree_data_t : Type} [LinearOrder tree_data_t] (t : tree tree_data_t)
    (data : tree_data_t) : Option (tree tree_data_t) :=
  (DeleteNode t.root data).map (fun root => { t with root := root })

/-! ## Vocabulary of the statements about the tree -/

/-- The keys stored below a node, left subtree first, then the node, then the right subtree. -/
def keys {tree_data_t : Type} : tree_node tree_data_t → List tree_data_t
  | .NULL => []
  | .node d l r => keys l ++ d :: keys r

/-- The set of the keys stored below a node. -/
def keySet {tree_data_t : Type} (t : tree_node tree_data_t) : Set tree_data_t :=
  {k | k ∈ keys t}

/-- The binary-search ordering: at every node, every key of the left subtree is smaller than
the key of the node and every key of the right subtree is larger. -/
def Ordered {tree_data_t : Type} [LinearOrder tree_data_t] : tree_node tree_data_t → Prop
  | .NULL => True
  | .node d l r =>
    Ordered l ∧ Ordered r ∧ (∀ k ∈ keys l, k < d) ∧ (∀ k ∈ keys r, d < k)

end BinarySearchTree

namespace MyString

/-! ## Lemmas -/

/-! ### Borders -/

theorem isBorder_zero (P : Nat → Int) (j : Nat) : isBorder P j 0 :=
  ⟨Nat.zero_le _, fun t ht => absurd ht (Nat.not_lt_zero t)⟩

theorem maxBorder_isBorder (P : Nat → Int) (j : Nat) : isBorder P j (maxBorder P j) :=
  Nat.findGreatest_spec (Nat.zero_le j) (isBorder_zero P j)

theorem maxBorder_le (P : Nat → Int) (j : Nat) : maxBorder P j ≤ j :=
  Nat.findGreatest_le j

theorem le_maxBorder {P : Nat → Int} {j L : Nat} (h : isBorder P j L) : L ≤ maxBorder P j :=
  Nat.le_findGreatest h.1 h

theorem isBorder_trans {P : Nat → Int} {j L L' : Nat} (hL : isBorder P j (L + 1))
    (hL' : isBorder P L L') : isBorder P j L' := by
  obtain ⟨h1, h2⟩ := hL
  obtain ⟨h3, h4⟩ := hL'
  refine ⟨by omega, fun t ht => ?_⟩
  rw [h4 t ht, h2 (L + 1 - L' + t) (by omega)]
  congr 1; omega

theorem isBorder_restrict {P : Nat → Int} {j L L' : Nat} (hL : isBorder P j (L + 1))
    (hL' : isBorder P j L') (hlt : L' ≤ L) : isBorder P L L' := by
  obtain ⟨h1, h2⟩ := hL
  obtain ⟨h3, h4⟩ := hL'
  refine ⟨hlt, fun t ht => ?_⟩
  rw [h4 t ht, h2 (L + 1 - L' + t) (by omega)]
  congr 1; omega

theorem isBorder_succ {P : Nat → Int} {j L : Nat} :
    isBorder P (j + 1) (L + 1) ↔ isBorder P j L ∧ P L = P (j + 1) := by
  constructor
  · rintro ⟨h1, h2⟩
    refine ⟨⟨by omega, fun t ht => ?_⟩, ?_⟩
    · rw [h2 t (by omega)]; congr 1; omega
    · rw [h2 L (by omega)]; congr 1; omega
  · rintro ⟨⟨h1, h2⟩, h3⟩
    refine ⟨by omega, fun t ht => ?_⟩
    rcases Nat.lt_succ_iff_lt_or_eq.mp ht with h | h
    · rw [h2 t h]; congr 1; omega
    · subst h; rw [h3]; congr 1; omega


/-! ### Reading buffers -/

theorem rd_nat {α : Type} {b : Buf α} {k : Nat} {v : α} (h : b[k]? = some (some v)) :
    rd b (k : Int) = .ok v := by
  simp [rd, h]

@[simp] theorem bind_ok {α β : Type} (a : α) (f : α → Exec β) :
    (Except.ok a >>= f) = f a := rfl

@[simp] theorem bind_error {α β : Type} (e : Err) (f : α → Exec β) :
    ((Except.error e : Exec α) >>= f) = Except.error e := rfl

@[simp] theorem pure_eq_ok {α : Type} (a : α) : (pure a : Exec α) = Except.ok a := rfl

theorem backoff_spec {pattern : cptr} {P : Nat → Int} {m : Nat} {mtch : Buf Int} {j : Nat}
    (hP : Reads pattern P m) (hj : j + 1 < m) (hT : TableUpTo P mtch m (j + 1)) :
    ∀ (fuel L : Nat), L + 2 ≤ fuel → isBorder P j L →
      (∀ L', L < L' → isBorder P j L' → P L' ≠ P (j + 1)) →
      ∃ L0 : Nat, backoff pattern mtch ((j + 1 : Nat) : Int) fuel ((L : Int) - 1) = .ok ((L0 : Int) - 1)
        ∧ isBorder P j L0 ∧ (∀ L', L0 < L' → isBorder P j L' → P L' ≠ P (j + 1))
        ∧ (L0 = 0 ∨ P L0 = P (j + 1)) := by
  intro fuel
  induction fuel with
  | zero => intro L h; omega
  | succ fuel ih =>
    intro L hf hB hmax
    rcases Nat.eq_zero_or_pos L with h0 | hpos
    · subst h0
      refine ⟨0, ?_, hB, hmax, Or.inl rfl⟩
      simp [backoff]
    · have hLj : L ≤ j := hB.1
      have e1 : (L : Int) - 1 + 1 = ((L : Nat) : Int) := by omega
      have r1 : pattern.at ((L : Int) - 1 + 1) = .ok (P L) := by
        rw [e1]; exact hP L (by omega)
      have r2 : pattern.at ((j + 1 : Nat) : Int) = .ok (P (j + 1)) := hP (j + 1) hj
      by_cases hc : P L = P (j + 1)
      · refine ⟨L, ?_, hB, hmax, Or.inr hc⟩
        unfold backoff
        rw [if_pos (by omega), r1, r2]
        simp [hc]
      · obtain ⟨L1, rfl⟩ : ∃ L1, L = L1 + 1 := ⟨L - 1, by omega⟩
        have r3 : rd mtch (((L1 + 1 : Nat) : Int) - 1) = .ok ((maxBorder P L1 : Int) - 1) := by
          have : ((L1 + 1 : Nat) : Int) - 1 = (L1 : Int) := by omega
          rw [this]; exact rd_nat (hT.2 L1 (by omega))
        have hle := maxBorder_le P L1
        obtain ⟨L0, h1, h2, h3, h4⟩ := ih (maxBorder P L1) (by omega)
          (isBorder_trans hB (maxBorder_isBorder P L1))
          (by
            intro L' hlt hB'
            rcases Nat.lt_trichotomy L' (L1 + 1) with h | h | h
            · exact absurd (le_maxBorder (isBorder_restrict hB hB' (by omega))) (by omega)
            · subst h; exact hc
            · exact hmax L' h hB')
        refine ⟨L0, ?_, h2, h3, h4⟩
        unfold backoff
        rw [if_pos (by omega), r1, r2]
        simp only [bind_ok, ne_eq, hc, not_false_eq_true, if_true, r3]
        exact h1

theorem wr_nat {α : Type} {b : Buf α} {k : Nat} (v : α) (h : k < b.length) :
    wr b (k : Int) v = .ok (b.set k (some v)) := by
  simp [wr, h]

theorem forLoop_inv {σ : Type} (body : Int → σ → Exec σ) (Inv : Nat → σ → Prop) :
    ∀ (k i0 : Nat) (st : σ), Inv i0 st →
      (∀ (i : Nat) (s : σ), i0 ≤ i → i < i0 + k → Inv i s →
        ∃ s', body (i : Int) s = .ok s' ∧ Inv (i + 1) s') →
      ∃ st', forLoop body k (i0 : Int) st = .ok st' ∧ Inv (i0 + k) st' := by
  intro k
  induction k with
  | zero => intro i0 st h _; exact ⟨st, rfl, h⟩
  | succ k ih =>
    intro i0 st h hstep
    obtain ⟨s1, hb, h1⟩ := hstep i0 st (Nat.le_refl _) (by omega) h
    obtain ⟨s2, hl, h2⟩ := ih (i0 + 1) s1 h1
      (fun i s hi hlt hI => hstep i s (by omega) (by omega) hI)
    refine ⟨s2, ?_, by rw [show i0 + (k + 1) = i0 + 1 + k by omega]; exact h2⟩
    unfold forLoop
    rw [hb]
    simpa using hl

theorem tableStep_spec {pattern : cptr} {P : Nat → Int} {m : Nat} {mtch : Buf Int} {j : Nat}
    (hP : Reads pattern P m) (hj : j + 1 < m) (hT : TableUpTo P mtch m (j + 1)) :
    ∃ mtch', tableStep pattern ((j + 1 : Nat) : Int) mtch = .ok mtch' ∧
      TableUpTo P mtch' m (j + 1 + 1) := by
  have hmb := maxBorder_isBorder P j
  obtain ⟨L0, hb, hB, hmax, hex⟩ := backoff_spec hP hj hT (j + 2) (maxBorder P j)
    (by have := maxBorder_le P j; omega) hmb
    (fun L' hlt hB' => absurd (le_maxBorder hB') (by omega))
  have r0 : rd mtch (((j + 1 : Nat) : Int) - 1) = .ok ((maxBorder P j : Int) - 1) := by
    have : ((j + 1 : Nat) : Int) - 1 = (j : Int) := by omega
    rw [this]; exact rd_nat (hT.2 j (by omega))
  have hf : ((j + 1 : Nat) : Int).toNat + 1 = j + 2 := by omega
  have hL0 : L0 ≤ j := hB.1
  have r1 : pattern.at ((L0 : Int) - 1 + 1) = .ok (P L0) := by
    have : (L0 : Int) - 1 + 1 = (L0 : Int) := by omega
    rw [this]; exact hP L0 (by omega)
  have r2 : pattern.at ((j + 1 : Nat) : Int) = .ok (P (j + 1)) := hP (j + 1) hj
  have hlen : j + 1 < mtch.length := by rw [hT.1]; exact hj
  have key : ∀ v : Int, v = (maxBorder P (j + 1) : Int) - 1 →
      TableUpTo P (mtch.set (j + 1) (some v)) m (j + 1 + 1) := by
    intro v hv
    refine ⟨by simp [hT.1], fun k hk => ?_⟩
    rcases Nat.lt_succ_iff_lt_or_eq.mp hk with h | h
    · rw [List.getElem?_set_ne (by omega)]; exact hT.2 k h
    · subst h; rw [List.getElem?_set_self hlen, hv]
  unfold tableStep
  rw [r0]; simp only [bind_ok]
  rw [hf, hb]; simp only [bind_ok]
  rw [r1, r2]; simp only [bind_ok]
  by_cases hc : P L0 = P (j + 1)
  · rw [if_pos hc]
    have hmx : maxBorder P (j + 1) = L0 + 1 := by
      apply le_antisymm
      · by_contra hlt
        obtain ⟨B, hBe⟩ : ∃ B, maxBorder P (j + 1) = B + 1 := ⟨maxBorder P (j + 1) - 1, by omega⟩
        have hh := maxBorder_isBorder P (j + 1)
        rw [hBe] at hh
        obtain ⟨hb1, hb2⟩ := isBorder_succ.mp hh
        exact hmax B (by omega) hb1 hb2
      · exact le_maxBorder (isBorder_succ.mpr ⟨hB, hc⟩)
    refine ⟨_, wr_nat _ hlen, key _ ?_⟩
    rw [hmx]; push_cast; omega
  · rw [if_neg hc]
    have hz : L0 = 0 := hex.resolve_right hc
    subst hz
    have hmx : maxBorder P (j + 1) = 0 := by
      by_contra hne
      obtain ⟨B, hBe⟩ : ∃ B, maxBorder P (j + 1) = B + 1 := ⟨maxBorder P (j + 1) - 1, by omega⟩
      have hh := maxBorder_isBorder P (j + 1)
      rw [hBe] at hh
      obtain ⟨hb1, hb2⟩ := isBorder_succ.mp hh
      rcases Nat.eq_zero_or_pos B with h | h
      · subst h; exact hc hb2
      · exact hmax B h hb1 hb2
    refine ⟨_, wr_nat _ hlen, key _ ?_⟩
    rw [hmx]; simp [STR_NOT_FOUND]

theorem malloc_nat {α : Type} (m : Nat) :
    (malloc (m : Int) : Exec (Buf α)) = .ok (List.replicate m none) := by
  simp [malloc]

theorem wr_zero {α : Type} {b : Buf α} (v : α) (h : 0 < b.length) :
    wr b 0 v = .ok (b.set 0 (some v)) := by
  simp [wr, h]

theorem table_spec {pattern : cptr} {P : Nat → Int} {m : Nat}
    (hP : Reads pattern P m) (hm : 0 < m) :
    ∃ mtch, forRange 1 (m : Int) (tableStep pattern)
        ((List.replicate m (none : Option Int)).set 0 (some STR_NOT_FOUND)) = .ok mtch ∧
      TableUpTo P mtch m m := by
  have hinit : TableUpTo P ((List.replicate m (none : Option Int)).set 0 (some STR_NOT_FOUND)) m 1 := by
    refine ⟨by simp, fun k hk => ?_⟩
    have hk0 : k = 0 := by omega
    subst hk0
    rw [List.getElem?_set_self (by simpa using hm)]
    have : maxBorder P 0 = 0 := Nat.le_zero.mp (maxBorder_le P 0)
    simp [this, STR_NOT_FOUND]
  obtain ⟨mtch, hl, hI⟩ := forLoop_inv (tableStep pattern)
    (fun i t => TableUpTo P t m i) (m - 1) 1 _ hinit
    (fun i s hi hlt hI => by
      obtain ⟨i', rfl⟩ : ∃ i', i = i' + 1 := ⟨i - 1, by omega⟩
      exact tableStep_spec hP (by omega) hI)
  refine ⟨mtch, ?_, by rwa [show 1 + (m - 1) = m by omega] at hI⟩
  unfold forRange
  have : ((m : Int) - 1).toNat = m - 1 := by omega
  rw [this]
  exact hl

theorem scan_spec {str pattern : cptr} {S P : Nat → Int} {n m : Nat} {mtch : Buf Int}
    (hS : Reads str S n) (hP : Reads pattern P m) (hT : TableUpTo P mtch m m) :
    ∀ (fuel s p : Nat), 2 * (n - s) + p < fuel → p ≤ s → s ≤ n → p ≤ m →
      (∀ t, t < p → S (s - p + t) = P t) → (∀ q, q < s - p → ¬ occF S P n m q) →
      ∃ s' p' : Nat, scan str pattern mtch n m fuel s p = .ok ((s' : Int), (p' : Int)) ∧
        p' ≤ s' ∧ s' ≤ n ∧ p' ≤ m ∧ (s' = n ∨ p' = m) ∧
        (∀ t, t < p' → S (s' - p' + t) = P t) ∧ (∀ q, q < s' - p' → ¬ occF S P n m q) := by
  intro fuel
  induction fuel with
  | zero => intro s p h; omega
  | succ fuel ih =>
    intro s p hf hps hsn hpm hpre hno
    by_cases hc : s < n ∧ p < m
    · obtain ⟨hs, hp⟩ := hc
      have ra : str.at (s : Int) = .ok (S s) := hS s hs
      have rb : pattern.at (p : Int) = .ok (P p) := hP p hp
      unfold scan
      rw [if_pos (by omega), ra, rb]
      simp only [bind_ok]
      by_cases heq : S s = P p
      · rw [if_pos heq]
        have := ih (s + 1) (p + 1) (by omega) (by omega) (by omega) (by omega)
          (fun t ht => by
            rcases Nat.lt_succ_iff_lt_or_eq.mp ht with h | h
            · rw [← hpre t h]; congr 1; omega
            · subst h; rw [← heq]; congr 1; omega)
          (fun q hq => hno q (by omega))
        simpa using this
      · rw [if_neg heq]
        rcases Nat.eq_zero_or_pos p with hp0 | hp0
        · subst hp0
          rw [if_neg (by simp)]
          have := ih (s + 1) 0 (by omega) (by omega) (by omega) (by omega)
            (fun t ht => absurd ht (Nat.not_lt_zero t))
            (fun q hq hocc => by
              rcases Nat.lt_succ_iff_lt_or_eq.mp (show q < s + 1 by omega) with h | h
              · exact hno q (by omega) hocc
              · subst h
                have := hocc.2 0 (by omega)
                exact heq (by simpa using this))
          simpa using this
        · rw [if_pos (by omega)]
          obtain ⟨p1, rfl⟩ : ∃ p1, p = p1 + 1 := ⟨p - 1, by omega⟩
          have r3 : rd mtch (((p1 + 1 : Nat) : Int) - 1) = .ok ((maxBorder P p1 : Int) - 1) := by
            have : ((p1 + 1 : Nat) : Int) - 1 = (p1 : Int) := by omega
            rw [this]; exact rd_nat (hT.2 p1 (by omega))
          rw [r3]; simp only [bind_ok]
          have hle := maxBorder_le P p1
          obtain ⟨hB1, hB2⟩ := maxBorder_isBorder P p1
          have := ih s (maxBorder P p1) (by omega) (by omega) hsn (by omega)
            (fun t ht => by
              rw [hB2 t ht, ← hpre (p1 + 1 - maxBorder P p1 + t) (by omega)]
              congr 1; omega)
            (fun q hq hocc => by
              rcases Nat.lt_trichotomy q (s - (p1 + 1)) with h | h | h
              · exact hno q h hocc
              · subst h
                have := hocc.2 (p1 + 1) hp
                rw [show s - (p1 + 1) + (p1 + 1) = s by omega] at this
                exact heq this
              · have hb : isBorder P p1 (s - q) := by
                  refine ⟨by omega, fun t ht => ?_⟩
                  rw [← hocc.2 t (by omega)]
                  have e2 : p1 + 1 - (s - q) + t = q - (s - (p1 + 1)) + t := by omega
                  rw [e2, ← hpre (q - (s - (p1 + 1)) + t) (by omega)]
                  congr 1; omega
                have := le_maxBorder hb
                omega)
          have e : (maxBorder P p1 : Int) - 1 + 1 = (maxBorder P p1 : Int) := by omega
          rw [e]
          exact this
    · refine ⟨s, p, ?_, hps, hsn, hpm, by omega, hpre, hno⟩
      unfold scan
      rw [if_neg (by omega)]
      rfl

theorem find_pattern_fun {str pattern : cptr} {S P : Nat → Int} {n m : Nat}
    (hS : Reads str S n) (hP : Reads pattern P m) :
    (∃ q : Nat, _find_pattern str pattern (n : Int) (m : Int) = .ok (q : Int) ∧
        occF S P n m q ∧ ∀ q', q' < q → ¬ occF S P n m q') ∨
    (_find_pattern str pattern (n : Int) (m : Int) = .ok STR_NOT_FOUND ∧
        ∀ q, ¬ occF S P n m q) := by
  by_cases hnm : n < m
  · right
    refine ⟨?_, fun q hq => ?_⟩
    · unfold _find_pattern; rw [if_pos (by omega)]; rfl
    · have := hq.1; omega
  by_cases hm0 : m = 0
  · left
    subst hm0
    refine ⟨0, ?_, ⟨by omega, fun t ht => absurd ht (Nat.not_lt_zero t)⟩,
      fun q' h => absurd h (Nat.not_lt_zero q')⟩
    unfold _find_pattern; rw [if_neg (by omega), if_pos (by simp)]; rfl
  have hm : 0 < m := Nat.pos_of_ne_zero hm0
  obtain ⟨mtch, hmt, hT⟩ := table_spec hP hm
  obtain ⟨s', p', hsc, h1, h2, h3, h4, h5, h6⟩ := scan_spec hS hP hT (2 * n + 1) 0 0
    (by omega) (Nat.le_refl _) (Nat.zero_le _) (Nat.zero_le _)
    (fun t ht => absurd ht (Nat.not_lt_zero t)) (fun q hq => absurd hq (Nat.not_lt_zero q))
  have hf : 2 * (n : Int).toNat + 1 = 2 * n + 1 := by omega
  have hrun : _find_pattern str pattern (n : Int) (m : Int)
      = .ok (if (p' : Int) = (m : Int) then (s' : Int) - (m : Int) else STR_NOT_FOUND) := by
    unfold _find_pattern
    rw [if_neg (by omega), if_neg (by omega), malloc_nat, bind_ok,
      wr_zero _ (by simpa using hm), bind_ok, hmt, bind_ok, hf]
    simp only [Nat.cast_zero] at hsc
    rw [hsc]
    rfl
  rw [hrun]
  rcases Nat.lt_or_ge p' m with hlt | hge
  · right
    have hs : s' = n := h4.resolve_right (by omega)
    subst hs
    refine ⟨by rw [if_neg (by omega)], fun q hq => ?_⟩
    have := hq.1
    exact h6 q (by omega) hq
  · left
    have hp : p' = m := by omega
    subst hp
    refine ⟨s' - p', ?_, ⟨by omega, h5⟩, h6⟩
    rw [if_pos rfl]; push_cast [Nat.cast_sub h1]; rfl

/-! ### Occurrences in lists -/

theorem firstOccFrom_some {cs ps : List Int} :
    ∀ (k i r : Nat), firstOccFrom cs ps k i = some r →
      i ≤ r ∧ r < i + k ∧ occursAt cs ps r ∧ ∀ j, i ≤ j → j < r → ¬ occursAt cs ps j := by
  intro k
  induction k with
  | zero => intro i r h; simp [firstOccFrom] at h
  | succ k ih =>
    intro i r h
    unfold firstOccFrom at h
    by_cases hc : occursAt cs ps i
    · rw [if_pos hc] at h
      cases h
      exact ⟨Nat.le_refl _, by omega, hc, fun j h1 h2 => by omega⟩
    · rw [if_neg hc] at h
      obtain ⟨h1, h2, h3, h4⟩ := ih (i + 1) r h
      refine ⟨by omega, by omega, h3, fun j hj1 hj2 => ?_⟩
      rcases Nat.eq_or_lt_of_le hj1 with e | e
      · subst e; exact hc
      · exact h4 j e hj2

theorem firstOccFrom_none {cs ps : List Int} :
    ∀ (k i : Nat), firstOccFrom cs ps k i = none →
      ∀ j, i ≤ j → j < i + k → ¬ occursAt cs ps j := by
  intro k
  induction k with
  | zero => intro i _ j h1 h2; omega
  | succ k ih =>
    intro i h j h1 h2
    unfold firstOccFrom at h
    by_cases hc : occursAt cs ps i
    · rw [if_pos hc] at h; cases h
    · rw [if_neg hc] at h
      rcases Nat.eq_or_lt_of_le h1 with e | e
      · subst e; exact hc
      · exact ih (i + 1) h j e (by omega)

theorem firstOcc_some {cs ps : List Int} {r : Nat} (h : firstOcc cs ps = some r) :
    occursAt cs ps r ∧ ∀ j, j < r → ¬ occursAt cs ps j := by
  obtain ⟨_, _, h3, h4⟩ := firstOccFrom_some _ _ _ h
  exact ⟨h3, fun j hj => h4 j (Nat.zero_le _) hj⟩

theorem firstOcc_none {cs ps : List Int} (h : firstOcc cs ps = none) :
    ∀ j, ¬ occursAt cs ps j := by
  intro j hj
  have := hj.1
  exact firstOccFrom_none _ _ h j (Nat.zero_le _) (by omega) hj

theorem firstOcc_eq_some {cs ps : List Int} {r : Nat} (h1 : occursAt cs ps r)
    (h2 : ∀ j, j < r → ¬ occursAt cs ps j) : firstOcc cs ps = some r := by
  cases h : firstOcc cs ps with
  | none => exact absurd h1 (firstOcc_none h r)
  | some r' =>
    obtain ⟨h3, h4⟩ := firstOcc_some h
    rcases Nat.lt_trichotomy r r' with e | e | e
    · exact absurd h1 (h4 r e)
    · rw [e]
    · exact absurd h3 (h2 r' e)

theorem firstOcc_eq_none {cs ps : List Int} (h : ∀ j, ¬ occursAt cs ps j) :
    firstOcc cs ps = none := by
  cases h' : firstOcc cs ps with
  | none => rfl
  | some r => exact absurd (firstOcc_some h').1 (h r)

theorem getD_of_lt (cs : List Int) {k : Nat} (h : k < cs.length) :
    cs[k]? = some (cs.getD k 0) := by
  simp [List.getD_eq_getElem?_getD, List.getElem?_eq_getElem h]

theorem occursAt_iff_occF (cs ps : List Int) (q : Nat) :
    occursAt cs ps q ↔ occF (fun k => cs.getD k 0) (fun k => ps.getD k 0) cs.length ps.length q := by
  unfold occursAt occF
  constructor
  · rintro ⟨h1, h2⟩
    refine ⟨h1, fun t ht => ?_⟩
    have : ((cs.drop q).take ps.length)[t]? = ps[t]? := by rw [h2]
    rw [List.getElem?_take_of_lt ht, List.getElem?_drop] at this
    simp only [List.getD_eq_getElem?_getD, this]
  · rintro ⟨h1, h2⟩
    refine ⟨h1, List.ext_getElem? fun t => ?_⟩
    by_cases ht : t < ps.length
    · rw [List.getElem?_take_of_lt ht, List.getElem?_drop, getD_of_lt cs (by omega),
        getD_of_lt ps ht]
      exact congrArg some (h2 t ht)
    · rw [List.getElem?_eq_none (by simp; omega), List.getElem?_eq_none (by omega)]

theorem find_pattern_list {str pattern : cptr} {cs ps : List Int}
    (hS : Reads str (fun k => cs.getD k 0) cs.length)
    (hP : Reads pattern (fun k => ps.getD k 0) ps.length) :
    _find_pattern str pattern (cs.length : Int) (ps.length : Int) = .ok (findSpec cs ps) := by
  rcases find_pattern_fun hS hP with ⟨q, h1, h2, h3⟩ | ⟨h1, h2⟩
  · rw [h1]
    have := firstOcc_eq_some ((occursAt_iff_occF cs ps q).mpr h2)
      (fun j hj hc => h3 j hj ((occursAt_iff_occF cs ps j).mp hc))
    simp [findSpec, this]
  · rw [h1]
    have := firstOcc_eq_none (fun j hc => h2 j ((occursAt_iff_occF cs ps j).mp hc))
    simp [findSpec, this]

/-! ### The container invariant, pointwise -/

theorem holds_iff (s : string) (cs : List Int) :
    Holds s cs ↔ s.size = cs.length ∧ s.capacity = s.data.length ∧ cs.length < s.data.length ∧
      (∀ k, k < cs.length → s.data[k]? = some (some (cs.getD k 0))) ∧
      s.data[cs.length]? = some (some 0) := by
  unfold Holds
  constructor
  · rintro ⟨h1, h2, h3⟩
    have hlen : cs.length < s.data.length := by
      have := congrArg List.length h3
      simp at this
      omega
    have hget : ∀ k, k < cs.length + 1 → s.data[k]? = ((cs ++ [0]).map some)[k]? := by
      intro k hk
      rw [← h3, List.getElem?_take_of_lt hk]
    refine ⟨h1, h2, hlen, fun k hk => ?_, ?_⟩
    · rw [hget k (by omega), List.getElem?_map, List.getElem?_append_left hk, getD_of_lt cs hk]
      rfl
    · rw [hget _ (by omega), List.getElem?_map, List.getElem?_append_right (Nat.le_refl _)]
      simp
  · rintro ⟨h1, h2, h3, h4, h5⟩
    refine ⟨h1, h2, List.ext_getElem? fun k => ?_⟩
    rcases Nat.lt_trichotomy k cs.length with h | h | h
    · rw [List.getElem?_take_of_lt (by omega), h4 k h, List.getElem?_map,
        List.getElem?_append_left h, getD_of_lt cs h]
      rfl
    · subst h
      rw [List.getElem?_take_of_lt (by omega), h5, List.getElem?_map,
        List.getElem?_append_right (Nat.le_refl _)]
      simp
    · rw [List.getElem?_eq_none (by simp; omega), List.getElem?_eq_none (by simp; omega)]

theorem holds_strOf (cs : List Int) : Holds (strOf cs) cs := by
  unfold Holds strOf
  refine ⟨rfl, by simp, ?_⟩
  rw [List.take_of_length_le (by simp)]
  simp

theorem reads_of_holds {s : string} {cs : List Int} (h : Holds s cs) (off : Nat) :
    Reads ⟨s.data, (off : Int)⟩ (fun k => (cs.drop off).getD k 0) (cs.drop off).length := by
  obtain ⟨_, _, _, h4, _⟩ := (holds_iff s cs).mp h
  intro k hk
  simp only [List.length_drop] at hk
  have e : (off : Int) + (k : Int) = ((off + k : Nat) : Int) := by omega
  show rd s.data ((off : Int) + (k : Int)) = _
  rw [e, rd_nat (h4 (off + k) (by omega))]
  simp [List.getD_eq_getElem?_getD, List.getElem?_drop]

theorem find_pattern_holds {s p : string} {cs ps : List Int} (hs : Holds s cs) (hp : Holds p ps)
    (off : Nat) (hoff : off ≤ cs.length) :
    _find_pattern ⟨s.data, (off : Int)⟩ ⟨p.data, 0⟩ (s.size - (off : Int)) p.size
      = .ok (findSpec (cs.drop off) ps) := by
  have h1 := reads_of_holds hs off
  have h2 := reads_of_holds hp 0
  simp only [List.drop_zero, Nat.cast_zero] at h2
  have := find_pattern_list h1 h2
  rw [hs.1, hp.1]
  rw [← this]
  congr 1
  simp only [List.length_drop]
  omega

theorem str_find_holds {s p : string} {cs ps : List Int} (hs : Holds s cs) (hp : Holds p ps) :
    str_find s p = .ok (findSpec cs ps) := by
  have := find_pattern_holds hs hp 0 (Nat.zero_le _)
  simpa [str_find, str_size] using this

/-! ### Copy loops -/

theorem copy_loop (src : Buf Int) (f : Nat → Int) (n a b : Nat) (g h : Int → Int)
    (hg : ∀ k : Nat, k < n → g (k : Int) = ((a + k : Nat) : Int))
    (hh : ∀ k : Nat, k < n → h (k : Int) = ((b + k : Nat) : Int))
    (hsrc : ∀ k, k < n → src[a + k]? = some (some (f k)))
    (d0 : Buf Int) (hlen : b + n ≤ d0.length) :
    ∃ d, forLoop (fun i d => do
          let c ← rd src (g i)
          wr d (h i) c) n 0 d0 = .ok d ∧
      d.length = d0.length ∧ (∀ k, k < n → d[b + k]? = some (some (f k))) ∧
      (∀ k, (k < b ∨ b + n ≤ k) → d[k]? = d0[k]?) := by
  obtain ⟨d, h1, h2, h3, h4⟩ := forLoop_inv
    (fun i d => do
      let c ← rd src (g i)
      wr d (h i) c)
    (fun i d => d.length = d0.length ∧ (∀ k, k < i → d[b + k]? = some (some (f k))) ∧
      (∀ k, (k < b ∨ b + i ≤ k) → d[k]? = d0[k]?))
    n 0 d0 ⟨rfl, fun k hk => absurd hk (Nat.not_lt_zero k), fun k _ => rfl⟩
    (fun i s _ hi hI => by
      obtain ⟨e1, e2, e3⟩ := hI
      have hi' : i < n := by omega
      refine ⟨s.set (b + i) (some (f i)), ?_, by simp [e1], fun k hk => ?_, fun k hk => ?_⟩
      · show (rd src (g (i : Int)) >>= fun c => wr s (h (i : Int)) c) = _
        rw [hg i hi', hh i hi', rd_nat (hsrc i hi'), bind_ok, wr_nat _ (by omega)]
      · rcases Nat.lt_succ_iff_lt_or_eq.mp hk with hlt | heq
        · rw [List.getElem?_set_ne (by omega)]; exact e2 k hlt
        · subst heq; rw [List.getElem?_set_self (by omega)]
      · rw [List.getElem?_set_ne (by omega)]; exact e3 k (by omega))
  exact ⟨d, by simpa using h1, h2, by simpa using h3, by simpa using h4⟩

theorem check_bounds_ok {pos lo hi : Int} (h1 : lo ≤ pos) (h2 : pos < hi) :
    _check_bounds pos lo hi = .ok () := by
  unfold _check_bounds
  rw [if_neg (by omega)]

theorem check_bounds_fail {pos lo hi : Int} (h : pos < lo ∨ hi ≤ pos) :
    _check_bounds pos lo hi = .error .outOfRange := by
  unfold _check_bounds
  rw [if_pos (by omega)]

theorem buf_eq_of_pointwise {d : Buf Int} {xs : List Int} (hlen : d.length = xs.length + 1)
    (h1 : ∀ k, k < xs.length → d[k]? = some (some (xs.getD k 0)))
    (h2 : d[xs.length]? = some (some 0)) : d = xs.map some ++ [some 0] := by
  apply List.ext_getElem? 
  intro k
  rcases Nat.lt_trichotomy k xs.length with h | h | h
  · rw [h1 k h, List.getElem?_append_left (by simpa using h), List.getElem?_map, getD_of_lt xs h]
    rfl
  · subst h
    rw [h2, List.getElem?_append_right (by simp)]
    simp
  · rw [List.getElem?_eq_none (by omega), List.getElem?_eq_none (by simp; omega)]

theorem copy_range_spec {src : string} {cs : List Int} (hs : Holds src cs) (dst : string)
    (b e : Nat) (hb : b < cs.length) (hbe : b ≤ e) (he : e ≤ cs.length) :
    _copy_range dst src (b : Int) (e : Int) = .ok (strOf ((cs.drop b).take (e - b))) := by
  obtain ⟨h1, h2, h3, h4, h5⟩ := (holds_iff src cs).mp hs
  have hsz : (e : Int) - (b : Int) = ((e - b : Nat) : Int) := by omega
  have hlenxs : ((cs.drop b).take (e - b)).length = e - b := by
    simp only [List.length_take, List.length_drop]; omega
  obtain ⟨d, hd1, hd2, hd3, hd4⟩ := copy_loop src.data
    (fun k => ((cs.drop b).take (e - b)).getD k 0) (e - b) b 0
    (fun i => (b : Int) + i) (fun i => i)
    (fun k _ => by push_cast; rfl) (fun k _ => by simp)
    (fun k hk => by
      rw [h4 (b + k) (by omega)]
      simp only [List.getD_eq_getElem?_getD, List.getElem?_take_of_lt hk, List.getElem?_drop])
    (List.replicate (e - b + 1) none) (by simp)
  have hdata : (d.set (e - b) (some 0)) = ((cs.drop b).take (e - b)).map some ++ [some 0] := by
    apply buf_eq_of_pointwise
    · simp [hd2, hlenxs]
    · intro k hk
      rw [hlenxs] at hk
      rw [List.getElem?_set_ne (by omega)]
      have := hd3 k hk
      simpa using this
    · rw [hlenxs, List.getElem?_set_self (by rw [hd2]; simp)]
  unfold _copy_range
  rw [check_bounds_ok (by omega) (by omega), bind_ok, check_bounds_ok (by omega) (by omega), bind_ok]
  simp only [hsz]
  rw [show ((e - b : Nat) : Int) + 1 = ((e - b + 1 : Nat) : Int) by push_cast; rfl,
    malloc_nat, bind_ok]
  unfold forRange
  rw [show (((e - b : Nat) : Int) - 0).toNat = e - b by omega, hd1, bind_ok,
    wr_nat _ (by rw [hd2]; simp), bind_ok]
  simp only [pure_eq_ok, strOf, hdata, hlenxs, Nat.cast_add, Nat.cast_one]

/-! ### `str_create` and `str_append` -/

theorem str_create_eq :
    str_create = .ok ⟨0, 8, (List.replicate 8 none).set 0 (some 0)⟩ := rfl

theorem holds_create : Holds ⟨0, 8, (List.replicate 8 none).set 0 (some 0)⟩ [] := by
  decide

theorem growLoop_spec (need : Int) :
    ∀ (fuel : Nat) (cap : Int), 1 ≤ cap → (need - cap + 2).toNat ≤ fuel → 1 ≤ fuel →
      ∃ j : Nat, growLoop need fuel cap = .ok (cap * 2 ^ j) ∧ need < cap * 2 ^ j ∧
        ∀ j', j' < j → cap * 2 ^ j' ≤ need := by
  intro fuel
  induction fuel with
  | zero => intro cap _ _ h; omega
  | succ fuel ih =>
    intro cap hcap hf _
    by_cases hc : need ≥ cap
    · obtain ⟨j, h1, h2, h3⟩ := ih (cap * 2) (by omega) (by omega) (by omega)
      refine ⟨j + 1, ?_, ?_, fun j' hj' => ?_⟩
      · unfold growLoop
        rw [if_pos hc, h1, pow_succ]
        congr 1; ring
      · rw [pow_succ]; rw [show cap * (2 ^ j * 2) = cap * 2 * 2 ^ j by ring]; exact h2
      · rcases Nat.eq_zero_or_pos j' with h0 | h0
        · subst h0; simpa using hc
        · obtain ⟨k, rfl⟩ : ∃ k, j' = k + 1 := ⟨j' - 1, by omega⟩
          have := h3 k (by omega)
          rw [pow_succ, show cap * (2 ^ k * 2) = cap * 2 * 2 ^ k by ring]; exact this
    · refine ⟨0, ?_, by simpa using hc, fun j' hj' => absurd hj' (Nat.not_lt_zero j')⟩
      unfold growLoop
      rw [if_neg hc]; simp

theorem append_tail (str : string) {new_str : string} (xs : List Int) {ys : List Int}
    (hy : Holds new_str ys)
    (h1 : str.size = xs.length) (h2 : str.capacity = str.data.length)
    (h3 : xs.length + ys.length < str.data.length)
    (h4 : ∀ k, k < xs.length → str.data[k]? = some (some (xs.getD k 0))) :
    ∃ r, (do
        let data ← forRange 0 new_str.size (fun i d => do
          let c ← rd new_str.data i
          wr d (str.size + i) c) str.data
        let size := str.size + new_str.size
        let data ← wr data size 0
        (pure { str with size := size, data := data } : Exec string)) = .ok r ∧
      Holds r (xs ++ ys) ∧ r.capacity = str.capacity := by
  obtain ⟨g1, g2, g3, g4, g5⟩ := (holds_iff new_str ys).mp hy
  obtain ⟨d, hd1, hd2, hd3, hd4⟩ := copy_loop new_str.data
    (fun k => ys.getD k 0) ys.length 0 xs.length
    (fun i => i) (fun i => str.size + i)
    (fun k _ => by simp) (fun k _ => by rw [h1]; push_cast; rfl)
    (fun k hk => by rw [Nat.zero_add]; exact g4 k hk)
    str.data (by omega)
  refine ⟨⟨str.size + new_str.size, str.capacity, d.set (xs.length + ys.length) (some 0)⟩,
    ?_, ?_, rfl⟩
  · unfold forRange
    rw [g1, show ((ys.length : Int) - 0).toNat = ys.length by omega, hd1, bind_ok, h1,
      show (xs.length : Int) + (ys.length : Int) = ((xs.length + ys.length : Nat) : Int) by
        push_cast; rfl]
    dsimp only
    rw [wr_nat _ (by omega), bind_ok]
    rfl
  · rw [holds_iff]
    refine ⟨by simp [h1, g1], by simp [h2, hd2], by simp [hd2]; omega, fun k hk => ?_, ?_⟩
    · simp only [List.length_append] at hk
      show (d.set (xs.length + ys.length) (some 0))[k]? = _
      rw [List.getElem?_set_ne (by omega)]
      by_cases hkx : k < xs.length
      · rw [hd4 k (Or.inl hkx), h4 k hkx]
        simp [List.getD_eq_getElem?_getD, List.getElem?_append_left hkx]
      · have := hd3 (k - xs.length) (by omega)
        rw [show xs.length + (k - xs.length) = k by omega] at this
        rw [this]
        simp [List.getD_eq_getElem?_getD, List.getElem?_append_right (Nat.le_of_not_lt hkx)]
    · show (d.set (xs.length + ys.length) (some 0))[(xs ++ ys).length]? = _
      rw [List.length_append, List.getElem?_set_self (by omega)]

theorem append_spec {str new_str : string} {xs ys : List Int} (hx : Holds str xs)
    (hy : Holds new_str ys) :
    ∃ r, str_append str new_str = .ok r ∧ Holds r (xs ++ ys) := by
  obtain ⟨h1, h2, h3, h4, h5⟩ := (holds_iff str xs).mp hx
  unfold str_append
  by_cases hc : str.size + new_str.size ≥ str.capacity
  · rw [if_pos hc]
    obtain ⟨j, hj1, hj2, hj3⟩ := growLoop_spec (str.size + new_str.size)
      ((str.size + new_str.size).toNat + 2) str.capacity (by omega) (by omega) (by omega)
    obtain ⟨c, hc1⟩ : ∃ c : Nat, str.capacity * 2 ^ j = (c : Int) :=
      ⟨(str.capacity * 2 ^ j).toNat, by
        have : 0 ≤ str.capacity * 2 ^ j := by
          have : (0 : Int) ≤ 2 ^ j := by positivity
          exact Int.mul_nonneg (by omega) this
        omega⟩
    rw [hc1] at hj1 hj2
    obtain ⟨d, hd1, hd2, hd3, hd4⟩ := copy_loop str.data
      (fun k => xs.getD k 0) xs.length 0 0
      (fun i => i) (fun i => i)
      (fun k _ => by simp) (fun k _ => by simp)
      (fun k hk => by rw [Nat.zero_add]; exact h4 k hk)
      (List.replicate c none) (by simp; rw [h1, hy.1] at hj2; omega)
    rw [hj1, bind_ok, malloc_nat, bind_ok]
    unfold forRange
    rw [h1, show ((xs.length : Int) - 0).toNat = xs.length by omega, hd1, bind_ok]
    simp only [pure_eq_ok, bind_ok]
    obtain ⟨r, hr1, hr2, _⟩ := append_tail ⟨str.size, (c : Int), d⟩
      xs hy h1 (by simp [hd2])
      (by rw [h1, hy.1] at hj2; simp [hd2]; omega)
      (fun k hk => by simpa using hd3 k hk)
    exact ⟨r, by rw [← h1]; exact hr1, hr2⟩
  · rw [if_neg hc]
    simp only [pure_eq_ok, bind_ok]
    obtain ⟨r, hr1, hr2, _⟩ := append_tail str xs hy h1 h2
      (by rw [h1, hy.1, h2] at hc; omega) h4
    exact ⟨r, hr1, hr2⟩

/-! ### The replacement function -/

theorem firstOcc_nil {old : List Int} (h : old ≠ []) : firstOcc [] old = none := by
  apply firstOcc_eq_none
  intro j hj
  have h1 : j + old.length ≤ 0 := hj.1
  have : 0 < old.length := List.length_pos.mpr h
  omega

theorem firstOcc_bound {t old : List Int} {i : Nat} (h : firstOcc t old = some i) :
    i + old.length ≤ t.length := (firstOcc_some h).1.1

theorem replaceSpecAux_fuel {old new : List Int} (ho : old ≠ []) :
    ∀ (k1 k2 : Nat) (t : List Int), t.length ≤ k1 → t.length ≤ k2 →
      replaceSpecAux old new k1 t = replaceSpecAux old new k2 t := by
  have hpos : 0 < old.length := List.length_pos.mpr ho
  intro k1
  induction k1 with
  | zero =>
    intro k2 t h1 _
    have ht : t = [] := List.length_eq_zero.mp (by omega)
    subst ht
    cases k2 with
    | zero => rfl
    | succ k2 => simp [replaceSpecAux, firstOcc_nil ho]
  | succ k1 ih =>
    intro k2 t h1 h2
    cases k2 with
    | zero =>
      have ht : t = [] := List.length_eq_zero.mp (by omega)
      subst ht
      simp [replaceSpecAux, firstOcc_nil ho]
    | succ k2 =>
      unfold replaceSpecAux
      cases h : firstOcc t old with
      | none => rfl
      | some i =>
        have := firstOcc_bound h
        simp only
        rw [ih k2 (t.drop (i + old.length)) (by simp; omega) (by simp; omega)]

theorem replaceSpec_some {old new t : List Int} {i : Nat} (ho : old ≠ [])
    (h : firstOcc t old = some i) :
    replaceSpec old new t = t.take i ++ new ++ replaceSpec old new (t.drop (i + old.length)) := by
  have hpos : 0 < old.length := List.length_pos.mpr ho
  have hb := firstOcc_bound h
  unfold replaceSpec
  obtain ⟨k, hk⟩ : ∃ k, t.length = k + 1 := ⟨t.length - 1, by omega⟩
  rw [hk]
  conv_lhs => unfold replaceSpecAux
  simp only [h]
  rw [replaceSpecAux_fuel ho k (t.drop (i + old.length)).length _ (by simp; omega)
    (Nat.le_refl _)]

theorem replaceSpec_none {old new t : List Int} (h : firstOcc t old = none) :
    replaceSpec old new t = t := by
  unfold replaceSpec
  cases t.length with
  | zero => rfl
  | succ k => simp [replaceSpecAux, h]

theorem findSpec_some {t old : List Int} {i : Nat} (h : firstOcc t old = some i) :
    findSpec t old = (i : Int) := by simp [findSpec, h]

theorem findSpec_none {t old : List Int} (h : firstOcc t old = none) :
    findSpec t old = STR_NOT_FOUND := by simp [findSpec, h]

theorem replaceLoop_spec {str old_str new_str : string} {cs os ns : List Int}
    (hs : Holds str cs) (ho : Holds old_str os) (hne : os ≠ []) (hn : Holds new_str ns) :
    ∀ (fuel off : Nat) (buffer tmp : string) (acc : List Int), off ≤ cs.length →
      cs.length - off + 1 ≤ fuel → Holds buffer acc →
      ∃ (buffer' tmp' : string) (off' : Nat) (acc' : List Int),
        replaceLoop str old_str new_str fuel buffer tmp (off : Int)
          = .ok (buffer', tmp', (off' : Int)) ∧
        off' ≤ cs.length ∧ Holds buffer' acc' ∧
        acc' ++ cs.drop off' = acc ++ replaceSpec os ns (cs.drop off) := by
  have hpos : 0 < os.length := List.length_pos.mpr hne
  intro fuel
  induction fuel with
  | zero => intro off _ _ _ _ h; omega
  | succ fuel ih =>
    intro off buffer tmp acc hoff hf hb
    have hfind := find_pattern_holds hs ho off hoff
    unfold replaceLoop
    rw [hfind, bind_ok]
    cases h : firstOcc (cs.drop off) os with
    | none =>
      rw [findSpec_none h, if_neg (by simp)]
      exact ⟨buffer, tmp, off, acc, rfl, hoff, hb, by rw [replaceSpec_none h]⟩
    | some i =>
      have hbd := firstOcc_bound h
      simp only [List.length_drop] at hbd
      rw [findSpec_some h, if_pos (by simp [STR_NOT_FOUND])]
      have e1 : (i : Int) + (off : Int) = ((off + i : Nat) : Int) := by omega
      simp only [e1]
      rw [copy_range_spec hs tmp off (off + i) (by omega) (by omega) (by omega), bind_ok]
      obtain ⟨b1, hb1, hb1'⟩ := append_spec hb (holds_strOf ((cs.drop off).take (off + i - off)))
      obtain ⟨b2, hb2, hb2'⟩ := append_spec hb1' hn
      rw [hb1, bind_ok, hb2, bind_ok, ho.1]
      have e2 : ((off + i : Nat) : Int) + (os.length : Int) = ((off + i + os.length : Nat) : Int) := by
        push_cast; rfl
      rw [e2]
      obtain ⟨buffer', tmp', off', acc', h1, h2, h3, h4⟩ :=
        ih (off + i + os.length) b2 (strOf ((cs.drop off).take (off + i - off))) _
          (by omega) (by omega) hb2'
      refine ⟨buffer', tmp', off', acc', h1, h2, h3, ?_⟩
      rw [h4, replaceSpec_some hne h, List.drop_drop]
      simp only [Nat.add_sub_cancel_left, List.append_assoc, Nat.add_assoc]

theorem replace_spec {str old_str new_str : string} {cs os ns : List Int}
    (hs : Holds str cs) (ho : Holds old_str os) (hne : os ≠ []) (hn : Holds new_str ns) :
    ∃ r, str_replace str old_str new_str = .ok r ∧ Holds r (replaceSpec os ns cs) := by
  obtain ⟨buffer, tmp, off, acc, h1, h2, h3, h4⟩ :=
    replaceLoop_spec hs ho hne hn (cs.length + 1) 0 _ ⟨0, 8, (List.replicate 8 none).set 0 (some 0)⟩
      [] (Nat.zero_le _) (by omega) holds_create
  simp only [List.drop_zero, List.nil_append, Nat.cast_zero] at h1 h4
  unfold str_replace
  rw [str_create_eq, bind_ok, bind_ok, hs.1,
    show ((cs.length : Int)).toNat + 1 = cs.length + 1 by omega, h1, bind_ok]
  dsimp only
  by_cases hc : (off : Int) ≠ (cs.length : Int)
  · rw [if_pos hc, copy_range_spec hs tmp off cs.length (by omega) h2 (Nat.le_refl _), bind_ok]
    obtain ⟨b1, hb1, hb1'⟩ := append_spec h3 (holds_strOf ((cs.drop off).take (cs.length - off)))
    rw [hb1, bind_ok]
    refine ⟨_, rfl, ?_⟩
    rw [← h4]
    have : (cs.drop off).take (cs.length - off) = cs.drop off :=
      List.take_of_length_le (by simp)
    rw [this] at hb1'
    exact hb1'
  · rw [if_neg hc]
    have hoff : off = cs.length := by omega
    subst hoff
    refine ⟨_, rfl, ?_⟩
    rw [← h4]
    simpa using h3

/-! ### The fragment function -/

theorem splitSpecAux_fuel {sep : List Int} (ho : sep ≠ []) :
    ∀ (k1 k2 : Nat) (t : List Int), t.length ≤ k1 → t.length ≤ k2 →
      splitSpecAux sep k1 t = splitSpecAux sep k2 t := by
  have hpos : 0 < sep.length := List.length_pos.mpr ho
  intro k1
  induction k1 with
  | zero =>
    intro k2 t h1 _
    have ht : t = [] := List.length_eq_zero.mp (by omega)
    subst ht
    cases k2 with
    | zero => rfl
    | succ k2 => simp [splitSpecAux, firstOcc_nil ho]
  | succ k1 ih =>
    intro k2 t h1 h2
    cases k2 with
    | zero =>
      have ht : t = [] := List.length_eq_zero.mp (by omega)
      subst ht
      simp [splitSpecAux, firstOcc_nil ho]
    | succ k2 =>
      unfold splitSpecAux
      cases h : firstOcc t sep with
      | none => rfl
      | some i =>
        have := firstOcc_bound h
        simp only
        rw [ih k2 (t.drop (i + sep.length)) (by simp; omega) (by simp; omega)]

theorem splitSpec_some {sep t : List Int} {i : Nat} (ho : sep ≠ [])
    (h : firstOcc t sep = some i) :
    splitSpec sep t = t.take i :: splitSpec sep (t.drop (i + sep.length)) := by
  have hpos : 0 < sep.length := List.length_pos.mpr ho
  have hb := firstOcc_bound h
  unfold splitSpec
  obtain ⟨k, hk⟩ : ∃ k, t.length = k + 1 := ⟨t.length - 1, by omega⟩
  rw [hk]
  conv_lhs => unfold splitSpecAux
  simp only [h]
  rw [splitSpecAux_fuel ho k (t.drop (i + sep.length)).length _ (by simp; omega)
    (Nat.le_refl _)]

theorem splitSpec_none {sep t : List Int} (h : firstOcc t sep = none) :
    splitSpec sep t = if t = [] then [] else [t] := by
  unfold splitSpec
  cases t.length with
  | zero => rfl
  | succ k => simp [splitSpecAux, h]

theorem take_set_succ {α : Type} (l : List α) (n : Nat) (v : α) (h : n < l.length) :
    (l.set n v).take (n + 1) = l.take n ++ [v] := by
  apply List.ext_getElem?
  intro k
  rcases Nat.lt_trichotomy k n with hk | hk | hk
  · rw [List.getElem?_take_of_lt (by omega), List.getElem?_set_ne (by omega),
      List.getElem?_append_left (by simp; omega), List.getElem?_take_of_lt hk]
  · subst hk
    rw [List.getElem?_take_of_lt (by omega), List.getElem?_set_self h,
      List.getElem?_append_right (by simp)]
    simp [Nat.min_eq_left (Nat.le_of_lt h)]
  · rw [List.getElem?_eq_none (by simp; omega), List.getElem?_eq_none (by simp; omega)]

theorem splitLoop_spec {str sep : string} {cs ss : List Int}
    (hs : Holds str cs) (ho : Holds sep ss) (hne : ss ≠ []) :
    ∀ (fuel off : Nat) (arr : Buf (Option string)) (done : List (List Int)),
      off ≤ cs.length → cs.length - off + 1 ≤ fuel → arr.length = cs.length + 1 →
      done.length ≤ off → arr.take done.length = done.map cell →
      ∃ (arr' : Buf (Option string)) (done' : List (List Int)) (off' : Nat),
        splitLoop str sep fuel arr (done.length : Int) (off : Int)
          = .ok (arr', (done'.length : Int), (off' : Int)) ∧
        off' ≤ cs.length ∧ done'.length ≤ off' ∧ arr'.length = cs.length + 1 ∧
        arr'.take done'.length = done'.map cell ∧
        firstOcc (cs.drop off') ss = none ∧
        done' ++ splitSpec ss (cs.drop off') = done ++ splitSpec ss (cs.drop off) := by
  have hpos : 0 < ss.length := List.length_pos.mpr hne
  intro fuel
  induction fuel with
  | zero => intro off _ _ _ h; omega
  | succ fuel ih =>
    intro off arr done hoff hf hlen hcnt htake
    have hfind := find_pattern_holds hs ho off hoff
    unfold splitLoop
    rw [hfind, bind_ok]
    cases h : firstOcc (cs.drop off) ss with
    | none =>
      rw [findSpec_none h, if_neg (by simp)]
      exact ⟨arr, done, off, rfl, hoff, hcnt, hlen, htake, h, rfl⟩
    | some i =>
      have hbd := firstOcc_bound h
      simp only [List.length_drop] at hbd
      rw [findSpec_some h, if_pos (by simp [STR_NOT_FOUND])]
      have e1 : (off : Int) + (i : Int) = ((off + i : Nat) : Int) := by omega
      rw [str_create_eq, bind_ok, e1,
        copy_range_spec hs _ off (off + i) (by omega) (by omega) (by omega), bind_ok,
        wr_nat _ (by omega), bind_ok, ho.1]
      have e2 : (off : Int) + ((i : Int) + (ss.length : Int)) = ((off + i + ss.length : Nat) : Int) := by
        push_cast; omega
      have e3 : (done.length : Int) + 1
          = (((done ++ [(cs.drop off).take i]).length : Nat) : Int) := by
        simp
      rw [e2, e3, Nat.add_sub_cancel_left]
      obtain ⟨arr', done', off', h1, h2, h3, h4, h5, h6, h7⟩ :=
        ih (off + i + ss.length) (arr.set done.length (some (some (strOf ((cs.drop off).take i)))))
          (done ++ [(cs.drop off).take i]) (by omega) (by omega) (by simp [hlen])
          (by simp; omega)
          (by
            rw [List.length_append, List.length_singleton, take_set_succ _ _ _ (by omega), htake]
            simp [cell])
      refine ⟨arr', done', off', h1, h2, h3, h4, h5, h6, ?_⟩
      rw [h7, splitSpec_some hne h, List.drop_drop]
      simp only [List.append_assoc, List.singleton_append, Nat.add_assoc]

theorem split_spec {str sep : string} {cs ss : List Int}
    (hs : Holds str cs) (ho : Holds sep ss) (hne : ss ≠ []) :
    str_split str sep = .ok ((splitSpec ss cs).map cell ++ [some none]) := by
  have hpos : 0 < ss.length := List.length_pos.mpr hne
  obtain ⟨arr, done, off, h1, h2, h3, h4, h5, h6, h7⟩ :=
    splitLoop_spec hs ho hne (cs.length + 1) 0 (List.replicate (cs.length + 1) none) []
      (Nat.zero_le _) (by omega) (by simp) (Nat.le_refl _) (by simp)
  simp only [List.drop_zero, List.nil_append, Nat.cast_zero, List.length_nil] at h1 h7
  unfold str_split
  rw [if_neg (by rw [ho.1]; omega)]
  simp only [pure_eq_ok, bind_ok]
  rw [hs.1, show (cs.length : Int) + 1 = ((cs.length + 1 : Nat) : Int) by push_cast; rfl,
    malloc_nat, bind_ok, show ((cs.length : Int)).toNat + 1 = cs.length + 1 by omega, h1, bind_ok]
  dsimp only
  rw [splitSpec_none h6] at h7
  by_cases hc : (off : Int) ≠ (cs.length : Int)
  · have hlt : off < cs.length := by omega
    have hne' : cs.drop off ≠ [] := by
      intro hnil
      have := congrArg List.length hnil
      simp at this
      omega
    rw [if_neg hne'] at h7
    rw [if_pos hc, str_create_eq, bind_ok,
      copy_range_spec hs _ off cs.length hlt h2 (Nat.le_refl _), bind_ok,
      wr_nat _ (by omega), bind_ok]
    rw [show (done.length : Int) + 1 = ((done.length + 1 : Nat) : Int) by push_cast; rfl,
      wr_nat _ (by simp; omega), bind_ok]
    have e : (((done.length + 1 : Nat) : Int) + 1).toNat = done.length + 1 + 1 := by omega
    rw [e, take_set_succ _ _ _ (by simp; omega), take_set_succ _ _ _ (by omega), h5, ← h7]
    have : (cs.drop off).take (cs.length - off) = cs.drop off :=
      List.take_of_length_le (by simp)
    simp [cell, this]
  · have hoff : off = cs.length := by omega
    subst hoff
    rw [if_neg hc]
    rw [wr_nat _ (by omega), bind_ok]
    have e : ((done.length : Int) + 1).toNat = done.length + 1 := by omega
    rw [e, take_set_succ _ _ _ (by omega), h5, ← h7]
    simp

/-! ### `str_erase` -/

theorem erase_spec {str : string} {cs : List Int} (hs : Holds str cs) (b e : Nat)
    (hbe : b ≤ e) (he : e ≤ cs.length) :
    ∃ r, str_erase str (b : Int) (e : Int) = .ok r ∧ Holds r (cs.take b ++ cs.drop e) ∧
      r.capacity = str.capacity := by
  obtain ⟨h1, h2, h3, h4, h5⟩ := (holds_iff str cs).mp hs
  obtain ⟨d, hd1, hd2, hd3, hd4⟩ := forLoop_inv
    (fun i d => do
      let c ← rd d i
      wr d (i - ((e : Int) - (b : Int))) c)
    (fun i d => d.length = str.data.length ∧
      (∀ k, b ≤ k → k < i - (e - b) → d[k]? = str.data[k + (e - b)]?) ∧
      (∀ k, (k < b ∨ i - (e - b) ≤ k) → d[k]? = str.data[k]?))
    (cs.length - e) e str.data
    ⟨rfl, fun k hk1 hk2 => by omega, fun k _ => rfl⟩
    (fun i s hi1 hi2 hI => by
      obtain ⟨e1, e2, e3⟩ := hI
      have hr : rd s (i : Int) = .ok (cs.getD i 0) :=
        rd_nat (by rw [e3 i (by omega)]; exact h4 i (by omega))
      have hidx : (i : Int) - ((e : Int) - (b : Int)) = ((i - (e - b) : Nat) : Int) := by omega
      refine ⟨s.set (i - (e - b)) (some (cs.getD i 0)), ?_, by simp [e1], fun k hk1 hk2 => ?_,
        fun k hk => ?_⟩
      · show (rd s (i : Int) >>= fun c => wr s ((i : Int) - ((e : Int) - (b : Int))) c) = _
        rw [hr, bind_ok, hidx, wr_nat _ (by omega)]
      · by_cases hk : k = i - (e - b)
        · subst hk
          rw [List.getElem?_set_self (by omega), show i - (e - b) + (e - b) = i by omega,
            h4 i (by omega)]
        · rw [List.getElem?_set_ne (by omega)]; exact e2 k hk1 (by omega)
      · rw [List.getElem?_set_ne (by omega)]; exact e3 k (by omega))
  rw [show e + (cs.length - e) = cs.length by omega] at hd3 hd4
  have hsz : (cs.length : Int) - ((e : Int) - (b : Int)) = ((cs.length - (e - b) : Nat) : Int) := by
    omega
  refine ⟨⟨(cs.length : Int) - ((e : Int) - (b : Int)), str.capacity,
    d.set (cs.length - (e - b)) (some 0)⟩, ?_, ?_, rfl⟩
  · unfold str_erase
    rw [if_neg (by omega), if_neg (by rw [h1]; omega)]
    unfold forRange
    dsimp only
    rw [h1, show ((cs.length : Int) - (e : Int)).toNat = cs.length - e by omega, hd1, bind_ok,
      hsz, wr_nat _ (by omega), bind_ok]
    rfl
  · rw [holds_iff]
    have hl : (cs.take b ++ cs.drop e).length = cs.length - (e - b) := by
      simp only [List.length_append, List.length_take, List.length_drop]; omega
    refine ⟨by rw [hl]; exact hsz, by simp [h2, hd2], by rw [hl]; simp [hd2]; omega,
      fun k hk => ?_, ?_⟩
    · rw [hl] at hk
      show (d.set (cs.length - (e - b)) (some 0))[k]? = _
      rw [List.getElem?_set_ne (by omega)]
      by_cases hkb : k < b
      · rw [hd4 k (Or.inl hkb), h4 k (by omega)]
        simp only [List.getD_eq_getElem?_getD]
        rw [List.getElem?_append_left (by simp; omega), List.getElem?_take_of_lt hkb]
      · rw [hd3 k (by omega) (by omega), h4 _ (by omega)]
        simp only [List.getD_eq_getElem?_getD]
        rw [List.getElem?_append_right (by simp; omega), List.getElem?_drop]
        simp only [List.length_take]
        congr 4
        omega
    · show (d.set (cs.length - (e - b)) (some 0))[(cs.take b ++ cs.drop e).length]? = _
      rw [hl, List.getElem?_set_self (by omega)]

/-! ### `str_strip` -/

theorem rd_holds {s : string} {cs : List Int} (h : Holds s cs) {k : Nat} (hk : k < cs.length) :
    rd s.data (k : Int) = .ok cs[k] := by
  obtain ⟨_, _, _, h4, _⟩ := (holds_iff s cs).mp h
  rw [rd_nat (h4 k hk)]
  simp [List.getD_eq_getElem?_getD, List.getElem?_eq_getElem hk]

theorem skipLeading_spec {s : string} {cs : List Int} (hs : Holds s cs) :
    ∀ (fuel i : Nat), i ≤ cs.length → cs.length - i + 1 ≤ fuel →
      skipLeading s fuel (i : Int)
        = .ok ((i + ((cs.drop i).takeWhile leBlank).length : Nat) : Int) := by
  intro fuel
  induction fuel with
  | zero => intro i _ h; omega
  | succ fuel ih =>
    intro i hi hf
    unfold skipLeading
    by_cases hc : i < cs.length
    · rw [if_pos (by rw [hs.1]; omega), rd_holds hs hc, bind_ok, List.drop_eq_getElem_cons hc]
      by_cases hb : cs[i] ≤ 0x20
      · rw [if_pos hb, List.takeWhile_cons_of_pos (by simpa [leBlank] using hb)]
        have := ih (i + 1) (by omega) (by omega)
        rw [show ((i : Int) + 1) = ((i + 1 : Nat) : Int) by push_cast; rfl, this]
        simp only [List.length_cons]
        congr 2
        omega
      · rw [if_neg hb, List.takeWhile_cons_of_neg (by simpa [leBlank] using hb)]
        simp
    · have : i = cs.length := by omega
      subst this
      rw [if_neg (by rw [hs.1]; omega)]
      simp

theorem length_takeWhile_le (p : Int → Bool) (l : List Int) :
    (l.takeWhile p).length ≤ l.length := (List.takeWhile_prefix p).length_le

theorem skipTrailing_spec {s : string} {cs : List Int} (hs : Holds s cs) :
    ∀ (fuel j : Nat), j ≤ cs.length → j + 1 ≤ fuel →
      skipTrailing s fuel ((j : Int) - 1)
        = .ok (((j - ((cs.take j).reverse.takeWhile leBlank).length : Nat) : Int) - 1) := by
  intro fuel
  induction fuel with
  | zero => intro j _ h; omega
  | succ fuel ih =>
    intro j hj hf
    unfold skipTrailing
    rcases Nat.eq_zero_or_pos j with h0 | h0
    · subst h0
      rw [if_neg (by omega)]
      simp
    · obtain ⟨j', rfl⟩ : ∃ j', j = j' + 1 := ⟨j - 1, by omega⟩
      have hlt : j' < cs.length := by omega
      have e : ((j' + 1 : Nat) : Int) - 1 = (j' : Int) := by omega
      have hrev : (cs.take (j' + 1)).reverse = cs[j'] :: (cs.take j').reverse := by
        rw [List.take_succ, List.getElem?_eq_getElem hlt]
        simp
      rw [e, if_pos (by omega), rd_holds hs hlt, bind_ok, hrev]
      by_cases hb : cs[j'] ≤ 0x20
      · rw [if_pos hb, List.takeWhile_cons_of_pos (by simpa [leBlank] using hb), ih j' (by omega) (by omega)]
        simp only [List.length_cons]
        congr 1
        have : ((cs.take j').reverse.takeWhile leBlank).length ≤ j' := by
          have h1 := length_takeWhile_le leBlank (cs.take j').reverse
          simp at h1
          omega
        omega
      · rw [if_neg hb, List.takeWhile_cons_of_neg (by simpa [leBlank] using hb)]
        simp

theorem drop_length_takeWhile (p : Int → Bool) (l : List Int) :
    l.drop (l.takeWhile p).length = l.dropWhile p := by
  induction l with
  | nil => rfl
  | cons a l ih =>
    by_cases h : p a
    · simp [List.takeWhile_cons_of_pos h, List.dropWhile_cons_of_pos h, ih]
    · simp [List.takeWhile_cons_of_neg h, List.dropWhile_cons_of_neg h]

theorem strip_spec {s : string} {cs : List Int} (hs : Holds s cs) :
    ∃ r, str_strip s = .ok r ∧ Holds r (stripSpec leBlank cs) ∧ r.capacity = s.capacity := by
  have h1 := skipLeading_spec hs (cs.length + 1) 0 (Nat.zero_le _) (by omega)
  simp only [List.drop_zero, Nat.zero_add, Nat.cast_zero] at h1
  have hk1 : (cs.takeWhile leBlank).length ≤ cs.length := length_takeWhile_le _ _
  obtain ⟨s1, hs1, hs1', hcap1⟩ := erase_spec hs 0 (cs.takeWhile leBlank).length (Nat.zero_le _) hk1
  simp only [List.take_zero, List.nil_append, drop_length_takeWhile, Nat.cast_zero] at hs1 hs1'
  have h2 := skipTrailing_spec hs1' ((cs.dropWhile leBlank).length + 1) (cs.dropWhile leBlank).length
    (Nat.le_refl _) (by omega)
  rw [List.take_length] at h2
  have hk2 : ((cs.dropWhile leBlank).reverse.takeWhile leBlank).length
      ≤ (cs.dropWhile leBlank).length := by
    have := length_takeWhile_le leBlank (cs.dropWhile leBlank).reverse
    simpa using this
  obtain ⟨s2, hs2, hs2', hcap2⟩ := erase_spec hs1'
    ((cs.dropWhile leBlank).length - ((cs.dropWhile leBlank).reverse.takeWhile leBlank).length)
    (cs.dropWhile leBlank).length (by omega) (Nat.le_refl _)
  refine ⟨s2, ?_, ?_, by rw [hcap2, hcap1]⟩
  · unfold str_strip
    rw [hs.1, show ((cs.length : Int)).toNat + 1 = cs.length + 1 by omega, h1, bind_ok, hs1, bind_ok,
      hs1'.1, show (((cs.dropWhile leBlank).length : Int)).toNat + 1
        = (cs.dropWhile leBlank).length + 1 by omega, h2, bind_ok, Int.sub_add_cancel]
    exact hs2
  · have : stripSpec leBlank cs = (cs.dropWhile leBlank).take
        ((cs.dropWhile leBlank).length - ((cs.dropWhile leBlank).reverse.takeWhile leBlank).length)
        ++ (cs.dropWhile leBlank).drop (cs.dropWhile leBlank).length := by
      unfold stripSpec
      rw [List.drop_length, List.append_nil, ← drop_length_takeWhile leBlank
        (cs.dropWhile leBlank).reverse, List.drop_reverse, List.reverse_reverse]
    rw [this]
    exact hs2'

/-! ### `str_compare` -/

theorem compareLoop_done (str1 str2 : string) (fuel : Nat) (i diff : Int) (h : diff ≠ 0) :
    compareLoop str1 str2 (fuel + 1) i diff = .ok diff := by
  unfold compareLoop
  rw [if_neg (by tauto)]
  rfl

theorem lexCompare_cons_cons (x y : Int) (xs ys : List Int) :
    lexCompare (x :: xs) (y :: ys)
      = if x < y then order.LT else if x > y then order.GT else lexCompare xs ys := rfl

theorem lexCompare_nil_nil : lexCompare [] [] = order.EQ := rfl

theorem lexCompare_nil_cons (y : Int) (ys : List Int) : lexCompare [] (y :: ys) = order.LT := rfl

theorem lexCompare_cons_nil (x : Int) (xs : List Int) : lexCompare (x :: xs) [] = order.GT := rfl

theorem compareLoop_spec {str1 str2 : string} {xs ys : List Int} (h1 : Holds str1 xs)
    (h2 : Holds str2 ys) :
    ∀ (fuel i : Nat), i ≤ xs.length → i ≤ ys.length → xs.length - i + 1 ≤ fuel →
      ∃ d, compareLoop str1 str2 fuel (i : Int) 0 = .ok d ∧
        verdict d xs.length ys.length = lexCompare (xs.drop i) (ys.drop i) := by
  intro fuel
  induction fuel with
  | zero => intro i _ _ h; omega
  | succ fuel ih =>
    intro i hi1 hi2 hf
    by_cases hc : i < xs.length ∧ i < ys.length
    · obtain ⟨hx, hy⟩ := hc
      rw [List.drop_eq_getElem_cons hx, List.drop_eq_getElem_cons hy]
      unfold compareLoop
      rw [if_pos ⟨by rw [h1.1]; omega, by rw [h2.1]; omega, rfl⟩, rd_holds h1 hx, bind_ok,
        rd_holds h2 hy, bind_ok]
      by_cases hd : xs[i] - ys[i] = 0
      · obtain ⟨d, hd1, hd2⟩ := ih (i + 1) (by omega) (by omega) (by omega)
        refine ⟨d, ?_, ?_⟩
        · rw [hd]; exact hd1
        · rw [hd2, lexCompare_cons_cons, if_neg (by omega), if_neg (by omega)]
      · obtain ⟨f, rfl⟩ : ∃ f, fuel = f + 1 := ⟨fuel - 1, by omega⟩
        refine ⟨xs[i] - ys[i], compareLoop_done _ _ _ _ _ hd, ?_⟩
        rw [lexCompare_cons_cons]
        unfold verdict
        by_cases hlt : xs[i] < ys[i]
        · rw [if_neg (by omega), if_pos (by omega), if_pos hlt]
        · rw [if_pos (by omega), if_neg hlt, if_pos (by omega)]
    · refine ⟨0, ?_, ?_⟩
      · unfold compareLoop
        rw [if_neg (by rw [h1.1, h2.1]; omega)]
        rfl
      · unfold verdict
        rw [if_neg (by omega), if_neg (by omega)]
        rcases Nat.lt_or_ge i xs.length with hx | hx
        · have hy : ys.length = i := by omega
          rw [List.drop_eq_getElem_cons hx,
            show ys.drop i = [] from List.drop_of_length_le (by omega),
            lexCompare_cons_nil, if_pos (by omega)]
        · rw [List.drop_of_length_le hx]
          rcases Nat.lt_or_ge i ys.length with hy | hy
          · rw [List.drop_eq_getElem_cons hy, lexCompare_nil_cons, if_neg (by omega),
              if_pos (by omega)]
          · rw [List.drop_of_length_le hy, lexCompare_nil_nil, if_neg (by omega),
              if_neg (by omega)]

theorem compare_spec {str1 str2 : string} {xs ys : List Int} (h1 : Holds str1 xs)
    (h2 : Holds str2 ys) : str_compare str1 str2 = .ok (lexCompare xs ys) := by
  obtain ⟨d, hd1, hd2⟩ := compareLoop_spec h1 h2 (xs.length + 1) 0 (Nat.zero_le _)
    (Nat.zero_le _) (by omega)
  simp only [List.drop_zero, Nat.cast_zero] at hd1 hd2
  unfold str_compare
  rw [h1.1, show ((xs.length : Int)).toNat + 1 = xs.length + 1 by omega, hd1, bind_ok, ← hd2,
    h2.1]
  unfold verdict
  split_ifs <;> rfl

theorem byteVal_of_nonneg {c : Int} (h0 : 0 ≤ c) (h1 : c ≤ 255) : byteVal c = c := by
  unfold byteVal
  omega

theorem map_byteVal_of_nonneg {l : List Int} (h : ∀ c ∈ l, 0 ≤ c ∧ c ≤ 255) :
    l.map byteVal = l := by
  induction l with
  | nil => rfl
  | cons a l ih =>
    rw [List.map_cons, ih (fun c hc => h c (List.mem_cons_of_mem _ hc)),
      byteVal_of_nonneg (h a (List.mem_cons_self _ _)).1 (h a (List.mem_cons_self _ _)).2]

/-! ### Occurrences, infixes and fragments -/

theorem occursAt_split {t ss : List Int} {i : Nat} (h : occursAt t ss i) :
    t = t.take i ++ ss ++ t.drop (i + ss.length) := by
  obtain ⟨_, h2⟩ := h
  have e1 : t.drop i = ss ++ t.drop (i + ss.length) := by
    have := List.take_append_drop ss.length (t.drop i)
    rw [h2, List.drop_drop] at this
    exact this.symm
  calc t = t.take i ++ t.drop i := (List.take_append_drop i t).symm
    _ = t.take i ++ (ss ++ t.drop (i + ss.length)) := by rw [e1]
    _ = t.take i ++ ss ++ t.drop (i + ss.length) := (List.append_assoc _ _ _).symm

theorem occursAt_of_append (a ss b : List Int) : occursAt (a ++ ss ++ b) ss a.length := by
  refine ⟨by simp, ?_⟩
  rw [List.append_assoc, List.drop_left, List.take_left]

theorem infix_iff_occursAt (cs ps : List Int) : ps <:+: cs ↔ ∃ i, occursAt cs ps i := by
  constructor
  · rintro ⟨a, b, rfl⟩
    exact ⟨a.length, occursAt_of_append a ps b⟩
  · rintro ⟨i, h⟩
    exact ⟨cs.take i, cs.drop (i + ps.length), (occursAt_split h).symm⟩

theorem firstOcc_take_eq_none {t ss : List Int} {i : Nat} (hne : ss ≠ [])
    (h : firstOcc t ss = some i) : firstOcc (t.take i) ss = none := by
  have hpos : 0 < ss.length := List.length_pos.mpr hne
  obtain ⟨h1, h2⟩ := firstOcc_some h
  apply firstOcc_eq_none
  rintro j ⟨hj1, hj2⟩
  have hi : i ≤ t.length := by have := h1.1; omega
  rw [List.length_take, Nat.min_eq_left hi] at hj1
  refine h2 j (by omega) ⟨by omega, ?_⟩
  rw [List.drop_take, List.take_take, Nat.min_eq_left (by omega)] at hj2
  exact hj2

theorem splitSpec_no_sep {ss : List Int} (hne : ss ≠ []) :
    ∀ (n : Nat) (t : List Int), t.length ≤ n → ∀ f ∈ splitSpec ss t, firstOcc f ss = none := by
  have hpos : 0 < ss.length := List.length_pos.mpr hne
  intro n
  induction n with
  | zero =>
    intro t ht f hf
    have : t = [] := List.length_eq_zero.mp (by omega)
    subst this
    rw [splitSpec_none (firstOcc_nil hne)] at hf
    simp at hf
  | succ n ih =>
    intro t ht f hf
    cases h : firstOcc t ss with
    | none =>
      rw [splitSpec_none h] at hf
      by_cases ht0 : t = []
      · rw [if_pos ht0] at hf; simp at hf
      · rw [if_neg ht0] at hf
        rw [List.mem_singleton.mp hf]; exact h
    | some i =>
      rw [splitSpec_some hne h] at hf
      have hb := firstOcc_bound h
      rcases List.mem_cons.mp hf with e | e
      · rw [e]; exact firstOcc_take_eq_none hne h
      · exact ih _ (by simp; omega) f e

theorem splitSpec_eq_nil_iff {ss : List Int} (hne : ss ≠ []) (t : List Int) :
    splitSpec ss t = [] ↔ t = [] := by
  constructor
  · intro h
    cases h' : firstOcc t ss with
    | none =>
      rw [splitSpec_none h'] at h
      by_contra hc
      rw [if_neg hc] at h
      cases h
    | some i => rw [splitSpec_some hne h'] at h; cases h
  · rintro rfl
    rw [splitSpec_none (firstOcc_nil hne)]
    rfl

theorem intercalate_cons_of_ne_nil (sep a : List Int) {l : List (List Int)} (h : l ≠ []) :
    List.intercalate sep (a :: l) = a ++ sep ++ List.intercalate sep l := by
  cases l with
  | nil => exact absurd rfl h
  | cons b l => simp [List.intercalate, List.intersperse]

theorem intercalate_singleton (sep a : List Int) : List.intercalate sep [a] = a := by
  simp [List.intercalate, List.intersperse]

theorem splitSpec_join {ss : List Int} (hne : ss ≠ []) :
    ∀ (n : Nat) (t : List Int), t.length ≤ n →
      (List.intercalate ss (splitSpec ss t) = t ∨ List.intercalate ss (splitSpec ss t) ++ ss = t) ∧
      (¬ ss <:+ t → List.intercalate ss (splitSpec ss t) = t) := by
  have hpos : 0 < ss.length := List.length_pos.mpr hne
  intro n
  induction n with
  | zero =>
    intro t ht
    have : t = [] := List.length_eq_zero.mp (by omega)
    subst this
    rw [splitSpec_none (firstOcc_nil hne)]
    simp [List.intercalate]
  | succ n ih =>
    intro t ht
    cases h : firstOcc t ss with
    | none =>
      rw [splitSpec_none h]
      by_cases ht0 : t = []
      · subst ht0; simp [List.intercalate]
      · rw [if_neg ht0, intercalate_singleton]
        exact ⟨Or.inl rfl, fun _ => rfl⟩
    | some i =>
      have hb := firstOcc_bound h
      have hsplit := occursAt_split (firstOcc_some h).1
      rw [splitSpec_some hne h]
      by_cases hr : t.drop (i + ss.length) = []
      · rw [(splitSpec_eq_nil_iff hne _).mpr hr, intercalate_singleton]
        have e : t.take i ++ ss = t := by
          rw [hr, List.append_nil] at hsplit; exact hsplit.symm
        refine ⟨Or.inr e, fun hns => absurd ?_ hns⟩
        exact ⟨t.take i, e⟩
      · have hr' : splitSpec ss (t.drop (i + ss.length)) ≠ [] := fun hc =>
          hr ((splitSpec_eq_nil_iff hne _).mp hc)
        rw [intercalate_cons_of_ne_nil _ _ hr']
        obtain ⟨ih1, ih2⟩ := ih (t.drop (i + ss.length)) (by simp; omega)
        constructor
        · rcases ih1 with e | e
          · left; rw [e]; exact hsplit.symm
          · right; rw [List.append_assoc, e]; exact hsplit.symm
        · intro hns
          rw [ih2 (fun hsuf => hns (hsuf.trans (List.drop_suffix _ _)))]
          exact hsplit.symm

/-! ### The capacity on the type `int` -/

theorem wrapInt_id {x : Int} (h1 : -2147483648 ≤ x) (h2 : x < 2147483648) : wrapInt x = x := by
  unfold wrapInt
  omega

theorem growLoopInt_eq (need : Int) (hneed : need < 1073741824) :
    ∀ (fuel : Nat) (cap : Int), 1 ≤ cap →
      growLoopInt need fuel cap = growLoop need fuel cap := by
  intro fuel
  induction fuel with
  | zero => intro _ _; rfl
  | succ fuel ih =>
    intro cap hcap
    unfold growLoopInt growLoop
    by_cases hc : need ≥ cap
    · rw [if_pos hc, if_pos hc, wrapInt_id (by omega) (by omega)]
      exact ih (cap * 2) (by omega)
    · rw [if_neg hc, if_neg hc]

theorem forLoop_congr {σ : Type} (f g : Int → σ → Exec σ) :
    ∀ (k : Nat) (lo : Int) (st : σ),
      (∀ j : Nat, j < k → ∀ t, f (lo + (j : Int)) t = g (lo + (j : Int)) t) →
      forLoop f k lo st = forLoop g k lo st := by
  intro k
  induction k with
  | zero => intro _ _ _; rfl
  | succ k ih =>
    intro lo st h
    unfold forLoop
    have h0 := h 0 (Nat.succ_pos k) st
    simp only [Nat.cast_zero, Int.add_zero] at h0
    rw [h0]
    cases g lo st with
    | error e => rfl
    | ok st' =>
      rw [bind_ok]
      exact ih (lo + 1) st' (fun j hj t => by
        have := h (j + 1) (by omega) t
        rw [show lo + ((j + 1 : Nat) : Int) = lo + 1 + (j : Int) by push_cast; ring] at this
        exact this)

theorem appendInt_tail (str new_str : string) (hsize : 0 ≤ str.size)
    (hnew : 0 ≤ new_str.size) (hb : str.size + new_str.size < 1073741824) :
    (forRange 0 new_str.size (fun i d => do
        let c ← rd new_str.data i
        wr d (wrapInt (str.size + i)) c) str.data >>= fun data =>
      wr data (wrapInt (str.size + new_str.size)) 0 >>= fun data =>
        (pure { str with size := wrapInt (str.size + new_str.size), data := data } :
          Exec string))
    = (forRange 0 new_str.size (fun i d => do
        let c ← rd new_str.data i
        wr d (str.size + i) c) str.data >>= fun data =>
      wr data (str.size + new_str.size) 0 >>= fun data =>
        (pure { str with size := str.size + new_str.size, data := data } : Exec string)) := by
  rw [wrapInt_id (by omega) (by omega)]
  unfold forRange
  rw [forLoop_congr _ (fun i d => do
        let c ← rd new_str.data i
        wr d (str.size + i) c) _ 0 str.data (fun j hj t => by
      have : wrapInt (str.size + ((0 : Int) + (j : Int))) = str.size + ((0 : Int) + (j : Int)) :=
        wrapInt_id (by omega) (by omega)
      simp only [this])]

theorem appendInt_eq {a b : string} {xs ys : List Int} (ha : Holds a xs) (hb : Holds b ys)
    (hsize : xs.length + ys.length < 1073741824) : str_appendInt a b = str_append a b := by
  obtain ⟨h1, h2, h3, _, _⟩ := (holds_iff a xs).mp ha
  have hbs := hb.1
  have hw : wrapInt (a.size + b.size) = a.size + b.size := wrapInt_id (by omega) (by omega)
  unfold str_appendInt str_append
  rw [hw]
  by_cases hc : a.size + b.size ≥ a.capacity
  · rw [if_pos hc, if_pos hc, growLoopInt_eq _ (by omega) _ _ (by omega)]
    simp only [bind_assoc, pure_bind]
    cases growLoop (a.size + b.size) ((a.size + b.size).toNat + 2) a.capacity with
    | error e => rfl
    | ok cap =>
      rw [bind_ok, bind_ok]
      cases (malloc cap : Exec (Buf Int)) with
      | error e => rfl
      | ok tmp =>
        rw [bind_ok, bind_ok]
        cases forRange 0 a.size (fun i t => do
            let c ← rd a.data i
            wr t i c) tmp with
        | error e => rfl
        | ok tmp2 =>
          rw [bind_ok, bind_ok]
          exact appendInt_tail ⟨a.size, cap, tmp2⟩ b (by show (0 : Int) ≤ a.size; omega)
            (by omega) (by show a.size + b.size < 1073741824; omega)
  · rw [if_neg hc, if_neg hc]
    simp only [pure_bind]
    exact appendInt_tail a b (by omega) (by omega) (by omega)

theorem replaceLoopInt_eq {str old_str new_str : string} {cs os ns : List Int}
    (hs : Holds str cs) (ho : Holds old_str os) (hne : os ≠ []) (hn : Holds new_str ns) :
    ∀ (fuel off : Nat) (buffer tmp : string) (acc : List Int), off ≤ cs.length →
      Holds buffer acc →
      acc.length + (replaceSpec os ns (cs.drop off)).length < 1073741824 →
      replaceLoopInt str old_str new_str fuel buffer tmp (off : Int)
        = replaceLoop str old_str new_str fuel buffer tmp (off : Int) := by
  have hpos : 0 < os.length := List.length_pos.mpr hne
  intro fuel
  induction fuel with
  | zero => intro _ _ _ _ _ _ _; rfl
  | succ fuel ih =>
    intro off buffer tmp acc hoff hb hsize
    have hfind := find_pattern_holds hs ho off hoff
    unfold replaceLoopInt replaceLoop
    rw [hfind, bind_ok, bind_ok]
    cases h : firstOcc (cs.drop off) os with
    | none =>
      rw [findSpec_none h, if_neg (by simp), if_neg (by simp)]
    | some i =>
      have hbd := firstOcc_bound h
      simp only [List.length_drop] at hbd
      rw [findSpec_some h, if_pos (by simp [STR_NOT_FOUND]), if_pos (by simp [STR_NOT_FOUND])]
      have e1 : (i : Int) + (off : Int) = ((off + i : Nat) : Int) := by omega
      simp only [e1]
      rw [copy_range_spec hs tmp off (off + i) (by omega) (by omega) (by omega), bind_ok,
        bind_ok]
      rw [replaceSpec_some hne h] at hsize
      simp only [List.length_append, List.length_take, List.length_drop] at hsize
      have hpiece : ((cs.drop off).take (off + i - off)).length = i := by
        simp only [List.length_take, List.length_drop]; omega
      obtain ⟨b1, hb1, hb1'⟩ := append_spec hb (holds_strOf ((cs.drop off).take (off + i - off)))
      rw [appendInt_eq hb (holds_strOf ((cs.drop off).take (off + i - off)))
        (by rw [hpiece]; omega), hb1, bind_ok, bind_ok]
      obtain ⟨b2, hb2, hb2'⟩ := append_spec hb1' hn
      rw [appendInt_eq hb1' hn (by rw [List.length_append, hpiece]; omega), hb2, bind_ok,
        bind_ok, ho.1]
      have e2 : ((off + i : Nat) : Int) + (os.length : Int) = ((off + i + os.length : Nat) : Int) := by
        push_cast; rfl
      rw [e2]
      refine ih (off + i + os.length) b2 _ _ (by omega) hb2' ?_
      rw [List.drop_drop] at hsize
      simp only [List.length_append, hpiece]
      rw [show off + i + os.length = off + (i + os.length) by omega]
      omega

theorem replaceInt_eq {str old_str new_str : string} {cs os ns : List Int}
    (hs : Holds str cs) (ho : Holds old_str os) (hne : os ≠ []) (hn : Holds new_str ns)
    (hsize : (replaceSpec os ns cs).length < 1073741824) :
    str_replaceInt str old_str new_str = str_replace str old_str new_str := by
  obtain ⟨buffer, tmp, off, acc, h1, h2, h3, h4⟩ :=
    replaceLoop_spec hs ho hne hn (cs.length + 1) 0 _ ⟨0, 8, (List.replicate 8 none).set 0 (some 0)⟩
      [] (Nat.zero_le _) (by omega) holds_create
  have hloop := replaceLoopInt_eq hs ho hne hn (cs.length + 1) 0
    ⟨0, 8, (List.replicate 8 none).set 0 (some 0)⟩ ⟨0, 8, (List.replicate 8 none).set 0 (some 0)⟩
    [] (Nat.zero_le _) holds_create (by simpa using hsize)
  simp only [List.drop_zero, List.nil_append, Nat.cast_zero] at h1 h4 hloop
  unfold str_replaceInt str_replace
  rw [str_create_eq, bind_ok, bind_ok, bind_ok, bind_ok, hs.1,
    show ((cs.length : Int)).toNat + 1 = cs.length + 1 by omega, hloop, h1, bind_ok, bind_ok]
  dsimp only
  by_cases hc : (off : Int) ≠ (cs.length : Int)
  · rw [if_pos hc, if_pos hc,
      copy_range_spec hs tmp off cs.length (by omega) h2 (Nat.le_refl _), bind_ok, bind_ok,
      appendInt_eq h3 (holds_strOf ((cs.drop off).take (cs.length - off))) (by
        have := congrArg List.length h4
        simp only [List.length_append, List.length_take, List.length_drop] at this ⊢
        omega)]
  · rw [if_neg hc, if_neg hc]

theorem growLoopInt_zero (need : Int) (hneed : 0 ≤ need) :
    ∀ fuel : Nat, growLoopInt need fuel 0 = .error Err.fuel := by
  intro fuel
  induction fuel with
  | zero => rfl
  | succ fuel ih =>
    unfold growLoopInt
    rw [if_pos hneed]
    exact ih

theorem growLoopInt_stuck (need : Int) :
    ∀ (k : Nat) (c : Int),
      (∀ i, i ≤ k → (fun x => wrapInt (x * 2))^[i] c ≤ need) →
      (fun x => wrapInt (x * 2))^[k] c = 0 →
      ∀ fuel : Nat, growLoopInt need fuel c = .error Err.fuel := by
  intro k
  induction k with
  | zero =>
    intro c h1 h2 fuel
    have hc : c = 0 := h2
    have := h1 0 (Nat.le_refl _)
    subst hc
    exact growLoopInt_zero need this fuel
  | succ k ih =>
    intro c h1 h2 fuel
    cases fuel with
    | zero => rfl
    | succ fuel =>
      have h0 : need ≥ c := h1 0 (Nat.zero_le _)
      unfold growLoopInt
      rw [if_pos h0]
      exact ih (wrapInt (c * 2))
        (fun i hi => by
          have := h1 (i + 1) (by omega)
          rwa [Function.iterate_succ_apply] at this)
        (by rwa [Function.iterate_succ_apply] at h2) fuel

theorem growLoopInt_stuck_fresh :
    ∀ fuel : Nat, growLoopInt 1073741824 fuel 8 = .error Err.fuel :=
  growLoopInt_stuck 1073741824 29 8 (by decide) (by decide)

theorem appendInt_stuck (a b : string) (h1 : wrapInt (a.size + b.size) ≥ a.capacity)
    (h2 : ∀ fuel : Nat, growLoopInt (wrapInt (a.size + b.size)) fuel a.capacity
      = .error Err.fuel) :
    str_appendInt a b = .error Err.fuel := by
  unfold str_appendInt
  rw [if_pos h1, h2]
  rfl

theorem replaceInt_stuck {s old_str : string} (new_str : string) {cs os : List Int}
    (hs : Holds s cs) (ho : Holds old_str os) (hlen : cs.length = 1073741824)
    (hnone : firstOcc cs os = none) :
    str_replaceInt s old_str new_str = .error Err.fuel := by
  have hfind := find_pattern_holds hs ho 0 (Nat.zero_le _)
  simp only [Nat.cast_zero, List.drop_zero] at hfind
  have hloop : ∀ b t : string,
      replaceLoopInt s old_str new_str (s.size.toNat + 1) b t 0 = .ok (b, t, 0) := by
    intro b t
    unfold replaceLoopInt
    rw [hfind, bind_ok, findSpec_none hnone, if_neg (by simp)]
    rfl
  have hcopy := copy_range_spec hs ⟨0, 8, (List.replicate 8 none).set 0 (some 0)⟩ 0 cs.length
    (by omega) (Nat.zero_le _) (Nat.le_refl _)
  simp only [Nat.cast_zero, List.drop_zero, Nat.sub_zero, List.take_length] at hcopy
  have hsz : (strOf cs).size = 1073741824 := by
    show ((cs.length : Nat) : Int) = 1073741824
    rw [hlen]
    rfl
  unfold str_replaceInt
  rw [str_create_eq, bind_ok, bind_ok, hloop, bind_ok]
  dsimp only
  rw [if_pos (by rw [hs.1, hlen]; decide), hs.1, hcopy, bind_ok,
    appendInt_stuck _ _ (by rw [hsz]; decide) (by rw [hsz]; exact growLoopInt_stuck_fresh)]
  rfl

theorem firstOcc_replicate (n : Nat) {c d : Int} (h : c ≠ d) :
    firstOcc (List.replicate n c) [d] = none := by
  apply firstOcc_eq_none
  rintro j ⟨h1, h2⟩
  rw [List.drop_replicate, List.take_replicate] at h2
  simp only [List.length_singleton, List.length_replicate] at h1 h2
  rw [Nat.min_eq_left (by omega)] at h2
  exact h (by simpa using h2)

/-! ## The claims -/

theorem firstOcc_nil_pattern (cs : List Int) : firstOcc cs [] = some 0 :=
  firstOcc_eq_some ⟨Nat.zero_le _, rfl⟩ (fun j hj => absurd hj (Nat.not_lt_zero j))

/-- C1: when the pattern occurs in the subject as a contiguous substring, `str_find` returns
the least index `i` with `0 ≤ i ≤ size(s) - size(p)` and `s[i .. i+size(p)) = p`; and
`find("hello world", "wor")` is 6. -/
theorem str_find_first_occurrence (s p : string) (cs ps : List Int)
    (hs : Holds s cs) (hp : Holds p ps) (hocc : ps <:+: cs) :
    (∃ i : Nat, str_find s p = .ok (i : Int) ∧ occursAt cs ps i ∧
      ∀ j, j < i → ¬ occursAt cs ps j) ∧
    str_find (strOf [104, 101, 108, 108, 111, 32, 119, 111, 114, 108, 100])
      (strOf [119, 111, 114]) = .ok 6 := by
  refine ⟨?_, rfl⟩
  obtain ⟨i0, hi0⟩ := (infix_iff_occursAt cs ps).mp hocc
  cases h : firstOcc cs ps with
  | none => exact absurd hi0 (firstOcc_none h i0)
  | some i =>
    obtain ⟨h1, h2⟩ := firstOcc_some h
    exact ⟨i, by rw [str_find_holds hs hp, findSpec_some h], h1, h2⟩

theorem str_find_first_occurrence_witness :
    Holds (strOf [97, 98, 99, 98, 99]) [97, 98, 99, 98, 99] ∧ Holds (strOf [98, 99]) [98, 99] ∧
    ∃ i : Nat, str_find (strOf [97, 98, 99, 98, 99]) (strOf [98, 99]) = .ok (i : Int) ∧
      occursAt [97, 98, 99, 98, 99] [98, 99] i ∧
      ∀ j, j < i → ¬ occursAt [97, 98, 99, 98, 99] [98, 99] j :=
  ⟨by decide, by decide,
    (str_find_first_occurrence (strOf [97, 98, 99, 98, 99]) (strOf [98, 99])
      [97, 98, 99, 98, 99] [98, 99] (by decide) (by decide) ⟨[97], [98, 99], rfl⟩).1⟩

/-- C2: `str_find` returns `STR_NOT_FOUND` (which is -1) exactly when the pattern does not
occur in the subject as a contiguous substring, in particular whenever the pattern is longer
than the subject; every other result `r` is a non-negative index with `r + size(p) ≤ size(s)`. -/
theorem str_find_not_found_iff (s p : string) (cs ps : List Int)
    (hs : Holds s cs) (hp : Holds p ps) :
    (str_find s p = .ok STR_NOT_FOUND ↔ ¬ ps <:+: cs) ∧
    (p.size > s.size → str_find s p = .ok STR_NOT_FOUND) ∧
    (∃ r, str_find s p = .ok r ∧ (r ≠ STR_NOT_FOUND → 0 ≤ r ∧ r + p.size ≤ s.size)) ∧
    STR_NOT_FOUND = -1 := by
  rw [str_find_holds hs hp, infix_iff_occursAt]
  cases h : firstOcc cs ps with
  | none =>
    have hno := firstOcc_none h
    rw [findSpec_none h]
    refine ⟨⟨fun _ ⟨i, hi⟩ => hno i hi, fun _ => rfl⟩, fun _ => rfl, ⟨_, rfl, fun hc => absurd rfl hc⟩,
      rfl⟩
  | some i =>
    obtain ⟨h1, h2⟩ := firstOcc_some h
    have hb := h1.1
    rw [findSpec_some h]
    refine ⟨⟨fun hc => ?_, fun hc => absurd ⟨i, h1⟩ hc⟩, fun hgt => ?_, ⟨_, rfl, fun _ => ?_⟩, rfl⟩
    · have : (i : Int) = STR_NOT_FOUND := by injection hc
      simp [STR_NOT_FOUND] at this
    · rw [hs.1, hp.1] at hgt; omega
    · rw [hs.1, hp.1]; omega

theorem str_find_not_found_iff_witness :
    Holds (strOf [97, 98]) [97, 98] ∧ Holds (strOf [98, 97, 98]) [98, 97, 98] ∧
    str_find (strOf [97, 98]) (strOf [98, 97, 98]) = .ok STR_NOT_FOUND :=
  ⟨by decide, by decide,
    (str_find_not_found_iff (strOf [97, 98]) (strOf [98, 97, 98]) [97, 98] [98, 97, 98]
      (by decide) (by decide)).2.1 (by decide)⟩

/-- C3: for every string, the empty one included, searching for the empty pattern returns
index 0. -/
theorem str_find_empty_pattern (s p : string) (cs : List Int)
    (hs : Holds s cs) (hp : Holds p []) : str_find s p = .ok 0 := by
  rw [str_find_holds hs hp, findSpec_some (firstOcc_nil_pattern cs)]
  rfl

theorem str_find_empty_pattern_witness :
    Holds (strOf []) [] ∧ str_find (strOf []) (strOf []) = .ok 0 :=
  ⟨by decide, str_find_empty_pattern (strOf []) (strOf []) [] (by decide) (by decide)⟩

/-- C4, as amended: for a non-empty `old` and a result `R(s)` of fewer than `2^30` bytes,
`str_replace` returns and leaves the string holding `R(s)`, where
`R(t) = t[0..i) ++ new ++ R(t[i+size(old)..))` when `old` first occurs in `t` at index `i` and
`R(t) = t` when it does not occur (`firstOcc` being the least index of an occurrence). No
doubling of the buffer's capacity leaves the range of `int` then: the function on `int`s is the
one of exact arithmetic. And `replace("aXbXXc", "X", "-")` leaves `"a-b--c"`. -/
theorem str_replace_all (s old_str new_str : string) (cs os ns : List Int)
    (hs : Holds s cs) (ho : Holds old_str os) (hne : os ≠ []) (hn : Holds new_str ns)
    (hsize : (replaceSpec os ns cs).length < 1073741824) :
    (∃ r, str_replaceInt s old_str new_str = .ok r ∧ Holds r (replaceSpec os ns cs)) ∧
    str_replaceInt s old_str new_str = str_replace s old_str new_str ∧
    (∀ t i, firstOcc t os = some i →
      replaceSpec os ns t = t.take i ++ ns ++ replaceSpec os ns (t.drop (i + os.length))) ∧
    (∀ t, firstOcc t os = none → replaceSpec os ns t = t) ∧
    (∀ t i, firstOcc t os = some i ↔ occursAt t os i ∧ ∀ j, j < i → ¬ occursAt t os j) ∧
    (∀ t, firstOcc t os = none ↔ ∀ j, ¬ occursAt t os j) ∧
    (∃ r, str_replaceInt (strOf [97, 88, 98, 88, 88, 99]) (strOf [88]) (strOf [45]) = .ok r ∧
      Holds r [97, 45, 98, 45, 45, 99]) :=
  ⟨by rw [replaceInt_eq hs ho hne hn hsize]; exact replace_spec hs ho hne hn,
    replaceInt_eq hs ho hne hn hsize, fun _ _ h => replaceSpec_some hne h,
    fun _ h => replaceSpec_none h,
    fun _ _ => ⟨firstOcc_some, fun h => firstOcc_eq_some h.1 h.2⟩,
    fun _ => ⟨firstOcc_none, firstOcc_eq_none⟩, ⟨_, rfl, by decide⟩⟩

theorem str_replace_all_witness :
    Holds (strOf [88, 97, 88]) [88, 97, 88] ∧ Holds (strOf [88]) [88] ∧
    Holds (strOf [45, 45]) [45, 45] ∧
    (replaceSpec [88] [45, 45] [88, 97, 88]).length < 1073741824 ∧
    ∃ r, str_replaceInt (strOf [88, 97, 88]) (strOf [88]) (strOf [45, 45]) = .ok r ∧
      Holds r (replaceSpec [88] [45, 45] [88, 97, 88]) :=
  ⟨by decide, by decide, by decide, by decide,
    (str_replace_all (strOf [88, 97, 88]) (strOf [88]) (strOf [45, 45]) [88, 97, 88] [88]
      [45, 45] (by decide) (by decide) (by decide) (by decide) (by decide)).1⟩

/-- C4 fails as stated: on the string of `2^30` bytes `'a'`, with `old = "b"` and an empty
`new`, the pattern does not occur and `R(s) = s`; `str_replace` appends the `2^30` bytes to
its fresh buffer of capacity 8, whose doubling passes `2^30`, leaves the range of `int` and
ends at `0`, so the growth loop never ends and `str_replace` does not return. -/
theorem str_replace_large_counterexample :
    Holds (strOf (List.replicate 1073741824 97)) (List.replicate 1073741824 97) ∧
    Holds (strOf [98]) [98] ∧ Holds (strOf []) [] ∧
    replaceSpec [98] [] (List.replicate 1073741824 97) = List.replicate 1073741824 97 ∧
    (∀ fuel : Nat, growLoopInt 1073741824 fuel 8 = .error Err.fuel) ∧
    str_replaceInt (strOf (List.replicate 1073741824 97)) (strOf [98]) (strOf [])
      = .error Err.fuel ∧
    ¬ ∃ r, str_replaceInt (strOf (List.replicate 1073741824 97)) (strOf [98]) (strOf [])
      = .ok r := by
  have hnone : firstOcc (List.replicate 1073741824 (97 : Int)) [98] = none :=
    firstOcc_replicate _ (by decide)
  have hstuck := replaceInt_stuck (strOf []) (holds_strOf (List.replicate 1073741824 (97 : Int)))
    (holds_strOf [98]) (List.length_replicate _ _) hnone
  refine ⟨holds_strOf _, by decide, by decide, replaceSpec_none hnone, growLoopInt_stuck_fresh,
    hstuck, ?_⟩
  rintro ⟨r, hr⟩
  rw [hstuck] at hr
  cases hr

/-- C5: for a non-empty separator, `str_split` returns the array of fresh strings holding, in
order, the fragments `S(s)` followed by the `NULL` marker, where `S(t) = t[0..i) :: S(t[i+size(sep)..))`
when `sep` first occurs in `t` at index `i`, and otherwise `S(t)` is empty for an empty `t` and
`[t]` for any other; `split("one, two, three", ", ")` gives `"one"`, `"two"`, `"three"`. The
input string is only read: the function returns nothing but the array. -/
theorem str_split_fragments (s sep : string) (cs ss : List Int)
    (hs : Holds s cs) (ho : Holds sep ss) (hne : ss ≠ []) :
    str_split s sep = .ok ((splitSpec ss cs).map cell ++ [some none]) ∧
    (∀ t i, firstOcc t ss = some i →
      splitSpec ss t = t.take i :: splitSpec ss (t.drop (i + ss.length))) ∧
    (∀ t, firstOcc t ss = none → splitSpec ss t = if t = [] then [] else [t]) ∧
    (∀ t i, firstOcc t ss = some i ↔ occursAt t ss i ∧ ∀ j, j < i → ¬ occursAt t ss j) ∧
    (∀ t, firstOcc t ss = none ↔ ∀ j, ¬ occursAt t ss j) ∧
    str_split (strOf [111, 110, 101, 44, 32, 116, 119, 111, 44, 32, 116, 104, 114, 101, 101])
        (strOf [44, 32])
      = .ok [cell [111, 110, 101], cell [116, 119, 111], cell [116, 104, 114, 101, 101],
          some none] :=
  ⟨split_spec hs ho hne, fun _ _ h => splitSpec_some hne h, fun _ h => splitSpec_none h,
    fun _ _ => ⟨firstOcc_some, fun h => firstOcc_eq_some h.1 h.2⟩,
    fun _ => ⟨firstOcc_none, firstOcc_eq_none⟩, rfl⟩

theorem str_split_fragments_witness :
    Holds (strOf [97, 44, 98]) [97, 44, 98] ∧ Holds (strOf [44]) [44] ∧
    str_split (strOf [97, 44, 98]) (strOf [44])
      = .ok ((splitSpec [44] [97, 44, 98]).map cell ++ [some none]) :=
  ⟨by decide, by decide,
    (str_split_fragments (strOf [97, 44, 98]) (strOf [44]) [97, 44, 98] [44]
      (by decide) (by decide) (by decide)).1⟩

/-- C6: for a non-empty separator, joining the fragments returned by `str_split` with the
separator gives the string itself or the string with one trailing copy of the separator
removed, and it gives the string itself whenever the string does not end with the separator. -/
theorem str_split_join (s sep : string) (cs ss : List Int)
    (hs : Holds s cs) (ho : Holds sep ss) (hne : ss ≠ []) :
    ∃ frags : List (List Int), str_split s sep = .ok (frags.map cell ++ [some none]) ∧
      (List.intercalate ss frags = cs ∨ List.intercalate ss frags ++ ss = cs) ∧
      (¬ ss <:+ cs → List.intercalate ss frags = cs) :=
  ⟨splitSpec ss cs, split_spec hs ho hne, splitSpec_join hne cs.length cs (Nat.le_refl _)⟩

theorem str_split_join_witness :
    Holds (strOf [97, 44, 98, 44]) [97, 44, 98, 44] ∧ Holds (strOf [44]) [44] ∧
    ∃ frags : List (List Int),
      str_split (strOf [97, 44, 98, 44]) (strOf [44]) = .ok (frags.map cell ++ [some none]) ∧
      (List.intercalate [44] frags = [97, 44, 98, 44] ∨
        List.intercalate [44] frags ++ [44] = [97, 44, 98, 44]) ∧
      (¬ ([44] : List Int) <:+ [97, 44, 98, 44] →
        List.intercalate [44] frags = [97, 44, 98, 44]) :=
  ⟨by decide, by decide,
    str_split_join (strOf [97, 44, 98, 44]) (strOf [44]) [97, 44, 98, 44] [44]
      (by decide) (by decide) (by decide)⟩

/-- C7: for a non-empty separator, no fragment returned by `str_split` contains the separator:
`str_find` of the separator in each returned string is `STR_NOT_FOUND`. -/
theorem str_split_fragment_has_no_sep (s sep : string) (cs ss : List Int)
    (hs : Holds s cs) (ho : Holds sep ss) (hne : ss ≠ []) :
    ∃ frags : List (List Int), str_split s sep = .ok (frags.map cell ++ [some none]) ∧
      ∀ f ∈ frags, str_find (strOf f) sep = .ok STR_NOT_FOUND ∧ ¬ ss <:+: f := by
  refine ⟨splitSpec ss cs, split_spec hs ho hne, fun f hf => ?_⟩
  have h := splitSpec_no_sep hne cs.length cs (Nat.le_refl _) f hf
  refine ⟨by rw [str_find_holds (holds_strOf f) ho, findSpec_none h], ?_⟩
  rw [infix_iff_occursAt]
  rintro ⟨i, hi⟩
  exact firstOcc_none h i hi

theorem str_split_fragment_has_no_sep_witness :
    Holds (strOf [97, 44, 44, 98]) [97, 44, 44, 98] ∧ Holds (strOf [44]) [44] ∧
    ∃ frags : List (List Int),
      str_split (strOf [97, 44, 44, 98]) (strOf [44]) = .ok (frags.map cell ++ [some none]) ∧
      ∀ f ∈ frags, str_find (strOf f) (strOf [44]) = .ok STR_NOT_FOUND ∧
        ¬ ([44] : List Int) <:+: f :=
  ⟨by decide, by decide,
    str_split_fragment_has_no_sep (strOf [97, 44, 44, 98]) (strOf [44]) [97, 44, 44, 98] [44]
      (by decide) (by decide) (by decide)⟩

/-- C8: `str_split` stops with the empty-separator error exactly when the separator is empty;
for a non-empty separator it returns an array, so neither bounds check of `_copy_range` (nor
any other failure) is ever triggered. -/
theorem str_split_fails_iff (s sep : string) (cs ss : List Int)
    (hs : Holds s cs) (ho : Holds sep ss) :
    (str_split s sep = .error Err.emptySeparator ↔ ss = []) ∧
    (ss ≠ [] → ∃ arr, str_split s sep = .ok arr) ∧
    ((∃ e, str_split s sep = .error e) ↔ ss = []) ∧
    str_split s sep ≠ .error Err.outOfRange := by
  by_cases hne : ss = []
  · subst hne
    have hfail : str_split s sep = .error Err.emptySeparator := by
      unfold str_split
      rw [if_pos (by rw [ho.1]; rfl)]
      rfl
    rw [hfail]
    exact ⟨⟨fun _ => rfl, fun _ => rfl⟩, fun h => absurd rfl h, ⟨fun _ => rfl, fun _ => ⟨_, rfl⟩⟩,
      by intro h; cases h⟩
  · rw [split_spec hs ho hne]
    refine ⟨⟨fun h => (by cases h), fun h => absurd h hne⟩, fun _ => ⟨_, rfl⟩,
      ⟨fun ⟨e, h⟩ => (by cases h), fun h => absurd h hne⟩, by intro h; cases h⟩

theorem str_split_fails_iff_witness :
    Holds (strOf [97, 44, 98]) [97, 44, 98] ∧ Holds (strOf []) [] ∧
    str_split (strOf [97, 44, 98]) (strOf []) = .error Err.emptySeparator :=
  ⟨by decide, by decide,
    (str_split_fails_iff (strOf [97, 44, 98]) (strOf []) [97, 44, 98] []
      (by decide) (by decide)).1.mpr rfl⟩

theorem dropWhile_congr {p q : Int → Bool} :
    ∀ (l : List Int), (∀ x ∈ l, p x = q x) → l.dropWhile p = l.dropWhile q := by
  intro l
  induction l with
  | nil => intro _; rfl
  | cons a l ih =>
    intro h
    have ha : p a = q a := h a (List.mem_cons_self _ _)
    have hl := ih (fun x hx => h x (List.mem_cons_of_mem _ hx))
    simp only [List.dropWhile_cons, ha, hl]

theorem stripSpec_congr {p q : Int → Bool} (cs : List Int) (h : ∀ x ∈ cs, p x = q x) :
    stripSpec p cs = stripSpec q cs := by
  unfold stripSpec
  rw [dropWhile_congr cs h, dropWhile_congr (cs.dropWhile q).reverse
    (fun x hx => h x ((List.dropWhile_sublist q).subset (List.mem_reverse.mp hx)))]

theorem leBlank_eq_isBlankByte {c : Int} (h0 : 0 ≤ c) (h1 : c ≤ 255) :
    leBlank c = isBlankByte c := by
  unfold leBlank isBlankByte
  rw [byteVal_of_nonneg h0 h1]

/-- C9: for a string of ASCII bytes (`0x00..0x7F`), `str_strip` leaves exactly the string
without its longest leading run and its longest trailing run of bytes `≤ 0x20` (nothing at all
when every byte is `≤ 0x20`), interior bytes untouched; and `strip("  pad  ")` leaves `"pad"`. -/
theorem str_strip_ascii (s : string) (cs : List Int) (hs : Holds s cs)
    (hascii : ∀ c ∈ cs, 0 ≤ c ∧ c ≤ 0x7F) :
    (∃ r, str_strip s = .ok r ∧ Holds r (stripSpec isBlankByte cs)) ∧
    ((∀ c ∈ cs, byteVal c ≤ 0x20) → stripSpec isBlankByte cs = []) ∧
    (∃ r, str_strip (strOf [32, 32, 112, 97, 100, 32, 32]) = .ok r ∧
      Holds r [112, 97, 100]) := by
  refine ⟨?_, fun hall => ?_, ⟨_, rfl, by decide⟩⟩
  · obtain ⟨r, h1, h2, _⟩ := strip_spec hs
    refine ⟨r, h1, ?_⟩
    rw [← stripSpec_congr cs (fun x hx =>
      leBlank_eq_isBlankByte (hascii x hx).1 (by have := (hascii x hx).2; omega))]
    exact h2
  · have : cs.dropWhile isBlankByte = [] :=
      List.dropWhile_eq_nil_iff.mpr (fun x hx => by simpa [isBlankByte] using hall x hx)
    unfold stripSpec
    rw [this]
    rfl

theorem str_strip_ascii_witness :
    Holds (strOf [9, 32, 97, 32, 98, 10]) [9, 32, 97, 32, 98, 10] ∧
    ∃ r, str_strip (strOf [9, 32, 97, 32, 98, 10]) = .ok r ∧
      Holds r (stripSpec isBlankByte [9, 32, 97, 32, 98, 10]) :=
  ⟨by decide,
    (str_strip_ascii (strOf [9, 32, 97, 32, 98, 10]) [9, 32, 97, 32, 98, 10] (by decide)
      (by decide)).1⟩

/-- C10, as amended: `str_compare` is the lexicographic three-way comparison of the two strings
by the value of each `char` (decided at the first index where they differ, a proper prefix
being `LT`); this is the comparison by byte value whenever no `char` is negative, which is so
for ASCII bytes and wherever `char` is unsigned; and `compare("Abc", "abd")` is `LT`. -/
theorem str_compare_char_order (a b : string) (xs ys : List Int)
    (ha : Holds a xs) (hb : Holds b ys) :
    str_compare a b = .ok (lexCompare xs ys) ∧
    ((∀ c ∈ xs ++ ys, 0 ≤ c ∧ c ≤ 255) →
      str_compare a b = .ok (lexCompare (xs.map byteVal) (ys.map byteVal))) ∧
    str_compare (strOf [65, 98, 99]) (strOf [97, 98, 100]) = .ok order.LT := by
  refine ⟨compare_spec ha hb, fun h => ?_, rfl⟩
  rw [map_byteVal_of_nonneg (fun c hc => h c (List.mem_append_left _ hc)),
    map_byteVal_of_nonneg (fun c hc => h c (List.mem_append_right _ hc))]
  exact compare_spec ha hb

theorem str_compare_char_order_witness :
    Holds (strOf [97, 98]) [97, 98] ∧ Holds (strOf [97, 98, 99]) [97, 98, 99] ∧
    str_compare (strOf [97, 98]) (strOf [97, 98, 99]) = .ok (lexCompare [97, 98] [97, 98, 99]) :=
  ⟨by decide, by decide,
    (str_compare_char_order (strOf [97, 98]) (strOf [97, 98, 99]) [97, 98] [97, 98, 99]
      (by decide) (by decide)).1⟩

/-- C10 fails as stated: where `char` is signed the byte `0x80` is the `char` -128, and the
one-byte string holding it compares `LT` against `"a"`, while by byte value `0x80 > 0x61`. -/
theorem str_compare_byte_order_counterexample :
    Holds (strOf [-128]) [-128] ∧ Holds (strOf [97]) [97] ∧
    [-128].map byteVal = [0x80] ∧ [97].map byteVal = [0x61] ∧
    str_compare (strOf [-128]) (strOf [97]) = .ok order.LT ∧
    lexCompare ([-128].map byteVal) ([97].map byteVal) = order.GT ∧
    str_compare (strOf [-128]) (strOf [97])
      ≠ .ok (lexCompare ([-128].map byteVal) ([97].map byteVal)) :=
  ⟨by decide, by decide, by decide, by decide, rfl, by decide, by intro h; cases h⟩

/-! ### `str_equal` -/

theorem equalLoop_spec {str1 str2 : string} {xs ys : List Int} (h1 : Holds str1 xs)
    (h2 : Holds str2 ys) (hlen : xs.length = ys.length) :
    ∀ (fuel i : Nat), i ≤ xs.length → xs.length - i + 1 ≤ fuel →
      equalLoop str1 str2 fuel (i : Int) = .ok (decide (xs.drop i = ys.drop i)) := by
  intro fuel
  induction fuel with
  | zero => intro i _ h; omega
  | succ fuel ih =>
    intro i hi hf
    unfold equalLoop
    by_cases hc : i < xs.length
    · have hy : i < ys.length := by omega
      rw [if_pos (by rw [h1.1]; omega), rd_holds h1 hc, bind_ok, rd_holds h2 hy, bind_ok,
        List.drop_eq_getElem_cons hc, List.drop_eq_getElem_cons hy]
      by_cases hd : xs[i] = ys[i]
      · rw [if_neg (by simpa using hd),
          show ((i : Int) + 1) = ((i + 1 : Nat) : Int) by push_cast; rfl,
          ih (i + 1) (by omega) (by omega)]
        have e : (xs[i] :: xs.drop (i + 1) = ys[i] :: ys.drop (i + 1)) ↔
            xs.drop (i + 1) = ys.drop (i + 1) := by
          rw [List.cons.injEq]; exact ⟨fun h => h.2, fun h => ⟨hd, h⟩⟩
        rw [decide_eq_decide.mpr e]
      · rw [if_pos hd]
        have e : ¬ (xs[i] :: xs.drop (i + 1) = ys[i] :: ys.drop (i + 1)) := by
          intro h; injection h with a b; exact hd a
        rw [decide_eq_false e]
        rfl
    · rw [if_neg (by rw [h1.1]; omega), List.drop_of_length_le (by omega),
        List.drop_of_length_le (by omega)]
      rfl

theorem equal_spec {str1 str2 : string} {xs ys : List Int} (h1 : Holds str1 xs)
    (h2 : Holds str2 ys) : str_equal str1 str2 = .ok (decide (xs = ys)) := by
  unfold str_equal
  by_cases hlen : xs.length = ys.length
  · rw [if_neg (by rw [h1.1, h2.1]; simpa using hlen), h1.1,
      show ((xs.length : Int)).toNat + 1 = xs.length + 1 by omega]
    have := equalLoop_spec h1 h2 hlen (xs.length + 1) 0 (Nat.zero_le _) (by omega)
    simpa using this
  · rw [if_pos (by rw [h1.1, h2.1]; exact_mod_cast hlen)]
    have : xs ≠ ys := fun h => hlen (by rw [h])
    simp [this]

theorem lexCompare_eq_EQ_iff : ∀ (xs ys : List Int), lexCompare xs ys = order.EQ ↔ xs = ys := by
  intro xs
  induction xs with
  | nil =>
    intro ys
    cases ys with
    | nil => simp [lexCompare_nil_nil]
    | cons y ys => simp [lexCompare_nil_cons]
  | cons x xs ih =>
    intro ys
    cases ys with
    | nil => simp [lexCompare_cons_nil]
    | cons y ys =>
      rw [lexCompare_cons_cons]
      by_cases h1 : x < y
      · rw [if_pos h1]
        constructor
        · intro h; cases h
        · intro h; injection h with h2 h3; omega
      · rw [if_neg h1]
        by_cases h2 : x > y
        · rw [if_pos h2]
          constructor
          · intro h; cases h
          · intro h; injection h with h3 h4; omega
        · rw [if_neg h2, ih ys]
          have : x = y := by omega
          subst this
          simp

theorem byteVal_inj_signed {c d : Int} (hc : -128 ≤ c ∧ c ≤ 127) (hd : -128 ≤ d ∧ d ≤ 127)
    (h : byteVal c = byteVal d) : c = d := by
  unfold byteVal at h
  omega

theorem byteVal_inj_unsigned {c d : Int} (hc : 0 ≤ c ∧ c ≤ 255) (hd : 0 ≤ d ∧ d ≤ 255)
    (h : byteVal c = byteVal d) : c = d := by
  unfold byteVal at h
  omega

theorem map_byteVal_inj (signed : Bool) :
    ∀ (xs ys : List Int), (∀ c ∈ xs, CharRange signed c) → (∀ c ∈ ys, CharRange signed c) →
      xs.map byteVal = ys.map byteVal → xs = ys := by
  intro xs
  induction xs with
  | nil =>
    intro ys _ _ h
    cases ys with
    | nil => rfl
    | cons y ys => simp at h
  | cons x xs ih =>
    intro ys hx hy h
    cases ys with
    | nil => simp at h
    | cons y ys =>
      simp only [List.map_cons, List.cons.injEq] at h
      have e1 : x = y := by
        have a := hx x (List.mem_cons_self _ _)
        have b := hy y (List.mem_cons_self _ _)
        unfold CharRange at a b
        cases signed
        · exact byteVal_inj_unsigned (by simpa using a) (by simpa using b) h.1
        · exact byteVal_inj_signed (by simpa using a) (by simpa using b) h.1
      rw [e1, ih ys (fun c hc => hx c (List.mem_cons_of_mem _ hc))
        (fun c hc => hy c (List.mem_cons_of_mem _ hc)) h.2]

/-! ### `str_erase` with integer bounds -/

theorem erase_clamp (s : string) (begin_ end_ : Int) :
    str_erase s begin_ end_ = str_erase s (max begin_ 0) (min end_ s.size) := by
  have e1 : (if begin_ < 0 then 0 else begin_) = max begin_ 0 := by
    split_ifs <;> omega
  have e2 : (if end_ > s.size then s.size else end_) = min end_ s.size := by
    split_ifs <;> omega
  have e3 : (if max begin_ 0 < 0 then 0 else max begin_ 0) = max begin_ 0 := by
    split_ifs <;> omega
  have e4 : (if min end_ s.size > s.size then s.size else min end_ s.size) = min end_ s.size := by
    split_ifs <;> omega
  unfold str_erase
  simp only [e1, e2, e3, e4]

theorem erase_spec_int {s : string} {cs : List Int} (hs : Holds s cs) (begin_ end_ : Int)
    (hbe : max begin_ 0 ≤ min end_ s.size) :
    ∃ r, str_erase s begin_ end_ = .ok r ∧
      Holds r (cs.take (max begin_ 0).toNat ++ cs.drop (min end_ s.size).toNat) ∧
      r.size = s.size - (min end_ s.size - max begin_ 0) ∧ r.capacity = s.capacity := by
  have h1 := hs.1
  have hb : max begin_ 0 = (((max begin_ 0).toNat : Nat) : Int) := by omega
  have he : min end_ s.size = (((min end_ s.size).toNat : Nat) : Int) := by omega
  obtain ⟨r, hr1, hr2, hr3⟩ := erase_spec hs (max begin_ 0).toNat (min end_ s.size).toNat
    (by omega) (by omega)
  refine ⟨r, ?_, hr2, ?_, hr3⟩
  · rw [erase_clamp, hb, he]; exact hr1
  · rw [hr2.1, h1]
    simp only [List.length_append, List.length_take, List.length_drop]
    omega

/-! ### Capacity after `str_append` -/

theorem reverseLoop_spec (d0 : Buf Int) (n : Nat) (hn : n ≤ d0.length)
    (hinit : ∀ k, k < n → ∃ c, d0[k]? = some (some c)) :
    ∀ (fuel i : Nat) (d : Buf Int), 2 * i ≤ n → n - i + 1 ≤ fuel →
      d.length = d0.length →
      (∀ k, k < i → d[k]? = d0[n - 1 - k]?) →
      (∀ k, n - i ≤ k → k < n → d[k]? = d0[n - 1 - k]?) →
      (∀ k, (i ≤ k ∧ k < n - i) ∨ n ≤ k → d[k]? = d0[k]?) →
      ∃ d', reverseLoop fuel d (i : Int) ((n : Int) - 1 - (i : Int)) = .ok d' ∧
        d'.length = d0.length ∧ (∀ k, k < n → d'[k]? = d0[n - 1 - k]?) ∧
        (∀ k, n ≤ k → d'[k]? = d0[k]?) := by
  intro fuel
  induction fuel with
  | zero => intro i _ _ h; omega
  | succ fuel ih =>
    intro i d hi hf hlen hlo hhi hmid
    unfold reverseLoop
    by_cases hc : 2 * i + 2 ≤ n
    · obtain ⟨ci, hci⟩ := hinit i (by omega)
      obtain ⟨cj, hcj⟩ := hinit (n - 1 - i) (by omega)
      have ej : (n : Int) - 1 - (i : Int) = ((n - 1 - i : Nat) : Int) := by omega
      have r1 : rd d (i : Int) = .ok ci :=
        rd_nat (by rw [hmid i (Or.inl ⟨Nat.le_refl _, by omega⟩)]; exact hci)
      have r2 : rd d ((n - 1 - i : Nat) : Int) = .ok cj :=
        rd_nat (by rw [hmid (n - 1 - i) (Or.inl ⟨by omega, by omega⟩)]; exact hcj)
      rw [if_pos (by omega), r1, bind_ok, ej, r2, bind_ok, wr_nat _ (by omega), bind_ok,
        wr_nat _ (by simp; omega), bind_ok]
      have e2 : ((n - 1 - i : Nat) : Int) - 1 = (n : Int) - 1 - ((i + 1 : Nat) : Int) := by
        omega
      rw [show ((i : Int) + 1) = ((i + 1 : Nat) : Int) by push_cast; rfl, e2]
      refine ih (i + 1) _ (by omega) (by omega) (by simp [hlen]) (fun k hk => ?_)
        (fun k hk1 hk2 => ?_) (fun k hk => ?_)
      · rcases Nat.lt_succ_iff_lt_or_eq.mp hk with h | h
        · rw [List.getElem?_set_ne (by omega), List.getElem?_set_ne (by omega)]
          exact hlo k h
        · subst h
          rw [List.getElem?_set_ne (by omega), List.getElem?_set_self (by omega), hcj]
      · by_cases hk : k = n - 1 - i
        · subst hk
          rw [List.getElem?_set_self (by simp; omega),
            show n - 1 - (n - 1 - i) = i by omega, hci]
        · rw [List.getElem?_set_ne (by omega), List.getElem?_set_ne (by omega)]
          exact hhi k (by omega) hk2
      · rw [List.getElem?_set_ne (by omega), List.getElem?_set_ne (by omega)]
        exact hmid k (by omega)
    · rw [if_neg (by omega)]
      refine ⟨d, rfl, hlen, fun k hk => ?_, fun k hk => hmid k (Or.inr hk)⟩
      by_cases h1 : k < i
      · exact hlo k h1
      · by_cases h2 : n - i ≤ k
        · exact hhi k h2 hk
        · rw [hmid k (Or.inl ⟨by omega, by omega⟩)]
          congr 1; omega

theorem reverse_block {s : string} {cs : List Int} (hs : Holds s cs) :
    ∃ d, str_reverse s = .ok ⟨s.size, s.capacity, d⟩ ∧ ReversedBlock cs.length s.data d := by
  obtain ⟨h1, h2, h3, h4, h5⟩ := (holds_iff s cs).mp hs
  obtain ⟨d, hd1, hd2⟩ := reverseLoop_spec s.data cs.length (by omega)
    (fun k hk => ⟨_, h4 k hk⟩) (cs.length + 1) 0 s.data (Nat.zero_le _) (by omega) rfl
    (fun k hk => absurd hk (Nat.not_lt_zero k)) (fun k hk1 hk2 => by omega) (fun k _ => rfl)
  refine ⟨d, ?_, hd2⟩
  unfold str_reverse
  simp only [Nat.cast_zero, Int.sub_zero] at hd1
  rw [h1, show ((cs.length : Int)).toNat + 1 = cs.length + 1 by omega, hd1, bind_ok]
  rfl

theorem holds_of_reversedBlock {s : string} {cs : List Int} (hs : Holds s cs) {d : Buf Int}
    (hd : ReversedBlock cs.length s.data d) : Holds ⟨s.size, s.capacity, d⟩ cs.reverse := by
  obtain ⟨h1, h2, h3, h4, h5⟩ := (holds_iff s cs).mp hs
  obtain ⟨g1, g2, g3⟩ := hd
  rw [holds_iff]
  refine ⟨by simp [h1], by simp [h2, g1], by simp [g1]; omega, fun k hk => ?_, ?_⟩
  · simp only [List.length_reverse] at hk
    show d[k]? = _
    rw [g2 k hk, h4 _ (by omega)]
    simp only [List.getD_eq_getElem?_getD]
    rw [List.getElem?_reverse (by omega)]
  · show d[cs.reverse.length]? = _
    rw [List.length_reverse, g3 _ (Nat.le_refl _), h5]

theorem reversedBlock_twice {n : Nat} {d0 d1 d2 : Buf Int} (h1 : ReversedBlock n d0 d1)
    (h2 : ReversedBlock n d1 d2) : d2 = d0 := by
  obtain ⟨a1, a2, a3⟩ := h1
  obtain ⟨b1, b2, b3⟩ := h2
  apply List.ext_getElem?
  intro k
  by_cases hk : k < n
  · rw [b2 k hk, a2 _ (by omega)]
    congr 1; omega
  · rw [b3 k (by omega), a3 k (by omega)]

/-! ### Loops that rewrite each char in place -/

theorem set_same {α : Type} (d : List α) (i : Nat) (v : α) (h : d[i]? = some v) :
    d.set i v = d := by
  apply List.ext_getElem?
  intro k
  by_cases hk : k = i
  · subst hk
    have hlt : k < d.length := by
      by_contra hc
      rw [List.getElem?_eq_none (by omega)] at h
      cases h
    rw [List.getElem?_set_self hlt, h]
  · rw [List.getElem?_set_ne (by omega)]

theorem lt_length_of_getElem? {α : Type} {d : List α} {i : Nat} {v : α} (h : d[i]? = some v) :
    i < d.length := by
  by_contra hc
  rw [List.getElem?_eq_none (by omega)] at h
  cases h

theorem map_loop (f : Int → Int) (body : Int → Buf Int → Exec (Buf Int))
    (hbody : ∀ (i : Nat) (d : Buf Int) (c : Int), d[i]? = some (some c) →
      body (i : Int) d = .ok (d.set i (some (f c))))
    (d0 : Buf Int) (n : Nat) (hinit : ∀ k, k < n → ∃ c, d0[k]? = some (some c)) :
    ∃ d, forLoop body n 0 d0 = .ok d ∧ MappedBlock f n d0 d := by
  obtain ⟨d, h1, h2, h3, h4⟩ := forLoop_inv body
    (fun i d => d.length = d0.length ∧ (∀ k, k < i → d[k]? = (d0[k]?).map (Option.map f)) ∧
      (∀ k, i ≤ k → d[k]? = d0[k]?))
    n 0 d0 ⟨rfl, fun k hk => absurd hk (Nat.not_lt_zero k), fun k _ => rfl⟩
    (fun i s _ hi hI => by
      obtain ⟨e1, e2, e3⟩ := hI
      obtain ⟨c, hc⟩ := hinit i (by omega)
      have hsi : s[i]? = some (some c) := by rw [e3 i (Nat.le_refl _)]; exact hc
      have hlt := lt_length_of_getElem? hsi
      refine ⟨s.set i (some (f c)), hbody i s c hsi, by simp [e1], fun k hk => ?_,
        fun k hk => ?_⟩
      · rcases Nat.lt_succ_iff_lt_or_eq.mp hk with h | h
        · rw [List.getElem?_set_ne (by omega)]; exact e2 k h
        · subst h; rw [List.getElem?_set_self hlt, hc]; rfl
      · rw [List.getElem?_set_ne (by omega)]; exact e3 k (by omega))
  exact ⟨d, by simpa using h1, h2, by simpa using h3, by simpa using h4⟩

theorem holds_of_mappedBlock {s : string} {cs : List Int} (hs : Holds s cs) {f : Int → Int}
    {d : Buf Int} (hd : MappedBlock f cs.length s.data d) :
    Holds ⟨s.size, s.capacity, d⟩ (cs.map f) := by
  obtain ⟨h1, h2, h3, h4, h5⟩ := (holds_iff s cs).mp hs
  obtain ⟨g1, g2, g3⟩ := hd
  rw [holds_iff]
  refine ⟨by simp [h1], by simp [h2, g1], by simp [g1]; omega, fun k hk => ?_, ?_⟩
  · simp only [List.length_map] at hk
    show d[k]? = _
    rw [g2 k hk, h4 k hk]
    simp [List.getD_eq_getElem?_getD, List.getElem?_eq_getElem hk]
  · show d[(cs.map f).length]? = _
    rw [List.length_map, g3 _ (Nat.le_refl _), h5]

theorem mappedBlock_comp {f g h : Int → Int} (hfg : ∀ c, g (f c) = h c) {n : Nat}
    {d0 d1 d2 d3 : Buf Int} (h1 : MappedBlock f n d0 d1) (h2 : MappedBlock g n d1 d2)
    (h3 : MappedBlock h n d0 d3) : d2 = d3 := by
  obtain ⟨a1, a2, a3⟩ := h1
  obtain ⟨b1, b2, b3⟩ := h2
  obtain ⟨c1, c2, c3⟩ := h3
  apply List.ext_getElem?
  intro k
  by_cases hk : k < n
  · rw [b2 k hk, a2 k hk, c2 k hk]
    cases d0[k]? with
    | none => rfl
    | some v =>
      cases v with
      | none => rfl
      | some c => simp [hfg c]
  · rw [b3 k (by omega), a3 k (by omega), c3 k (by omega)]

theorem lower_block {s : string} {cs : List Int} (hs : Holds s cs) :
    ∃ d, str_lower s = .ok ⟨s.size, s.capacity, d⟩ ∧ MappedBlock lowerChar cs.length s.data d := by
  obtain ⟨h1, h2, h3, h4, h5⟩ := (holds_iff s cs).mp hs
  obtain ⟨d, hd1, hd2⟩ := map_loop lowerChar
    (fun i d => do
      let c ← rd d i
      wr d i (if c ≥ 65 ∧ c ≤ 90 then c + (97 - 65) else c))
    (fun i d c hc => by
      show (rd d (i : Int) >>= fun c => wr d (i : Int) _) = _
      rw [rd_nat hc, bind_ok, wr_nat _ (lt_length_of_getElem? hc)]
      rfl)
    s.data cs.length (fun k hk => ⟨_, h4 k hk⟩)
  refine ⟨d, ?_, hd2⟩
  unfold str_lower forRange
  rw [h1, show ((cs.length : Int) - 0).toNat = cs.length by omega, hd1, bind_ok]
  rfl

theorem upper_block {s : string} {cs : List Int} (hs : Holds s cs) :
    ∃ d, str_upper s = .ok ⟨s.size, s.capacity, d⟩ ∧ MappedBlock upperChar cs.length s.data d := by
  obtain ⟨h1, h2, h3, h4, h5⟩ := (holds_iff s cs).mp hs
  obtain ⟨d, hd1, hd2⟩ := map_loop upperChar
    (fun i d => do
      let c ← rd d i
      wr d i (if c ≥ 97 ∧ c ≤ 122 then c - (97 - 65) else c))
    (fun i d c hc => by
      show (rd d (i : Int) >>= fun c => wr d (i : Int) _) = _
      rw [rd_nat hc, bind_ok, wr_nat _ (lt_length_of_getElem? hc)]
      rfl)
    s.data cs.length (fun k hk => ⟨_, h4 k hk⟩)
  refine ⟨d, ?_, hd2⟩
  unfold str_upper forRange
  rw [h1, show ((cs.length : Int) - 0).toNat = cs.length by omega, hd1, bind_ok]
  rfl

theorem replace_char_block {s : string} {cs : List Int} (hs : Holds s cs)
    (old_char new_char : Int) :
    ∃ d, str_replace_char s old_char new_char = .ok ⟨s.size, s.capacity, d⟩ ∧
      MappedBlock (fun c => if c = old_char then new_char else c) cs.length s.data d := by
  obtain ⟨h1, h2, h3, h4, h5⟩ := (holds_iff s cs).mp hs
  obtain ⟨d, hd1, hd2⟩ := map_loop (fun c => if c = old_char then new_char else c)
    (fun i d => do
      let c ← rd d i
      if c = old_char then wr d i new_char else pure d)
    (fun i d c hc => by
      show (rd d (i : Int) >>= fun c => if c = old_char then wr d (i : Int) new_char else pure d)
        = _
      rw [rd_nat hc, bind_ok]
      by_cases he : c = old_char
      · rw [if_pos he, wr_nat _ (lt_length_of_getElem? hc)]
        simp [he]
      · rw [if_neg he]
        simp only [he, if_false]
        rw [set_same d i (some c) hc]
        rfl)
    s.data cs.length (fun k hk => ⟨_, h4 k hk⟩)
  refine ⟨d, ?_, hd2⟩
  unfold str_replace_char forRange
  rw [h1, show ((cs.length : Int) - 0).toNat = cs.length by omega, hd1, bind_ok]
  rfl

theorem lowerChar_upperChar (c : Int) : lowerChar (upperChar c) = lowerChar c := by
  unfold lowerChar upperChar
  split_ifs <;> omega

theorem lowerChar_lowerChar (c : Int) : lowerChar (lowerChar c) = lowerChar c := by
  unfold lowerChar
  split_ifs <;> omega

/-! ### The container invariant -/

theorem invariant_of_holds {s : string} {cs : List Int} (hs : Holds s cs) : Invariant s := by
  obtain ⟨h1, h2, h3, h4, h5⟩ := (holds_iff s cs).mp hs
  refine ⟨by omega, by omega, h2, ?_⟩
  rw [h1, Int.toNat_ofNat]
  exact h5

/-! ### `str_copy` and `str_get` -/

theorem copy_spec {s : string} {cs : List Int} (hs : Holds s cs) :
    ∃ r, str_copy s = .ok r ∧ Holds r cs ∧ r.size = s.size ∧ r.capacity = s.capacity := by
  obtain ⟨h1, h2, h3, h4, h5⟩ := (holds_iff s cs).mp hs
  obtain ⟨d, hd1, hd2, hd3, hd4⟩ := copy_loop s.data (fun k => cs.getD k 0) cs.length 0 0
    (fun i => i) (fun i => i) (fun k _ => by simp) (fun k _ => by simp)
    (fun k hk => by rw [Nat.zero_add]; exact h4 k hk)
    (List.replicate s.data.length none) (by simp; omega)
  refine ⟨⟨s.size, s.capacity, d.set cs.length (some 0)⟩, ?_, ?_, rfl, rfl⟩
  · unfold str_copy forRange
    dsimp only
    rw [h2, malloc_nat, bind_ok, h1, show ((cs.length : Int) - 0).toNat = cs.length by omega,
      hd1, bind_ok, wr_nat _ (by rw [hd2]; simp; omega), bind_ok]
    rfl
  · rw [holds_iff]
    refine ⟨h1, by simp [h2, hd2], by simp [hd2]; omega, fun k hk => ?_, ?_⟩
    · show (d.set cs.length (some 0))[k]? = _
      rw [List.getElem?_set_ne (by omega)]
      simpa using hd3 k hk
    · show (d.set cs.length (some 0))[cs.length]? = _
      rw [List.getElem?_set_self (by rw [hd2]; simp; omega)]

theorem forLoop_succ {σ : Type} (body : Int → σ → Exec σ) (k : Nat) (i : Int) (st : σ) :
    forLoop body (k + 1) i st = body i st >>= fun st' => forLoop body k (i + 1) st' := rfl

theorem forLoop_add {σ : Type} (body : Int → σ → Exec σ) :
    ∀ (a b : Nat) (i : Int) (st : σ),
      forLoop body (a + b) i st
        = forLoop body a i st >>= fun st' => forLoop body b (i + (a : Int)) st' := by
  intro a
  induction a with
  | zero => intro b i st; simp [forLoop]
  | succ a ih =>
    intro b i st
    rw [show a + 1 + b = (a + b) + 1 by omega, forLoop_succ, forLoop_succ body a]
    cases hb : body i st with
    | error e => rfl
    | ok st1 =>
      rw [bind_ok, bind_ok, ih b (i + 1) st1,
        show i + 1 + (a : Int) = i + ((a + 1 : Nat) : Int) by push_cast; omega]

theorem wr_outside {α : Type} (b : Buf α) (k : Nat) (v : α) (h : b.length ≤ k) :
    wr b (k : Int) v = .error Err.badAccess := by
  unfold wr
  rw [if_neg (by rw [Int.toNat_ofNat]; omega)]

theorem get_fits {s : string} {cs : List Int} (hs : Holds s cs) (k : Nat)
    (hk : cs.length ≤ k) :
    str_get (k : Int) s
      = .ok (cs.map some ++ [some 0] ++ List.replicate (k - cs.length) none) := by
  obtain ⟨h1, h2, h3, h4, h5⟩ := (holds_iff s cs).mp hs
  obtain ⟨d, hd1, hd2, hd3, hd4⟩ := copy_loop s.data (fun j => cs.getD j 0) cs.length 0 0
    (fun i => i) (fun i => i) (fun j _ => by simp) (fun j _ => by simp)
    (fun j hj => by rw [Nat.zero_add]; exact h4 j hj)
    (List.replicate (k + 1) none) (by simp; omega)
  have hlen : d.length = k + 1 := by rw [hd2]; simp
  unfold str_get forRange
  rw [show (k : Int) + 1 = ((k + 1 : Nat) : Int) by push_cast; rfl, malloc_nat, bind_ok, h1,
    show ((cs.length : Int) - 0).toNat = cs.length by omega, hd1, bind_ok,
    wr_nat _ (by omega)]
  congr 1
  apply List.ext_getElem?
  intro j
  rcases Nat.lt_trichotomy j cs.length with h | h | h
  · rw [List.getElem?_set_ne (by omega), List.append_assoc,
      List.getElem?_append_left (by simpa using h), List.getElem?_map, getD_of_lt cs h]
    simpa using hd3 j h
  · subst h
    rw [List.getElem?_set_self (by omega), List.append_assoc,
      List.getElem?_append_right (by simp)]
    simp
  · rw [List.getElem?_set_ne (by omega), hd4 j (by omega)]
    by_cases hj : j < k + 1
    · rw [List.getElem?_append_right (by simp; omega)]
      simp only [List.length_append, List.length_map, List.length_singleton]
      rw [List.getElem?_replicate, List.getElem?_replicate, if_pos hj, if_pos (by omega)]
    · rw [List.getElem?_eq_none (by simp; omega), List.getElem?_eq_none (by simp; omega)]

theorem get_overflows {s : string} {cs : List Int} (hs : Holds s cs) (k : Nat)
    (hk : k < cs.length) : str_get (k : Int) s = .error Err.badAccess := by
  obtain ⟨h1, h2, h3, h4, h5⟩ := (holds_iff s cs).mp hs
  obtain ⟨d, hd1, hd2, hd3, hd4⟩ := copy_loop s.data (fun j => cs.getD j 0) (k + 1) 0 0
    (fun i => i) (fun i => i) (fun j _ => by simp) (fun j _ => by simp)
    (fun j hj => by rw [Nat.zero_add]; exact h4 j (by omega))
    (List.replicate (k + 1) none) (by simp)
  have hlen : d.length = k + 1 := by rw [hd2]; simp
  unfold str_get forRange
  rw [show (k : Int) + 1 = ((k + 1 : Nat) : Int) by push_cast; rfl, malloc_nat, bind_ok, h1,
    show ((cs.length : Int) - 0).toNat = (k + 1) + (cs.length - (k + 1)) by omega,
    forLoop_add, hd1, bind_ok]
  rcases Nat.eq_zero_or_pos (cs.length - (k + 1)) with h0 | h0
  · rw [h0]
    have : cs.length = k + 1 := by omega
    rw [this]
    show wr d ((k + 1 : Nat) : Int) 0 = _
    exact wr_outside d (k + 1) 0 (by omega)
  · obtain ⟨m, hm⟩ : ∃ m, cs.length - (k + 1) = m + 1 := ⟨cs.length - (k + 1) - 1, by omega⟩
    rw [hm]
    unfold forLoop
    rw [show (0 : Int) + ((k + 1 : Nat) : Int) = ((k + 1 : Nat) : Int) by omega,
      rd_nat (h4 (k + 1) (by omega)), bind_ok, wr_outside d (k + 1) _ (by omega)]
    rfl

/-! ### `str_set` -/

theorem rd_ok {α : Type} {b : Buf α} {i : Int} {v : α} (h : rd b i = .ok v) :
    0 ≤ i ∧ b[i.toNat]? = some (some v) := by
  unfold rd at h
  by_cases hi : i < 0
  · rw [if_pos hi] at h; cases h
  · rw [if_neg hi] at h
    refine ⟨by omega, ?_⟩
    cases hb : b[i.toNat]? with
    | none => rw [hb] at h; cases h
    | some c =>
      cases c with
      | none => rw [hb] at h; cases h
      | some w => rw [hb] at h; injection h with h; rw [h]

theorem cstr_block {chars : cptr} {cs : List Int} (h : CStr chars cs) :
    0 ≤ chars.off ∧ (∀ k, k < cs.length →
      chars.blk[chars.off.toNat + k]? = some (some (cs.getD k 0))) ∧
    chars.blk[chars.off.toNat + cs.length]? = some (some 0) := by
  obtain ⟨h1, h2⟩ := h
  have h0 : 0 ≤ chars.off := by
    have := (rd_ok h2).1
    rcases Nat.eq_zero_or_pos cs.length with hz | hz
    · rw [hz] at this; simpa using this
    · have := (rd_ok (h1 0 hz).1).1
      simpa using this
  refine ⟨h0, fun k hk => ?_, ?_⟩
  · have := (rd_ok (h1 k hk).1).2
    rwa [show (chars.off + (k : Int)).toNat = chars.off.toNat + k by omega] at this
  · have := (rd_ok h2).2
    rwa [show (chars.off + (cs.length : Int)).toNat = chars.off.toNat + cs.length by omega]
      at this

theorem lengthLoop_spec {chars : cptr} {cs : List Int} (h : CStr chars cs) :
    ∀ (fuel len : Nat), len ≤ cs.length → cs.length - len + 1 ≤ fuel →
      lengthLoop chars fuel (len : Int) = .ok (cs.length : Int) := by
  intro fuel
  induction fuel with
  | zero => intro len _ hf; omega
  | succ fuel ih =>
    intro len hl hf
    unfold lengthLoop
    by_cases hc : len < cs.length
    · rw [(h.1 len hc).1, bind_ok, if_pos (h.1 len hc).2,
        show ((len : Int) + 1) = ((len + 1 : Nat) : Int) by push_cast; rfl]
      exact ih (len + 1) (by omega) (by omega)
    · have : len = cs.length := by omega
      subst this
      rw [h.2, bind_ok, if_neg (by simp)]
      rfl

theorem length_spec {chars : cptr} {cs : List Int} (h : CStr chars cs) :
    _length chars = .ok (cs.length : Int) := by
  obtain ⟨h0, h1, h2⟩ := cstr_block h
  have hlt := lt_length_of_getElem? h2
  have := lengthLoop_spec h (chars.blk.length + 1) 0 (Nat.zero_le _) (by omega)
  simpa [_length] using this

theorem set_spec (s : string) {chars : cptr} {cs : List Int} (h : CStr chars cs) :
    str_set s chars = .ok (strOf cs) := by
  obtain ⟨h0, h1, h2⟩ := cstr_block h
  obtain ⟨d, hd1, hd2, hd3, hd4⟩ := copy_loop chars.blk (fun k => cs.getD k 0) cs.length
    chars.off.toNat 0 (fun i => chars.off + i) (fun i => i)
    (fun k _ => by push_cast; omega) (fun k _ => by simp) h1
    (List.replicate (cs.length + 1) none) (by simp)
  have hdata : d.set cs.length (some 0) = cs.map some ++ [some 0] := by
    apply buf_eq_of_pointwise
    · simp [hd2]
    · intro k hk
      rw [List.getElem?_set_ne (by omega)]
      simpa using hd3 k hk
    · rw [List.getElem?_set_self (by rw [hd2]; simp)]
  unfold str_set forRange
  rw [length_spec h, bind_ok]
  dsimp only
  rw [show (cs.length : Int) + 1 = ((cs.length + 1 : Nat) : Int) by push_cast; rfl, malloc_nat,
    bind_ok, show ((cs.length : Int) - 0).toNat = cs.length by omega]
  have hd1' : forLoop (fun i d => do
      let c ← chars.at i
      wr d i c) cs.length 0 (List.replicate (cs.length + 1) none) = .ok d := hd1
  rw [hd1', bind_ok, wr_nat _ (by rw [hd2]; simp), bind_ok, hdata]
  simp only [pure_eq_ok, strOf, Nat.cast_add, Nat.cast_one]

/-! ### `str_erase` when it returns -/

theorem forLoop_ok_inv {σ : Type} (body : Int → σ → Exec σ) (Inv : σ → Prop)
    (hbody : ∀ (i : Int) (st st' : σ), Inv st → body i st = .ok st' → Inv st') :
    ∀ (k : Nat) (i : Int) (st st' : σ), Inv st → forLoop body k i st = .ok st' → Inv st' := by
  intro k
  induction k with
  | zero =>
    intro i st st' h0 h
    have : st = st' := by
      have h' : (Except.ok st : Exec σ) = .ok st' := h
      injection h'
    rw [← this]; exact h0
  | succ k ih =>
    intro i st st' h0 h
    rw [forLoop_succ] at h
    cases hb : body i st with
    | error e => rw [hb] at h; cases h
    | ok st1 =>
      rw [hb, bind_ok] at h
      exact ih (i + 1) st1 st' (hbody i st st1 h0 hb) h

theorem wr_ok {α : Type} {b b' : Buf α} {i : Int} {v : α} (h : wr b i v = .ok b') :
    0 ≤ i ∧ i.toNat < b.length ∧ b' = b.set i.toNat (some v) := by
  unfold wr at h
  by_cases hc : 0 ≤ i ∧ i.toNat < b.length
  · rw [if_pos hc] at h
    injection h with h
    exact ⟨hc.1, hc.2, h.symm⟩
  · rw [if_neg hc] at h; cases h

theorem erase_invariant_of_ok {s r : string} {begin_ end_ : Int} (hs : Invariant s)
    (h : str_erase s begin_ end_ = .ok r) : Invariant r := by
  obtain ⟨_, _, hcap, _⟩ := hs
  unfold str_erase forRange at h
  dsimp only at h
  generalize hb : (if begin_ < 0 then 0 else begin_) = b at h
  generalize he : (if end_ > s.size then s.size else end_) = e at h
  cases hl : forLoop (fun i d => do
      let c ← rd d i
      wr d (i - (e - b)) c) (s.size - e).toNat e s.data with
  | error err => rw [hl] at h; cases h
  | ok d =>
    rw [hl, bind_ok] at h
    have hlen : d.length = s.data.length :=
      forLoop_ok_inv _ (fun d => d.length = s.data.length)
        (fun i st st' h0 hb => by
          cases hr : rd st i with
          | error err =>
            have hb' : (rd st i >>= fun c => wr st (i - (e - b)) c) = .ok st' := hb
            rw [hr] at hb'; cases hb'
          | ok c =>
            have hb' : (rd st i >>= fun c => wr st (i - (e - b)) c) = .ok st' := hb
            rw [hr, bind_ok] at hb'
            rw [(wr_ok hb').2.2]
            simpa using h0)
        _ _ _ _ rfl hl
    cases hw : wr d (s.size - (e - b)) 0 with
    | error err => rw [hw] at h; cases h
    | ok d' =>
      rw [hw, bind_ok] at h
      obtain ⟨w1, w2, w3⟩ := wr_ok hw
      have hr : r = ⟨s.size - (e - b), s.capacity, d'⟩ := by
        have h' : (Except.ok ⟨s.size - (e - b), s.capacity, d'⟩ : Exec string) = .ok r := h
        injection h' with h'
        exact h'.symm
      rw [hr]
      refine ⟨w1, ?_, ?_, ?_⟩
      · show s.size - (e - b) < s.capacity
        rw [hcap]; omega
      · show s.capacity = d'.length
        rw [w3, hcap]; simp [hlen]
      · show d'[(s.size - (e - b)).toNat]? = some (some 0)
        rw [w3, List.getElem?_set_self w2]

theorem erase_eq_shift (s : string) (begin_ end_ : Int) :
    str_erase s begin_ end_
      = eraseShift s begin_ end_ >>= fun t =>
          wr t.data t.size 0 >>= fun d => pure { t with data := d } := by
  unfold str_erase eraseShift
  simp only [bind_assoc, pure_bind]

/-! ## The claims, continued -/

theorem eq_iff_pointwise (xs ys : List Int) :
    xs = ys ↔ xs.length = ys.length ∧ ∀ i, i < xs.length → xs[i]? = ys[i]? := by
  constructor
  · rintro rfl; exact ⟨rfl, fun _ _ => rfl⟩
  · rintro ⟨h1, h2⟩
    apply List.ext_getElem?
    intro i
    by_cases hi : i < xs.length
    · exact h2 i hi
    · rw [List.getElem?_eq_none (by omega), List.getElem?_eq_none (by omega)]

/-- C11: `str_equal` returns true exactly when the two strings have the same length and the
same char at every index, which is when they hold the same bytes and when `str_compare`
returns `EQ`. -/
theorem str_equal_iff (a b : string) (xs ys : List Int) (ha : Holds a xs) (hb : Holds b ys) :
    (∃ r, str_equal a b = .ok r) ∧
    (str_equal a b = .ok true ↔
      xs.length = ys.length ∧ ∀ i, i < xs.length → xs[i]? = ys[i]?) ∧
    (str_equal a b = .ok true ↔ str_compare a b = .ok order.EQ) ∧
    (∀ signed : Bool, (∀ c ∈ xs, CharRange signed c) → (∀ c ∈ ys, CharRange signed c) →
      (str_equal a b = .ok true ↔ xs.map byteVal = ys.map byteVal)) := by
  have key : str_equal a b = .ok true ↔ xs = ys := by
    rw [equal_spec ha hb]
    constructor
    · intro h; injection h with h; exact of_decide_eq_true h
    · intro h; rw [decide_eq_true h]
  refine ⟨⟨_, equal_spec ha hb⟩, by rw [key, eq_iff_pointwise], ?_, fun signed hx hy => ?_⟩
  · rw [key, compare_spec ha hb, ← lexCompare_eq_EQ_iff]
    constructor
    · intro h; rw [h]
    · intro h; injection h
  · rw [key]
    exact ⟨fun h => by rw [h], map_byteVal_inj signed xs ys hx hy⟩

theorem str_equal_iff_witness :
    Holds (strOf [97, 98]) [97, 98] ∧ Holds (strOf [97, 99]) [97, 99] ∧
    (str_equal (strOf [97, 98]) (strOf [97, 99]) = .ok true ↔
      str_compare (strOf [97, 98]) (strOf [97, 99]) = .ok order.EQ) :=
  ⟨by decide, by decide,
    (str_equal_iff (strOf [97, 98]) (strOf [97, 99]) [97, 98] [97, 99]
      (by decide) (by decide)).2.2.1⟩

/-- C12, at the failing input: on the string `"hello"` built by `str_create` and `str_append`
(capacity 8), `str_erase` with `begin = 3` and `end = 1` returns with the string `"helelel"`
of length 7, where the claim removes nothing and never lengthens; on `"hello"` with capacity 6
the same call, and the call with `end = -1`, access memory outside the block. -/
theorem str_erase_reversed_bounds :
    (str_create >>= fun a => str_append a (strOf [104, 101, 108, 108, 111]))
      = .ok ⟨5, 8, [some 104, some 101, some 108, some 108, some 111, some 0, none, none]⟩ ∧
    Holds ⟨5, 8, [some 104, some 101, some 108, some 108, some 111, some 0, none, none]⟩
      [104, 101, 108, 108, 111] ∧
    str_erase ⟨5, 8, [some 104, some 101, some 108, some 108, some 111, some 0, none, none]⟩ 3 1
      = .ok ⟨7, 8, [some 104, some 101, some 108, some 101, some 108, some 101, some 108,
          some 0]⟩ ∧
    Holds ⟨7, 8, [some 104, some 101, some 108, some 101, some 108, some 101, some 108,
        some 0]⟩ [104, 101, 108, 101, 108, 101, 108] ∧
    str_erase (strOf [104, 101, 108, 108, 111]) 3 1 = .error Err.badAccess ∧
    str_erase (strOf [104, 101, 108, 108, 111]) 0 (-1) = .error Err.badAccess :=
  ⟨rfl, by decide, rfl, by decide, rfl, rfl⟩

/-- C13: with `b = max(begin, 0)`, `e = min(end, size)` and `b ≤ e`, `str_erase` leaves
`s[0..b) ++ s[e..size)`, of length `size - (e - b)`, capacity unchanged; a negative `begin`
behaves as 0 and an `end` beyond the length as the length. -/
theorem str_erase_clamped (s : string) (cs : List Int) (begin_ end_ : Int) (hs : Holds s cs)
    (hbe : max begin_ 0 ≤ min end_ s.size) :
    (∃ r, str_erase s begin_ end_ = .ok r ∧
      Holds r (cs.take (max begin_ 0).toNat ++ cs.drop (min end_ s.size).toNat) ∧
      r.size = s.size - (min end_ s.size - max begin_ 0) ∧ r.capacity = s.capacity) ∧
    (begin_ < 0 → str_erase s begin_ end_ = str_erase s 0 end_) ∧
    (end_ > s.size → str_erase s begin_ end_ = str_erase s begin_ s.size) := by
  refine ⟨erase_spec_int hs begin_ end_ hbe, fun h => ?_, fun h => ?_⟩
  · rw [erase_clamp s begin_, erase_clamp s 0, max_eq_right (by omega), max_eq_right (le_refl _)]
  · rw [erase_clamp s begin_ end_, erase_clamp s begin_ s.size, min_eq_right (by omega),
      min_eq_right (le_refl _)]

theorem str_erase_clamped_witness :
    Holds (strOf [104, 101, 108, 108, 111]) [104, 101, 108, 108, 111] ∧
    ∃ r, str_erase (strOf [104, 101, 108, 108, 111]) (-2) 9 = .ok r ∧
      Holds r (([104, 101, 108, 108, 111] : List Int).take (max (-2 : Int) 0).toNat ++
        ([104, 101, 108, 108, 111] : List Int).drop
          (min (9 : Int) (strOf [104, 101, 108, 108, 111]).size).toNat) ∧
      r.size = (strOf [104, 101, 108, 108, 111]).size -
        (min (9 : Int) (strOf [104, 101, 108, 108, 111]).size - max (-2 : Int) 0) ∧
      r.capacity = (strOf [104, 101, 108, 108, 111]).capacity :=
  ⟨by decide,
    (str_erase_clamped (strOf [104, 101, 108, 108, 111]) [104, 101, 108, 108, 111] (-2) 9
      (by decide) (by decide)).1⟩

/-- C14, at the failing input. The invariant holds for the result of `str_create` and is kept
by `str_set`, `str_append`, `str_replace` (non-empty `old`), `str_strip`, `str_reverse`,
`str_lower`, `str_upper`, `str_replace_char` and `str_copy`, and by `str_erase` when
`max(begin, 0) ≤ min(end, size)` or when it stays inside the block. It is not kept for every
`begin` and `end`: on `"hello"` as `str_set` builds it (capacity 6), `str_erase` with
`begin = 7` and `end = 5` sets `size` to 7, which is not below the capacity, and then stores
the terminator at index 7, outside the block. -/
theorem container_invariant_except_erase :
    (∃ r, str_create = .ok r ∧ Invariant r) ∧
    (∀ (s : string) (chars : cptr) (cs : List Int), CStr chars cs →
      ∃ r, str_set s chars = .ok r ∧ Holds r cs ∧ Invariant r) ∧
    (∀ (a b : string) (xs ys : List Int), Holds a xs → Holds b ys →
      ∃ r, str_append a b = .ok r ∧ Invariant r) ∧
    (∀ (s : string) (cs : List Int) (begin_ end_ : Int), Holds s cs →
      max begin_ 0 ≤ min end_ s.size → ∃ r, str_erase s begin_ end_ = .ok r ∧ Invariant r) ∧
    (∀ (s r : string) (begin_ end_ : Int), Invariant s → str_erase s begin_ end_ = .ok r →
      Invariant r) ∧
    (∀ (s old_str new_str : string) (cs os ns : List Int), Holds s cs → Holds old_str os →
      os ≠ [] → Holds new_str ns → ∃ r, str_replace s old_str new_str = .ok r ∧ Invariant r) ∧
    (∀ (s : string) (cs : List Int), Holds s cs → ∃ r, str_strip s = .ok r ∧ Invariant r) ∧
    (∀ (s : string) (cs : List Int), Holds s cs → ∃ r, str_reverse s = .ok r ∧ Invariant r) ∧
    (∀ (s : string) (cs : List Int), Holds s cs → ∃ r, str_lower s = .ok r ∧ Invariant r) ∧
    (∀ (s : string) (cs : List Int), Holds s cs → ∃ r, str_upper s = .ok r ∧ Invariant r) ∧
    (∀ (s : string) (cs : List Int) (old_char new_char : Int), Holds s cs →
      ∃ r, str_replace_char s old_char new_char = .ok r ∧ Invariant r) ∧
    (∀ (s : string) (cs : List Int), Holds s cs → ∃ r, str_copy s = .ok r ∧ Invariant r) ∧
    (∀ (s : string) (begin_ end_ : Int), str_erase s begin_ end_
      = eraseShift s begin_ end_ >>= fun t =>
          wr t.data t.size 0 >>= fun d => pure { t with data := d }) ∧
    str_set ⟨0, 8, [some 0, none, none, none, none, none, none, none]⟩
        ⟨[some 104, some 101, some 108, some 108, some 111, some 0], 0⟩
      = .ok (strOf [104, 101, 108, 108, 111]) ∧
    Invariant (strOf [104, 101, 108, 108, 111]) ∧
    eraseShift (strOf [104, 101, 108, 108, 111]) 7 5
      = .ok ⟨7, 6, [some 104, some 101, some 108, some 108, some 111, some 0]⟩ ∧
    ¬ Invariant ⟨7, 6, [some 104, some 101, some 108, some 108, some 111, some 0]⟩ ∧
    str_erase (strOf [104, 101, 108, 108, 111]) 7 5 = .error Err.badAccess := by
  refine ⟨⟨_, str_create_eq, invariant_of_holds holds_create⟩, ?_, ?_, ?_, ?_, ?_, ?_, ?_, ?_,
    ?_, ?_, ?_, erase_eq_shift, rfl, by decide, rfl, by decide, rfl⟩
  · intro s chars cs h
    exact ⟨_, set_spec s h, holds_strOf cs, invariant_of_holds (holds_strOf cs)⟩
  · intro a b xs ys ha hb
    obtain ⟨r, h1, h2⟩ := append_spec ha hb
    exact ⟨r, h1, invariant_of_holds h2⟩
  · intro s cs begin_ end_ hs hbe
    obtain ⟨r, h1, h2, _⟩ := erase_spec_int hs begin_ end_ hbe
    exact ⟨r, h1, invariant_of_holds h2⟩
  · intro s r begin_ end_ hs h
    exact erase_invariant_of_ok hs h
  · intro s old_str new_str cs os ns hs ho hne hn
    obtain ⟨r, h1, h2⟩ := replace_spec hs ho hne hn
    exact ⟨r, h1, invariant_of_holds h2⟩
  · intro s cs hs
    obtain ⟨r, h1, h2, _⟩ := strip_spec hs
    exact ⟨r, h1, invariant_of_holds h2⟩
  · intro s cs hs
    obtain ⟨d, h1, h2⟩ := reverse_block hs
    exact ⟨_, h1, invariant_of_holds (holds_of_reversedBlock hs h2)⟩
  · intro s cs hs
    obtain ⟨d, h1, h2⟩ := lower_block hs
    exact ⟨_, h1, invariant_of_holds (holds_of_mappedBlock hs h2)⟩
  · intro s cs hs
    obtain ⟨d, h1, h2⟩ := upper_block hs
    exact ⟨_, h1, invariant_of_holds (holds_of_mappedBlock hs h2)⟩
  · intro s cs old_char new_char hs
    obtain ⟨d, h1, h2⟩ := replace_char_block hs old_char new_char
    exact ⟨_, h1, invariant_of_holds (holds_of_mappedBlock hs h2)⟩
  · intro s cs hs
    obtain ⟨r, h1, h2, _⟩ := copy_spec hs
    exact ⟨r, h1, invariant_of_holds h2⟩

/-- C16: `str_reverse` leaves the chars of the string in reverse order (the char at index `i`
is the old one at `size - 1 - i`), size and capacity unchanged, and reversing the result gives
back the string it started from. -/
theorem str_reverse_involution (s : string) (cs : List Int) (hs : Holds s cs) :
    ∃ r, str_reverse s = .ok r ∧ Holds r cs.reverse ∧ r.size = s.size ∧
      r.capacity = s.capacity ∧
      (∀ i, i < cs.length → cs.reverse[i]? = cs[cs.length - 1 - i]?) ∧
      str_reverse r = .ok s := by
  obtain ⟨d, h1, h2⟩ := reverse_block hs
  have hr := holds_of_reversedBlock hs h2
  obtain ⟨d2, h3, h4⟩ := reverse_block hr
  rw [List.length_reverse] at h4
  have hd2 : d2 = s.data := reversedBlock_twice h2 h4
  refine ⟨_, h1, hr, rfl, rfl, fun i hi => List.getElem?_reverse hi, ?_⟩
  rw [h3, hd2]

theorem str_reverse_involution_witness :
    Holds (strOf [97, 98, 99]) [97, 98, 99] ∧
    ∃ r, str_reverse (strOf [97, 98, 99]) = .ok r ∧
      Holds r ([97, 98, 99] : List Int).reverse ∧
      r.size = (strOf [97, 98, 99]).size ∧ r.capacity = (strOf [97, 98, 99]).capacity ∧
      (∀ i, i < ([97, 98, 99] : List Int).length →
        ([97, 98, 99] : List Int).reverse[i]?
          = ([97, 98, 99] : List Int)[([97, 98, 99] : List Int).length - 1 - i]?) ∧
      str_reverse r = .ok (strOf [97, 98, 99]) :=
  ⟨by decide, str_reverse_involution (strOf [97, 98, 99]) [97, 98, 99] (by decide)⟩

/-- C17: `str_lower` applied after `str_upper` gives the string that `str_lower` alone gives,
which holds the chars of `s` with each of `'A'..'Z'` replaced by its lower-case letter and
every other char (the letters `'a'..'z'` included) unchanged; and `str_lower` applied twice
gives what it gives once. -/
theorem str_lower_after_upper (s : string) (cs : List Int) (hs : Holds s cs) :
    ∃ u l : string, str_upper s = .ok u ∧ str_lower s = .ok l ∧
      str_lower u = .ok l ∧ str_lower l = .ok l ∧
      Holds l (cs.map lowerChar) ∧
      (∀ c, (65 ≤ c ∧ c ≤ 90 → lowerChar c = c + 32) ∧
        (¬ (65 ≤ c ∧ c ≤ 90) → lowerChar c = c)) := by
  obtain ⟨du, hu1, hu2⟩ := upper_block hs
  obtain ⟨dl, hl1, hl2⟩ := lower_block hs
  have hu := holds_of_mappedBlock hs hu2
  have hl := holds_of_mappedBlock hs hl2
  obtain ⟨dlu, hlu1, hlu2⟩ := lower_block hu
  obtain ⟨dll, hll1, hll2⟩ := lower_block hl
  rw [List.length_map] at hlu2 hll2
  have e1 : dlu = dl := mappedBlock_comp lowerChar_upperChar hu2 hlu2 hl2
  have e2 : dll = dl := mappedBlock_comp lowerChar_lowerChar hl2 hll2 hl2
  refine ⟨_, _, hu1, hl1, by rw [hlu1, e1], by rw [hll1, e2], hl, fun c => ⟨fun h => ?_,
    fun h => ?_⟩⟩
  · unfold lowerChar; rw [if_pos ⟨h.1, h.2⟩]; omega
  · unfold lowerChar; rw [if_neg (fun hc => h ⟨hc.1, hc.2⟩)]

theorem str_lower_after_upper_witness :
    Holds (strOf [72, 105, 33]) [72, 105, 33] ∧
    ∃ u l : string, str_upper (strOf [72, 105, 33]) = .ok u ∧
      str_lower (strOf [72, 105, 33]) = .ok l ∧
      str_lower u = .ok l ∧ str_lower l = .ok l ∧
      Holds l (([72, 105, 33] : List Int).map lowerChar) ∧
      (∀ c, (65 ≤ c ∧ c ≤ 90 → lowerChar c = c + 32) ∧
        (¬ (65 ≤ c ∧ c ≤ 90) → lowerChar c = c)) :=
  ⟨by decide, str_lower_after_upper (strOf [72, 105, 33]) [72, 105, 33] (by decide)⟩

/-- C18: `str_at` stops with the out-of-range error exactly when `i < 0` or `i ≥ size`, and
otherwise returns the char of the string at index `i`; the string is only read. -/
theorem str_at_bounds (s : string) (cs : List Int) (i : Int) (hs : Holds s cs) :
    (str_at s i = .error Err.outOfRange ↔ i < 0 ∨ i ≥ s.size) ∧
    ((∃ e, str_at s i = .error e) ↔ i < 0 ∨ i ≥ s.size) ∧
    (0 ≤ i ∧ i < s.size → str_at s i = .ok (cs.getD i.toNat 0) ∧
      cs[i.toNat]? = some (cs.getD i.toNat 0)) := by
  by_cases hc : i < 0 ∨ i ≥ s.size
  · have hfail : str_at s i = .error Err.outOfRange := by
      unfold str_at
      rw [check_bounds_fail (by omega)]
      rfl
    rw [hfail]
    exact ⟨⟨fun _ => hc, fun _ => rfl⟩, ⟨fun _ => hc, fun _ => ⟨_, rfl⟩⟩,
      fun h => absurd hc (by omega)⟩
  · have h1 := hs.1
    have hlt : i.toNat < cs.length := by omega
    have hok : str_at s i = .ok (cs.getD i.toNat 0) := by
      unfold str_at
      rw [check_bounds_ok (by omega) (by omega), bind_ok]
      obtain ⟨k, rfl⟩ : ∃ k : Nat, i = (k : Int) := ⟨i.toNat, by omega⟩
      rw [Int.toNat_ofNat] at hlt ⊢
      rw [rd_holds hs hlt]
      simp [List.getD_eq_getElem?_getD, List.getElem?_eq_getElem hlt]
    rw [hok]
    refine ⟨⟨fun h => (by cases h), fun h => absurd h hc⟩,
      ⟨fun ⟨e, h⟩ => (by cases h), fun h => absurd h hc⟩, fun _ => ⟨rfl, getD_of_lt cs hlt⟩⟩

theorem str_at_bounds_witness :
    Holds (strOf [97, 98, 99]) [97, 98, 99] ∧
    (str_at (strOf [97, 98, 99]) 3 = .error Err.outOfRange ↔
      (3 : Int) < 0 ∨ (3 : Int) ≥ (strOf [97, 98, 99]).size) :=
  ⟨by decide, (str_at_bounds (strOf [97, 98, 99]) [97, 98, 99] 3 (by decide)).1⟩

/-- C19: `str_copy` returns a new string with the size, the capacity and the chars of `s`,
itself satisfying the invariant, and `str_equal` of the copy and `s` is true; `s` is only
read. -/
theorem str_copy_same (s : string) (cs : List Int) (hs : Holds s cs) :
    ∃ r, str_copy s = .ok r ∧ r.size = s.size ∧ r.capacity = s.capacity ∧ Holds r cs ∧
      Invariant r ∧ str_equal r s = .ok true := by
  obtain ⟨r, h1, h2, h3, h4⟩ := copy_spec hs
  refine ⟨r, h1, h3, h4, h2, invariant_of_holds h2, ?_⟩
  rw [equal_spec h2 hs, decide_eq_true rfl]

theorem str_copy_same_witness :
    Holds (strOf [97, 98, 99]) [97, 98, 99] ∧
    ∃ r, str_copy (strOf [97, 98, 99]) = .ok r ∧ r.size = (strOf [97, 98, 99]).size ∧
      r.capacity = (strOf [97, 98, 99]).capacity ∧ Holds r [97, 98, 99] ∧
      Invariant r ∧ str_equal r (strOf [97, 98, 99]) = .ok true :=
  ⟨by decide, str_copy_same (strOf [97, 98, 99]) [97, 98, 99] (by decide)⟩

/-- C20, at the failing input: `str_get` allocates `sizeof(str->size) + 1` cells, whatever the
size of the string; it returns the chars followed by 0 when the string has at most
`sizeof(int)` chars, and for any longer string it writes outside the block. With a 4-byte
`int` the string `"hello"` is such a string: the store of the terminator at index 5 is
outside the 5 cells allocated. -/
theorem str_get_allocation (sizeofInt : Nat) (s : string) (cs : List Int) (hs : Holds s cs) :
    (malloc ((sizeofInt : Int) + 1) : Exec (Buf Int))
      = .ok (List.replicate (sizeofInt + 1) none) ∧
    (cs.length ≤ sizeofInt → str_get (sizeofInt : Int) s
      = .ok (cs.map some ++ [some 0] ++ List.replicate (sizeofInt - cs.length) none)) ∧
    (sizeofInt < cs.length → str_get (sizeofInt : Int) s = .error Err.badAccess) ∧
    str_get 4 (strOf [104, 101, 108, 108, 111]) = .error Err.badAccess ∧
    str_get 4 (strOf [104, 101, 108, 108, 111, 33]) = .error Err.badAccess :=
  ⟨by rw [show (sizeofInt : Int) + 1 = ((sizeofInt + 1 : Nat) : Int) by push_cast; rfl,
      malloc_nat],
    get_fits hs sizeofInt, get_overflows hs sizeofInt, rfl, rfl⟩

theorem str_get_allocation_witness :
    Holds (strOf [104, 101, 108, 108, 111]) [104, 101, 108, 108, 111] ∧
    str_get ((4 : Nat) : Int) (strOf [104, 101, 108, 108, 111]) = .error Err.badAccess :=
  ⟨by decide,
    (str_get_allocation 4 (strOf [104, 101, 108, 108, 111]) [104, 101, 108, 108, 111]
      (by decide)).2.2.1 (by decide)⟩

/-! ### The failure table -/

theorem find_pattern_eq_table (str pattern : cptr) (n m : Int) :
    _find_pattern str pattern n m
      = if n < m then pure STR_NOT_FOUND
        else if m = 0 then pure 0
        else failureTable pattern m >>= fun mtch =>
          scan str pattern mtch n m (2 * n.toNat + 1) 0 0 >>= fun sp =>
            pure (if sp.2 = m then sp.1 - m else STR_NOT_FOUND) := by
  unfold _find_pattern failureTable
  simp only [bind_assoc]

theorem failureTable_spec {pattern : cptr} {P : Nat → Int} {m : Nat}
    (hP : Reads pattern P m) (hm : 0 < m) :
    ∃ mtch, failureTable pattern (m : Int) = .ok mtch ∧ TableUpTo P mtch m m := by
  obtain ⟨mtch, h1, h2⟩ := table_spec hP hm
  refine ⟨mtch, ?_, h2⟩
  unfold failureTable
  rw [malloc_nat, bind_ok, wr_zero _ (by simpa using hm), bind_ok, h1]

theorem border_iff_aux (w : List Int) (P : Nat → Int) (j L : Nat) (hlen : w.length = j + 1)
    (hget : ∀ k, k < j + 1 → w[k]? = some (P k)) :
    isBorder P j L ↔ properBorder w L := by
  unfold isBorder properBorder
  rw [hlen, List.suffix_iff_eq_drop]
  constructor
  · rintro ⟨h1, h2⟩
    have hl : (w.take L).length = L := by rw [List.length_take, hlen]; omega
    refine ⟨by omega, List.ext_getElem? fun t => ?_⟩
    rw [hl, hlen, List.getElem?_drop]
    by_cases ht : t < L
    · rw [List.getElem?_take_of_lt ht, hget t (by omega), hget _ (by omega), h2 t ht]
    · rw [List.getElem?_eq_none (by rw [hl]; omega),
        List.getElem?_eq_none (by rw [hlen]; omega)]
  · rintro ⟨h1, h2⟩
    have hl : (w.take L).length = L := by rw [List.length_take, hlen]; omega
    refine ⟨by omega, fun t ht => ?_⟩
    have := congrArg (fun l => l[t]?) h2
    simp only at this
    rw [hl, hlen, List.getElem?_drop,
      List.getElem?_take_of_lt ht, hget t (by omega), hget _ (by omega)] at this
    injection this

theorem border_iff (ps : List Int) (j L : Nat) (hj : j < ps.length) :
    isBorder (fun k => ps.getD k 0) j L ↔ properBorder (ps.take (j + 1)) L :=
  border_iff_aux (ps.take (j + 1)) (fun k => ps.getD k 0) j L
    (by rw [List.length_take]; omega)
    (fun k hk => by rw [List.getElem?_take_of_lt hk, getD_of_lt ps (by omega)])

theorem maxBorder_longest (ps : List Int) (j : Nat) (hj : j < ps.length) :
    longestBorder (ps.take (j + 1)) (maxBorder (fun k => ps.getD k 0) j) :=
  ⟨(border_iff ps j _ hj).mp (maxBorder_isBorder _ j),
    fun L' h => le_maxBorder ((border_iff ps j L' hj).mpr h)⟩

theorem reads_exact (cs : List Int) :
    Reads ⟨cs.map some, 0⟩ (fun k => cs.getD k 0) cs.length := by
  intro k hk
  show rd (cs.map some) ((0 : Int) + (k : Int)) = _
  rw [Int.zero_add]
  exact rd_nat (by rw [List.getElem?_map, getD_of_lt cs hk]; rfl)

theorem rd_outside {α : Type} (b : Buf α) (i : Int) (h : i < 0 ∨ (b.length : Int) ≤ i) :
    rd b i = .error Err.badAccess := by
  unfold rd
  by_cases hi : i < 0
  · rw [if_pos hi]
  · rw [if_neg hi, List.getElem?_eq_none (by omega)]

theorem table_entries {P : Nat → Int} {mtch : Buf Int} {m : Nat} (hT : TableUpTo P mtch m m)
    (j : Nat) (hj : j < m) :
    ∃ v : Int, mtch[j]? = some (some v) ∧ -1 ≤ v ∧ v < (j : Int) ∧
      v = (maxBorder P j : Int) - 1 := by
  have := maxBorder_le P j
  exact ⟨_, hT.2 j hj, by omega, by omega, rfl⟩

/-! ### Fragments of a string that ends with the separator -/

theorem occursAt_append_left {t ss : List Int} (u : List Int) {j : Nat}
    (h : j + ss.length ≤ t.length) : occursAt (t ++ u) ss j ↔ occursAt t ss j := by
  have e : ((t ++ u).drop j).take ss.length = (t.drop j).take ss.length := by
    rw [List.drop_append_of_le_length (by omega),
      List.take_append_of_le_length (by rw [List.length_drop]; omega)]
  unfold occursAt
  rw [e]
  constructor
  · rintro ⟨_, h2⟩; exact ⟨h, h2⟩
  · rintro ⟨_, h2⟩; exact ⟨by rw [List.length_append]; omega, h2⟩

theorem firstOcc_append {t ss : List Int} {i : Nat} (u : List Int)
    (h : firstOcc t ss = some i) : firstOcc (t ++ u) ss = some i := by
  obtain ⟨h1, h2⟩ := firstOcc_some h
  have hb := h1.1
  refine firstOcc_eq_some ((occursAt_append_left u hb).mpr h1) (fun j hj hc => ?_)
  exact h2 j hj ((occursAt_append_left u (by omega)).mp hc)

theorem firstOcc_snoc {t : List Int} {c : Int} (h : firstOcc t [c] = none) :
    firstOcc (t ++ [c]) [c] = some t.length := by
  refine firstOcc_eq_some ?_ (fun j hj hc => ?_)
  · have := occursAt_of_append t [c] []
    rwa [List.append_nil] at this
  · exact firstOcc_none h j ((occursAt_append_left [c] (by simpa using hj)).mp hc)

theorem splitSpec_trailing (c : Int) :
    ∀ (n : Nat) (t : List Int), t.length ≤ n → t ≠ [] → t.getLast? ≠ some c →
      splitSpec [c] (t ++ [c]) = splitSpec [c] t := by
  have hne : ([c] : List Int) ≠ [] := by simp
  intro n
  induction n with
  | zero =>
    intro t hl ht
    exact absurd (List.length_eq_zero.mp (Nat.le_zero.mp hl)) ht
  | succ n ih =>
    intro t hl ht hlast
    cases h : firstOcc t [c] with
    | none =>
      rw [splitSpec_some hne (firstOcc_snoc h), splitSpec_none h, if_neg ht,
        List.take_left, List.drop_of_length_le (by simp)]
      rfl
    | some i =>
      have hb := firstOcc_bound h
      simp only [List.length_singleton] at hb
      have hsplit := occursAt_split (firstOcc_some h).1
      simp only [List.length_singleton] at hsplit
      have hrest : t.drop (i + 1) ≠ [] := by
        intro he
        apply hlast
        rw [hsplit, he, List.append_nil, List.getLast?_append]
        rfl
      have hlast2 : (t.drop (i + 1)).getLast? ≠ some c := by
        intro he
        apply hlast
        rw [hsplit, List.getLast?_append, he]
        rfl
      rw [splitSpec_some hne (firstOcc_append [c] h), splitSpec_some hne h,
        List.take_append_of_le_length (by omega)]
      simp only [List.length_singleton]
      rw [List.drop_append_of_le_length (by omega),
        ih (t.drop (i + 1)) (by rw [List.length_drop]; omega) hrest hlast2]

theorem splitSpec_length_le {ss : List Int} (hne : ss ≠ []) :
    ∀ (n : Nat) (t : List Int), t.length ≤ n → (splitSpec ss t).length ≤ t.length := by
  have hpos : 0 < ss.length := List.length_pos.mpr hne
  intro n
  induction n with
  | zero =>
    intro t hl
    have ht : t = [] := List.length_eq_zero.mp (Nat.le_zero.mp hl)
    subst ht
    rw [splitSpec_none (firstOcc_nil hne)]
    simp
  | succ n ih =>
    intro t hl
    cases h : firstOcc t ss with
    | none =>
      rw [splitSpec_none h]
      by_cases ht : t = []
      · rw [if_pos ht]; simp
      · rw [if_neg ht]
        exact List.length_pos.mpr ht
    | some i =>
      have hb := firstOcc_bound h
      rw [splitSpec_some hne h, List.length_cons]
      have := ih (t.drop (i + ss.length)) (by rw [List.length_drop]; omega)
      rw [List.length_drop] at this
      omega

/-! ### Replacement of the empty string -/

theorem find_pattern_empty {s old : string} {cs : List Int} (hs : Holds s cs)
    (ho : Holds old []) :
    _find_pattern ⟨s.data, 0⟩ ⟨old.data, 0⟩ (s.size - 0) old.size = .ok 0 := by
  have h := find_pattern_holds hs ho 0 (Nat.zero_le _)
  simp only [Nat.cast_zero, List.drop_zero] at h
  rw [h, findSpec, firstOcc_nil_pattern]
  rfl

theorem replaceLoop_empty_step {s old new : string} {cs ns : List Int} (hs : Holds s cs)
    (ho : Holds old []) (hn : Holds new ns) (hne : cs ≠ []) (fuel : Nat) (buffer tmp : string)
    (acc : List Int) (hb : Holds buffer acc) :
    ∃ buffer', Holds buffer' (acc ++ ns) ∧
      replaceLoop s old new (fuel + 1) buffer tmp 0
        = replaceLoop s old new fuel buffer' (strOf []) 0 := by
  have hpos : 0 < cs.length := List.length_pos.mpr hne
  have hcopy := copy_range_spec hs tmp 0 0 hpos (Nat.le_refl _) (Nat.zero_le _)
  simp only [Nat.cast_zero, List.drop_zero, Nat.sub_self, List.take_zero] at hcopy
  obtain ⟨b1, hb1, hb1'⟩ := append_spec hb (holds_strOf [])
  obtain ⟨b2, hb2, hb2'⟩ := append_spec hb1' hn
  rw [List.append_nil] at hb2'
  refine ⟨b2, hb2', ?_⟩
  conv_lhs => unfold replaceLoop
  rw [find_pattern_empty hs ho, bind_ok, if_pos (by simp [STR_NOT_FOUND])]
  simp only [Int.add_zero]
  rw [hcopy, bind_ok, hb1, bind_ok, hb2, bind_ok, ho.1]
  rfl

theorem replaceLoop_empty_fuel {s old new : string} {cs ns : List Int} (hs : Holds s cs)
    (ho : Holds old []) (hn : Holds new ns) (hne : cs ≠ []) :
    ∀ (fuel : Nat) (buffer tmp : string) (acc : List Int), Holds buffer acc →
      replaceLoop s old new fuel buffer tmp 0 = .error Err.fuel := by
  intro fuel
  induction fuel with
  | zero => intro _ _ _ _; rfl
  | succ fuel ih =>
    intro buffer tmp acc hb
    obtain ⟨b2, hb2, e⟩ := replaceLoop_empty_step hs ho hn hne fuel buffer tmp acc hb
    rw [e]
    exact ih b2 _ _ hb2

/-! ## The claims, concluded -/

/-- C21: for a non-empty pattern the table that `_find_pattern` builds has `match[0] = -1` and,
for `1 ≤ j < m`, `match[j] = L - 1` where `L` is the length of the longest proper prefix of
`pattern[0..j]` (index `j` included) that is also a suffix of it, hence -1 when only the empty
prefix is one. -/
theorem failure_table_longest_border (p : string) (ps : List Int) (hp : Holds p ps)
    (hne : ps ≠ []) :
    (∀ (str : cptr) (n : Int), p.size ≤ n →
      _find_pattern str ⟨p.data, 0⟩ n p.size
        = failureTable ⟨p.data, 0⟩ p.size >>= fun mtch =>
            scan str ⟨p.data, 0⟩ mtch n p.size (2 * n.toNat + 1) 0 0 >>= fun sp =>
              pure (if sp.2 = p.size then sp.1 - p.size else STR_NOT_FOUND)) ∧
    (∃ mtch, failureTable ⟨p.data, 0⟩ p.size = .ok mtch ∧ mtch.length = ps.length ∧
      mtch[0]? = some (some (-1)) ∧
      ∀ j, 1 ≤ j → j < ps.length →
        ∃ L : Nat, mtch[j]? = some (some ((L : Int) - 1)) ∧ longestBorder (ps.take (j + 1)) L ∧
          ((∀ L', 0 < L' → ¬ properBorder (ps.take (j + 1)) L') →
            mtch[j]? = some (some (-1)))) ∧
    failureTable ⟨(strOf [97, 97, 98, 97, 97, 97, 98]).data, 0⟩ 7
      = .ok [some (-1), some 0, some (-1), some 0, some 1, some 1, some 2] := by
  have hpos : 0 < ps.length := List.length_pos.mpr hne
  have hR := reads_of_holds hp 0
  simp only [List.drop_zero, Nat.cast_zero] at hR
  obtain ⟨mtch, h1, h2⟩ := failureTable_spec hR hpos
  refine ⟨fun str n hn => ?_, ⟨mtch, by rw [hp.1]; exact h1, h2.1, ?_, fun j hj1 hj2 => ?_⟩, rfl⟩
  · rw [find_pattern_eq_table, if_neg (by omega), if_neg (by rw [hp.1]; omega)]
  · have := h2.2 0 hpos
    have h0 : maxBorder (fun k => ps.getD k 0) 0 = 0 := Nat.le_zero.mp (maxBorder_le _ 0)
    rw [h0] at this
    simpa using this
  · have hl := maxBorder_longest ps j hj2
    refine ⟨_, h2.2 j hj2, hl, fun hnone => ?_⟩
    have hz : maxBorder (fun k => ps.getD k 0) j = 0 := by
      by_contra hc
      exact hnone _ (Nat.pos_of_ne_zero hc) hl.1
    rw [h2.2 j hj2, hz]
    simp

theorem failure_table_longest_border_witness :
    Holds (strOf [97, 98, 97]) [97, 98, 97] ∧
    ∃ mtch, failureTable ⟨(strOf [97, 98, 97]).data, 0⟩ (strOf [97, 98, 97]).size = .ok mtch ∧
      mtch.length = ([97, 98, 97] : List Int).length ∧
      mtch[0]? = some (some (-1)) ∧
      ∀ j, 1 ≤ j → j < ([97, 98, 97] : List Int).length →
        ∃ L : Nat, mtch[j]? = some (some ((L : Int) - 1)) ∧
          longestBorder (([97, 98, 97] : List Int).take (j + 1)) L ∧
          ((∀ L', 0 < L' → ¬ properBorder (([97, 98, 97] : List Int).take (j + 1)) L') →
            mtch[j]? = some (some (-1))) :=
  ⟨by decide,
    (failure_table_longest_border (strOf [97, 98, 97]) [97, 98, 97] (by decide)
      (by decide)).2.1⟩

/-- C22: a single trailing separator produces no trailing empty fragment: for a one-byte
separator `c` and a non-empty string that does not end with `c`, `str_split` returns for the
string followed by `c` the array it returns for the string itself; and `split("a,b,", ",")`
is `["a", "b"]`. -/
theorem str_split_trailing_separator (s s2 sep : string) (cs : List Int) (c : Int)
    (hs : Holds s cs) (hs2 : Holds s2 (cs ++ [c])) (ho : Holds sep [c]) (hne : cs ≠ [])
    (hlast : cs.getLast? ≠ some c) :
    str_split s2 sep = str_split s sep ∧
    str_split s sep = .ok ((splitSpec [c] cs).map cell ++ [some none]) ∧
    str_split (strOf [97, 44, 98, 44]) (strOf [44])
      = .ok [cell [97], cell [98], some none] := by
  have hc : ([c] : List Int) ≠ [] := by simp
  refine ⟨?_, split_spec hs ho hc, rfl⟩
  rw [split_spec hs2 ho hc, split_spec hs ho hc, splitSpec_trailing c cs.length cs
    (Nat.le_refl _) hne hlast]

theorem str_split_trailing_separator_witness :
    Holds (strOf [97, 44, 98]) [97, 44, 98] ∧ Holds (strOf [97, 44, 98, 44]) ([97, 44, 98] ++ [44])
      ∧ Holds (strOf [44]) [44] ∧
    str_split (strOf [97, 44, 98, 44]) (strOf [44])
      = str_split (strOf [97, 44, 98]) (strOf [44]) :=
  ⟨by decide, by decide, by decide,
    (str_split_trailing_separator (strOf [97, 44, 98]) (strOf [97, 44, 98, 44]) (strOf [44])
      [97, 44, 98] 44 (by decide) (by decide) (by decide) (by decide) (by decide)).1⟩

/-- C23: `str_strip` tests the value of the `char`, `data[i] <= 0x20`. It leaves the string
without its leading and trailing runs of chars of value `≤ 0x20`; where no char is negative
these are the bytes `0x00..0x20` and a first or last byte in `0x80..0xFF` stays in place. Where
`char` is signed the bytes `0x80..0xFF` are the chars `-128..-1`, and they are removed: of the
bytes `C3 A9 41` only `41` is left, of `41 C3 A9` only `41`, and of `C3 A9` nothing. -/
theorem str_strip_high_bytes :
    (∀ (s : string) (cs : List Int), Holds s cs →
      ∃ r, str_strip s = .ok r ∧ Holds r (stripSpec leBlank cs)) ∧
    (∀ (s : string) (cs : List Int), Holds s cs → (∀ c ∈ cs, 0 ≤ c ∧ c ≤ 255) →
      ∃ r, str_strip s = .ok r ∧ Holds r (stripSpec isBlankByte cs)) ∧
    (∀ c : Int, -128 ≤ c → c < 0 → 0x80 ≤ byteVal c ∧ byteVal c ≤ 0xFF ∧ leBlank c = true ∧
      isBlankByte c = false) ∧
    (byteVal (-61) = 0xC3 ∧ byteVal (-87) = 0xA9 ∧ byteVal 65 = 0x41) ∧
    (∃ r, str_strip (strOf [-61, -87, 65]) = .ok r ∧ Holds r [65]) ∧
    (∃ r, str_strip (strOf [65, -61, -87]) = .ok r ∧ Holds r [65]) ∧
    (∃ r, str_strip (strOf [-61, -87]) = .ok r ∧ Holds r []) ∧
    stripSpec isBlankByte [-61, -87, 65] = [-61, -87, 65] ∧
    stripSpec isBlankByte [65, -61, -87] = [65, -61, -87] := by
  refine ⟨fun s cs hs => ?_, fun s cs hs hb => ?_, fun c h1 h2 => ?_, by decide,
    ⟨_, rfl, by decide⟩, ⟨_, rfl, by decide⟩, ⟨_, rfl, by decide⟩, by decide, by decide⟩
  · obtain ⟨r, h1, h2, _⟩ := strip_spec hs
    exact ⟨r, h1, h2⟩
  · obtain ⟨r, h1, h2, _⟩ := strip_spec hs
    refine ⟨r, h1, ?_⟩
    rw [← stripSpec_congr cs (fun x hx => leBlank_eq_isBlankByte (hb x hx).1 (hb x hx).2)]
    exact h2
  · have hv : byteVal c = c + 256 := by
      unfold byteVal
      omega
    refine ⟨by omega, by omega, ?_, ?_⟩
    · unfold leBlank
      exact decide_eq_true (by omega)
    · unfold isBlankByte
      exact decide_eq_false (by omega)

/-- C24: with an empty `old` pattern `str_replace` never returns normally. For a non-empty
string the matcher answers relative index 0, an iteration of the loop started at offset 0 ends at
offset 0 with `new` appended to the buffer, and so the loop runs out of every bound on its
number of iterations; for the empty string the first `_copy_range(tmp, s, 0, 0)` fails the
out-of-range check and so does `str_replace`. -/
theorem str_replace_empty_old (s old new : string) (cs ns : List Int) (hs : Holds s cs)
    (ho : Holds old []) (hn : Holds new ns) :
    _find_pattern ⟨s.data, 0⟩ ⟨old.data, 0⟩ (s.size - 0) old.size = .ok 0 ∧
    (cs ≠ [] →
      (∀ (fuel : Nat) (buffer tmp : string) (acc : List Int), Holds buffer acc →
        ∃ buffer' tmp', Holds buffer' (acc ++ ns) ∧
          replaceLoop s old new (fuel + 1) buffer tmp 0
            = replaceLoop s old new fuel buffer' tmp' 0) ∧
      (∀ (fuel : Nat) (buffer tmp : string) (acc : List Int), Holds buffer acc →
        replaceLoop s old new fuel buffer tmp 0 = .error Err.fuel) ∧
      ∀ r, str_replace s old new ≠ .ok r) ∧
    (cs = [] →
      (∀ tmp, _copy_range tmp s 0 0 = .error Err.outOfRange) ∧
      (∀ (fuel : Nat) (buffer tmp : string),
        replaceLoop s old new (fuel + 1) buffer tmp 0 = .error Err.outOfRange) ∧
      str_replace s old new = .error Err.outOfRange) := by
  refine ⟨find_pattern_empty hs ho, fun hne => ⟨fun fuel buffer tmp acc hb => ?_,
    replaceLoop_empty_fuel hs ho hn hne, fun r hr => ?_⟩, fun he => ?_⟩
  · obtain ⟨b2, hb2, e⟩ := replaceLoop_empty_step hs ho hn hne fuel buffer tmp acc hb
    exact ⟨b2, _, hb2, e⟩
  · unfold str_replace at hr
    rw [str_create_eq, bind_ok, bind_ok,
      replaceLoop_empty_fuel hs ho hn hne _ _ _ [] holds_create] at hr
    cases hr
  · subst he
    have hsz : s.size = 0 := hs.1
    have hcopy : ∀ tmp, _copy_range tmp s 0 0 = .error Err.outOfRange := by
      intro tmp
      unfold _copy_range
      rw [check_bounds_fail (by rw [hsz]; omega)]
      rfl
    have hloop : ∀ (fuel : Nat) (buffer tmp : string),
        replaceLoop s old new (fuel + 1) buffer tmp 0 = .error Err.outOfRange := by
      intro fuel buffer tmp
      conv_lhs => unfold replaceLoop
      rw [find_pattern_empty hs ho, bind_ok, if_pos (by simp [STR_NOT_FOUND])]
      simp only [Int.add_zero]
      rw [hcopy]
      rfl
    refine ⟨hcopy, hloop, ?_⟩
    unfold str_replace
    rw [str_create_eq, bind_ok, bind_ok, hsz]
    show (replaceLoop s old new (0 + 1) _ _ 0 >>= _) = _
    rw [hloop]
    rfl

theorem str_replace_empty_old_witness :
    (Holds (strOf [97, 98]) [97, 98] ∧ Holds (strOf []) [] ∧ Holds (strOf [120]) [120] ∧
      ∀ (fuel : Nat) (buffer tmp : string) (acc : List Int), Holds buffer acc →
        replaceLoop (strOf [97, 98]) (strOf []) (strOf [120]) fuel buffer tmp 0
          = .error Err.fuel) ∧
    str_replace (strOf []) (strOf []) (strOf [120]) = .error Err.outOfRange :=
  ⟨⟨by decide, by decide, by decide,
    ((str_replace_empty_old (strOf [97, 98]) (strOf []) (strOf [120]) [97, 98] [120]
      (by decide) (by decide) (by decide)).2.1 (by decide)).2.1⟩,
    ((str_replace_empty_old (strOf []) (strOf []) (strOf [120]) [] [120]
      (by decide) (by decide) (by decide)).2.2 rfl).2.2⟩

/-- C25: for a non-empty separator the number of fragments `str_split` produces is at most the
size of the string, so the fragments and the final `NULL` marker are written at indices `≤ size`
of the `size + 1` pointer cells allocated (a write at any other index is `Err.badAccess`), and
the array returned has at most `size + 1` cells. -/
theorem str_split_count_le_size (s sep : string) (cs ss : List Int) (hs : Holds s cs)
    (ho : Holds sep ss) (hne : ss ≠ []) :
    ∃ (frags : List (List Int)) (arr : Buf (Option string)),
      str_split s sep = .ok arr ∧ arr = frags.map cell ++ [some none] ∧
      frags = splitSpec ss cs ∧ (frags.length : Int) ≤ s.size ∧
      (arr.length : Int) ≤ s.size + 1 ∧
      arr[frags.length]? = some (some none) ∧
      (∃ str_arr : Buf (Option string), malloc (s.size + 1) = .ok str_arr ∧
        (str_arr.length : Int) = s.size + 1 ∧
        (∀ (k : Nat) (v : Option string), k ≤ frags.length →
          wr str_arr (k : Int) v = .ok (str_arr.set k (some v))) ∧
        ∀ (k : Nat) (v : Option string), str_arr.length ≤ k →
          wr str_arr (k : Int) v = .error Err.badAccess) := by
  have hlen := splitSpec_length_le hne cs.length cs (Nat.le_refl _)
  refine ⟨splitSpec ss cs, _, split_spec hs ho hne, rfl, rfl, by rw [hs.1]; exact_mod_cast hlen,
    ?_, ?_, List.replicate (cs.length + 1) none, ?_, ?_, fun k v hk => ?_,
    fun k v hk => wr_outside _ k v hk⟩
  · rw [hs.1, List.length_append, List.length_map, List.length_singleton]
    exact_mod_cast Nat.succ_le_succ hlen
  · rw [List.getElem?_append_right (by simp)]
    simp
  · rw [hs.1]
    exact malloc_nat (cs.length + 1)
  · rw [hs.1, List.length_replicate]
    push_cast
    rfl
  · exact wr_nat v (by rw [List.length_replicate]; omega)

theorem str_split_count_le_size_witness :
    Holds (strOf [44, 97, 44, 44]) [44, 97, 44, 44] ∧ Holds (strOf [44]) [44] ∧
    ∃ (frags : List (List Int)) (arr : Buf (Option string)),
      str_split (strOf [44, 97, 44, 44]) (strOf [44]) = .ok arr ∧
      arr = frags.map cell ++ [some none] ∧
      frags = splitSpec [44] [44, 97, 44, 44] ∧
      (frags.length : Int) ≤ (strOf [44, 97, 44, 44]).size ∧
      (arr.length : Int) ≤ (strOf [44, 97, 44, 44]).size + 1 ∧
      arr[frags.length]? = some (some none) ∧
      (∃ str_arr : Buf (Option string),
        malloc ((strOf [44, 97, 44, 44]).size + 1) = .ok str_arr ∧
        (str_arr.length : Int) = (strOf [44, 97, 44, 44]).size + 1 ∧
        (∀ (k : Nat) (v : Option string), k ≤ frags.length →
          wr str_arr (k : Int) v = .ok (str_arr.set k (some v))) ∧
        ∀ (k : Nat) (v : Option string), str_arr.length ≤ k →
          wr str_arr (k : Int) v = .error Err.badAccess) :=
  ⟨by decide, by decide,
    str_split_count_le_size (strOf [44, 97, 44, 44]) (strOf [44]) [44, 97, 44, 44] [44]
      (by decide) (by decide) (by decide)⟩

/-- C26: for a pattern of length `m ≥ 1` every entry of the table satisfies
`-1 ≤ match[j] < j`; and run on a subject block of exactly `n` cells and a pattern block of
exactly `m` cells, with the table of `m` cells it allocates, `_find_pattern` returns its result:
any index outside a block would be `Err.badAccess` and any loop not finished in its bound
`Err.fuel`, so every index used is in range and the back-off and scan loops terminate. -/
theorem find_pattern_in_range (cs ps : List Int) (hne : ps ≠ []) :
    (∃ mtch, failureTable ⟨ps.map some, 0⟩ ps.length = .ok mtch ∧ mtch.length = ps.length ∧
      ∀ j, j < ps.length → ∃ v : Int, mtch[j]? = some (some v) ∧ -1 ≤ v ∧ v < (j : Int)) ∧
    (∃ r, _find_pattern ⟨cs.map some, 0⟩ ⟨ps.map some, 0⟩ cs.length ps.length = .ok r ∧
      r = findSpec cs ps) ∧
    (∀ i : Int, i < 0 ∨ (cs.length : Int) ≤ i →
      cptr.at ⟨cs.map some, 0⟩ i = .error Err.badAccess) ∧
    (∀ i : Int, i < 0 ∨ (ps.length : Int) ≤ i →
      cptr.at ⟨ps.map some, 0⟩ i = .error Err.badAccess) ∧
    (∀ (mtch : Buf Int) (i : Int), mtch.length = ps.length → i < 0 ∨ (ps.length : Int) ≤ i →
      rd mtch i = .error Err.badAccess) := by
  have hpos : 0 < ps.length := List.length_pos.mpr hne
  obtain ⟨mtch, h1, h2⟩ := failureTable_spec (reads_exact ps) hpos
  refine ⟨⟨mtch, h1, h2.1, fun j hj => ?_⟩,
    ⟨_, find_pattern_list (reads_exact cs) (reads_exact ps), rfl⟩, fun i hi => ?_,
    fun i hi => ?_, fun t i ht hi => rd_outside t i (by rw [ht]; exact hi)⟩
  · obtain ⟨v, hv1, hv2, hv3, _⟩ := table_entries h2 j hj
    exact ⟨v, hv1, hv2, hv3⟩
  · show rd (cs.map some) ((0 : Int) + i) = _
    rw [Int.zero_add]
    exact rd_outside _ i (by simpa using hi)
  · show rd (ps.map some) ((0 : Int) + i) = _
    rw [Int.zero_add]
    exact rd_outside _ i (by simpa using hi)

theorem find_pattern_in_range_witness :
    ∃ r, _find_pattern ⟨([97, 98, 97, 98, 99] : List Int).map some, 0⟩
        ⟨([97, 98, 99] : List Int).map some, 0⟩ ([97, 98, 97, 98, 99] : List Int).length
        ([97, 98, 99] : List Int).length = .ok r ∧
      r = findSpec [97, 98, 97, 98, 99] [97, 98, 99] :=
  (find_pattern_in_range [97, 98, 97, 98, 99] [97, 98, 99] (by decide)).2.1

end MyString

/-! # The binary search tree: lemmas and claims -/

namespace BinarySearchTree

theorem keys_node {tree_data_t : Type} (d : tree_data_t) (l r : tree_node tree_data_t) (k : tree_data_t) :
    k ∈ keys (.node d l r) ↔ k ∈ keys l ∨ k = d ∨ k ∈ keys r := by
  simp [keys]

theorem insert_keys {tree_data_t : Type} [LinearOrder tree_data_t] (x : tree_data_t) :
    ∀ (t : tree_node tree_data_t) (k : tree_data_t),
      k ∈ keys (InsertNode t x) ↔ k ∈ keys t ∨ k = x := by
  intro t
  induction t with
  | NULL => intro k; simp [InsertNode, keys]
  | node d l r ihl ihr =>
    intro k
    unfold InsertNode
    by_cases h1 : x < d
    · rw [if_pos h1, keys_node, keys_node, ihl]
      tauto
    · rw [if_neg h1]
      by_cases h2 : x > d
      · rw [if_pos h2, keys_node, keys_node, ihr]
        tauto
      · rw [if_neg h2]
        have hx : x = d := le_antisymm (not_lt.mp h2) (not_lt.mp h1)
        rw [keys_node, hx]
        tauto

theorem insert_ordered {tree_data_t : Type} [LinearOrder tree_data_t] (x : tree_data_t) :
    ∀ t : tree_node tree_data_t, Ordered t → Ordered (InsertNode t x) := by
  intro t
  induction t with
  | NULL => intro _; simp [InsertNode, Ordered, keys]
  | node d l r ihl ihr =>
    rintro ⟨hl, hr, hlt, hgt⟩
    unfold InsertNode
    by_cases h1 : x < d
    · rw [if_pos h1]
      refine ⟨ihl hl, hr, fun k hk => ?_, hgt⟩
      rcases (insert_keys x l k).mp hk with h | h
      · exact hlt k h
      · rw [h]; exact h1
    · rw [if_neg h1]
      by_cases h2 : x > d
      · rw [if_pos h2]
        refine ⟨hl, ihr hr, hlt, fun k hk => ?_⟩
        rcases (insert_keys x r k).mp hk with h | h
        · exact hgt k h
        · rw [h]; exact h2
      · rw [if_neg h2]
        exact ⟨hl, hr, hlt, hgt⟩

theorem isNULL_iff {tree_data_t : Type} (t : tree_node tree_data_t) : t.isNULL = true ↔ t = .NULL := by
  cases t <;> simp [tree_node.isNULL]

theorem findMin_spec {tree_data_t : Type} [LinearOrder tree_data_t] :
    ∀ t : tree_node tree_data_t, t.isNULL = false →
      ∃ m ml mr, FindMinNode t = .node m ml mr ∧ m ∈ keys t ∧
        (Ordered t → ∀ k ∈ keys t, m ≤ k) := by
  intro t
  induction t with
  | NULL => intro h; simp [tree_node.isNULL] at h
  | node d l r ihl _ =>
    intro _
    unfold FindMinNode
    cases hl : l.isNULL with
    | true =>
      rw [if_pos rfl]
      have hl' := (isNULL_iff l).mp hl
      subst hl'
      refine ⟨d, _, _, rfl, by simp [keys], ?_⟩
      rintro ⟨_, _, _, hgt⟩ k hk
      rcases (keys_node d _ r k).mp hk with h | h | h
      · simp [keys] at h
      · exact le_of_eq h.symm
      · exact le_of_lt (hgt k h)
    | false =>
      rw [if_neg (by simp)]
      obtain ⟨m, ml, mr, e, hm, hmin⟩ := ihl hl
      refine ⟨m, ml, mr, e, (keys_node d l r m).mpr (Or.inl hm), ?_⟩
      rintro ⟨hol, _, hlt, hgt⟩ k hk
      have hmd : m < d := hlt m hm
      rcases (keys_node d l r k).mp hk with h | h | h
      · exact hmin hol k h
      · rw [h]; exact le_of_lt hmd
      · exact le_of_lt (lt_trans hmd (hgt k h))

theorem delete_spec {tree_data_t : Type} [LinearOrder tree_data_t] :
    ∀ (t : tree_node tree_data_t) (x : tree_data_t), Ordered t →
      ∃ t', DeleteNode t x = some t' ∧ Ordered t' ∧
        ∀ k, k ∈ keys t' ↔ k ∈ keys t ∧ k ≠ x := by
  intro t
  induction t with
  | NULL =>
    intro x _
    exact ⟨.NULL, rfl, trivial, fun k => by simp [keys]⟩
  | node d l r ihl ihr =>
    rintro x ⟨hl, hr, hlt, hgt⟩
    unfold DeleteNode
    by_cases h1 : x < d
    · rw [if_pos h1]
      obtain ⟨l', e, ho, hk⟩ := ihl x hl
      rw [e]
      refine ⟨_, rfl, ⟨ho, hr, fun k h => hlt k ((hk k).mp h).1, hgt⟩, fun k => ?_⟩
      rw [keys_node, keys_node, hk]
      constructor
      · rintro (⟨h, hne⟩ | h | h)
        · exact ⟨Or.inl h, hne⟩
        · exact ⟨Or.inr (Or.inl h), by rw [h]; exact ne_of_gt h1⟩
        · exact ⟨Or.inr (Or.inr h), ne_of_gt (lt_trans h1 (hgt k h))⟩
      · rintro ⟨h | h | h, hne⟩
        · exact Or.inl ⟨h, hne⟩
        · exact Or.inr (Or.inl h)
        · exact Or.inr (Or.inr h)
    · rw [if_neg h1]
      by_cases h2 : x > d
      · rw [if_pos h2]
        obtain ⟨r', e, ho, hk⟩ := ihr x hr
        rw [e]
        refine ⟨_, rfl, ⟨hl, ho, hlt, fun k h => hgt k ((hk k).mp h).1⟩, fun k => ?_⟩
        rw [keys_node, keys_node, hk]
        constructor
        · rintro (h | h | ⟨h, hne⟩)
          · exact ⟨Or.inl h, ne_of_lt (lt_trans (hlt k h) h2)⟩
          · exact ⟨Or.inr (Or.inl h), by rw [h]; exact ne_of_lt h2⟩
          · exact ⟨Or.inr (Or.inr h), hne⟩
        · rintro ⟨h | h | h, hne⟩
          · exact Or.inl h
          · exact Or.inr (Or.inl h)
          · exact Or.inr (Or.inr ⟨h, hne⟩)
      · rw [if_neg h2]
        have hx : x = d := le_antisymm (not_lt.mp h2) (not_lt.mp h1)
        subst hx
        cases hln : l.isNULL with
        | true =>
          have hl' := (isNULL_iff l).mp hln
          subst hl'
          simp only [Bool.not_true, Bool.false_and, Bool.false_eq_true, if_false, if_true]
          refine ⟨r, rfl, hr, fun k => ?_⟩
          rw [keys_node]
          constructor
          · intro h
            exact ⟨Or.inr (Or.inr h), ne_of_gt (hgt k h)⟩
          · rintro ⟨h | h | h, hne⟩
            · simp [keys] at h
            · exact absurd h hne
            · exact h
        | false =>
          cases hrn : r.isNULL with
          | true =>
            have hr' := (isNULL_iff r).mp hrn
            subst hr'
            simp only [Bool.not_true, Bool.and_false, Bool.false_eq_true, if_false]
            refine ⟨l, rfl, hl, fun k => ?_⟩
            rw [keys_node]
            constructor
            · intro h
              exact ⟨Or.inl h, ne_of_lt (hlt k h)⟩
            · rintro ⟨h | h | h, hne⟩
              · exact h
              · exact absurd h hne
              · simp [keys] at h
          | false =>
            simp only [Bool.not_false, Bool.and_self, if_true]
            obtain ⟨m, ml, mr, e, hm, hmin⟩ := findMin_spec r hrn
            rw [e]
            obtain ⟨r', e', ho, hk⟩ := ihr m hr
            simp only [e', Option.map_some']
            have hxm : x < m := hgt m hm
            refine ⟨_, rfl, ⟨hl, ho, fun k h => lt_trans (hlt k h) hxm, fun k h => ?_⟩,
              fun k => ?_⟩
            · obtain ⟨h3, h4⟩ := (hk k).mp h
              exact lt_of_le_of_ne (hmin hr k h3) (Ne.symm h4)
            · rw [keys_node, keys_node, hk]
              constructor
              · rintro (h | h | ⟨h, _⟩)
                · exact ⟨Or.inl h, ne_of_lt (hlt k h)⟩
                · exact ⟨Or.inr (Or.inr (by rw [h]; exact hm)), by rw [h]; exact ne_of_gt hxm⟩
                · exact ⟨Or.inr (Or.inr h), ne_of_gt (hgt k h)⟩
              · rintro ⟨h | h | h, hne⟩
                · exact Or.inl h
                · exact absurd h hne
                · by_cases hkm : k = m
                  · exact Or.inr (Or.inl hkm)
                  · exact Or.inr (Or.inr ⟨h, hkm⟩)

/-! ## The claim about the tree -/

/-- C27: the binary-search ordering is an invariant of the tree operations. The tree that
`Tree_Create` makes satisfies it, and for a tree that satisfies it and a key `x`, `Tree_Insert`
yields a tree that satisfies it with key set `keys ∪ {x}`, and `Tree_Delete` returns, with a
tree that satisfies it and has key set `keys \ {x}`. -/
theorem tree_ordering_invariant {tree_data_t : Type} [LinearOrder tree_data_t]
    (t : tree tree_data_t) (x : tree_data_t) (h : Ordered t.root) :
    Ordered (Tree_Create : tree tree_data_t).root ∧
    (Ordered (Tree_Insert t x).root ∧ keySet (Tree_Insert t x).root = keySet t.root ∪ {x}) ∧
    (∃ t', Tree_Delete t x = some t' ∧ Ordered t'.root ∧
      keySet t'.root = keySet t.root \ {x}) := by
  refine ⟨trivial, ⟨insert_ordered x t.root h, ?_⟩, ?_⟩
  · ext k
    exact insert_keys x t.root k
  · obtain ⟨r, e, ho, hk⟩ := delete_spec t.root x h
    refine ⟨⟨r⟩, ?_, ho, ?_⟩
    · unfold Tree_Delete
      rw [e]
      rfl
    · ext k
      exact hk k

theorem tree_ordering_invariant_witness :
    Ordered (tree.mk (tree_node.node (5 : Int) (.node 3 .NULL .NULL)
      (.node 8 (.node 6 .NULL .NULL) .NULL))).root ∧
    (∃ t', Tree_Delete (tree.mk (tree_node.node (5 : Int) (.node 3 .NULL .NULL)
        (.node 8 (.node 6 .NULL .NULL) .NULL))) 5 = some t' ∧ Ordered t'.root ∧
      keySet t'.root = keySet (tree_node.node (5 : Int) (.node 3 .NULL .NULL)
        (.node 8 (.node 6 .NULL .NULL) .NULL)) \ {5}) ∧
    Tree_Delete (tree.mk (tree_node.node (5 : Int) (.node 3 .NULL .NULL)
        (.node 8 (.node 6 .NULL .NULL) .NULL))) 5
      = some (tree.mk (.node 6 (.node 3 .NULL .NULL) (.node 8 .NULL .NULL))) ∧
    Tree_Insert (tree.mk (tree_node.node (5 : Int) (.node 3 .NULL .NULL)
        (.node 8 (.node 6 .NULL .NULL) .NULL))) 7
      = tree.mk (.node 5 (.node 3 .NULL .NULL) (.node 8 (.node 6 .NULL (.node 7 .NULL .NULL))
        .NULL)) :=
  ⟨by simp [Ordered, keys],
    (tree_ordering_invariant (tree.mk (tree_node.node (5 : Int) (.node 3 .NULL .NULL)
      (.node 8 (.node 6 .NULL .NULL) .NULL))) 5 (by simp [Ordered, keys])).2.2, rfl, rfl⟩

end BinarySearchTree
